import Mathlib

/-! # Multi-layer tree allreduce (`msallreduce_operations.cc`)

A shallow embedding of `MsAllreduceOp` : the element kernels
(`ComputeDotAndNormSqrd`, `TAXPY`), the pairwise combine step
(`PairwiseReduce_Internal`), the tree reduction / broadcast
(`MsAllreduce_Internal`) and the type dispatch of `Execute`.

Conventions of the embedding.

* A C buffer is a `List`; a pointer `&buf[begin]` is the buffer together with the
  base index `begin`.  A read or write outside the buffer is a fault (`none`).
* The C `int` quantities of the tree (ranks, sizes, levels, tags, counts) are
  non-negative and are modelled by `Nat`, without the bound of the machine type.
* The ranks of a communicator run in lock step, one tree level at a time: a rank
  makes at most one point-to-point call per level, and a call at a level can only
  be matched by the call of its peer at the same level.
* The template parameter `T` (with `TACC = T`, the only instantiation the file
  makes) is an `ElemType`: the arithmetic the template body uses, as the C++
  type evaluates it.
-/

namespace MsAllreduceOp

/-! ## Element types -/

/-- The arithmetic of one instantiation `PairwiseReduce_Internal<T, T>`, i.e. of the
storage type `T` used as its own accumulator type `TACC`. -/
structure ElemType (α : Type) where
  /-- the value `(TACC)0` and the literals `0.`, `0.f` converted to `TACC` -/
  zero : α
  /-- the literal `1.0f` converted to `TACC` -/
  one : α
  /-- the literal `1e-18f` converted to `TACC` -/
  thresh : α
  /-- the value stored by `acc += x * y` and by `y = a * x + y` : `acc + x * y` -/
  mulAdd : α → α → α → α
  /-- the value stored by `acc += loc` -/
  add : α → α → α
  /-- the test `std::abs(norm) < thresh` -/
  absLt : α → α → Bool
  /-- the value of `1.f - dotProduct / norm` converted to `TACC`; `none` when the
  division has no value (division by zero) -/
  oneMinusQuot : α → α → Option α

/-- Exact arithmetic for the floating-point element types (`float`, `double`):
values are rationals, no rounding.  The threshold is the value of the `float`
literal `1e-18f`, the single-precision number nearest to `10^-18`, which is
`9671407 / 2^83` (about `1.0000000458 * 10^-18`); its conversion to `double` is
exact. -/
def exactElem : ElemType ℚ where
  zero := 0
  one := 1
  thresh := 9671407 / 2 ^ 83
  mulAdd acc x y := acc + x * y
  add a b := a + b
  absLt norm thresh := decide (|norm| < thresh)
  oneMinusQuot dotProduct norm := if norm = 0 then none else some (1 - dotProduct / norm)

/-- Conversion of an integer value to a `bits`-wide integer type: reduction modulo
`2^bits`, into `[0, 2^bits)` for an unsigned type and into
`[-2^(bits-1), 2^(bits-1))` for a signed one. -/
def narrow (bits : Nat) (signed : Bool) (x : Int) : Int :=
  if signed then (x + 2 ^ (bits - 1)) % 2 ^ bits - 2 ^ (bits - 1) else x % 2 ^ bits

/-- The integer element types (`int8_t`, `uint8_t`, `int16_t`, `uint16_t`,
`int32_t`, `int64_t`).  Every value assigned to a `T` variable is narrowed to
`T`; `1e-18f` converts to `0`; `dotProduct / norm` is the truncating integer
division, which has no value for `norm == 0`.  Signed overflow and an
out-of-range conversion, which C++ leaves undefined, are represented by the same
wrap-around as the narrowing. -/
def intElem (bits : Nat) (signed : Bool) : ElemType Int where
  zero := 0
  one := 1
  thresh := 0
  mulAdd acc x y := narrow bits signed (acc + x * y)
  add a b := narrow bits signed (a + b)
  absLt norm thresh := decide (|norm| < thresh)
  oneMinusQuot dotProduct norm :=
    if norm = 0 then none else some (narrow bits signed (1 - Int.tdiv dotProduct norm))

/-! ## Element kernels -/

/-- The loop of `ComputeDotAndNormSqrd` : `k` iterations remain, `i` is the loop
index, `a` and `b` are read at `base + i`. -/
def ComputeDotAndNormSqrd.loop {α : Type} (E : ElemType α) (a b : List α) (base : Nat) :
    Nat → Nat → α × α → Option (α × α)
  | 0, _, acc => some acc
  | k + 1, i, (dotProduct, normsq) =>
    match a[base + i]?, b[base + i]? with
    | some ai, some bi =>
      ComputeDotAndNormSqrd.loop E a b base k (i + 1)
        (E.mulAdd dotProduct ai bi, E.mulAdd normsq bi bi)
    | _, _ => none

/-- The call `ComputeDotAndNormSqrd(&a[base], &b[base], n, dotProduct, normsq)` : returns
`(dotProduct, normsq)`. -/
def ComputeDotAndNormSqrd {α : Type} (E : ElemType α) (a b : List α) (base n : Nat) :
    Option (α × α) :=
  ComputeDotAndNormSqrd.loop E a b base n 0 (E.zero, E.zero)

/-- The loop of `TAXPY` : `y[base + i] = a * x[base + i] + y[base + i]`. -/
def TAXPY.loop {α : Type} (E : ElemType α) (a : α) (x : List α) (base : Nat) :
    Nat → Nat → List α → Option (List α)
  | 0, _, y => some y
  | k + 1, i, y =>
    match x[base + i]?, y[base + i]? with
    | some xi, some yi => TAXPY.loop E a x base k (i + 1) (y.set (base + i) (E.mulAdd yi a xi))
    | _, _ => none

/-- The call `TAXPY(n, a, &x[base], &y[base])` : returns the updated buffer `y`. -/
def TAXPY {α : Type} (E : ElemType α) (n : Nat) (a : α) (x y : List α) (base : Nat) :
    Option (List α) :=
  TAXPY.loop E a x base n 0 y

/-! ## Pairwise combine -/

/-- First loop over the layers of one worker with index range `[myStart, myEnd)` :
the local dot product and squared norm of every overlapping layer are added
to the shared per-layer accumulators `dotProducts`, `norms` (indexed by layer;
the padding by `cache_alignment` is not represented).  The arguments after the
list of remaining layer sizes are `i` and `layer_begin`. -/
def accumulateLayers {α : Type} (E : ElemType α) (left_tensor right_tensor : List α)
    (myStart myEnd : Nat) :
    List Nat → Nat → Nat → List α × List α → Option (List α × List α)
  | [], _, _, acc => some acc
  | layer_size :: rest, i, layer_begin, (dotProducts, norms) =>
    let layer_end := layer_begin + layer_size
    if myEnd ≤ layer_begin then some (dotProducts, norms)
    else if myStart ≥ layer_end then
      accumulateLayers E left_tensor right_tensor myStart myEnd rest (i + 1) layer_end
        (dotProducts, norms)
    else
      let begin := max myStart layer_begin
      let stop := min myEnd layer_end
      match ComputeDotAndNormSqrd E left_tensor right_tensor begin (stop - begin) with
      | none => none
      | some (locDotProduct, locNorm) =>
        accumulateLayers E left_tensor right_tensor myStart myEnd rest (i + 1) layer_end
          (dotProducts.set i (E.add (dotProducts.getD i E.zero) locDotProduct),
           norms.set i (E.add (norms.getD i E.zero) locNorm))

/-- The coefficient of one layer:
`if (std::abs(norm) < thresh) coeff = 1.0f; else coeff = 1.f - dotProduct / norm;`. -/
def coefficient {α : Type} (E : ElemType α) (dotProduct norm : α) : Option α :=
  if E.absLt norm E.thresh then some E.one else E.oneMinusQuot dotProduct norm

/-- Second loop over the layers of one worker: every overlapping layer gets its
coefficient from the accumulated `dotProducts`, `norms` and the worker applies
`TAXPY` on its part of the layer.  Returns the updated `left_tensor`. -/
def combineLayers {α : Type} (E : ElemType α) (right_tensor : List α)
    (myStart myEnd : Nat) (dotProducts norms : List α) :
    List Nat → Nat → Nat → List α → Option (List α)
  | [], _, _, left_tensor => some left_tensor
  | layer_size :: rest, i, layer_begin, left_tensor =>
    let layer_end := layer_begin + layer_size
    if myEnd ≤ layer_begin then some left_tensor
    else if myStart ≥ layer_end then
      combineLayers E right_tensor myStart myEnd dotProducts norms rest (i + 1) layer_end
        left_tensor
    else
      let dotProduct := dotProducts.getD i E.zero
      let norm := norms.getD i E.zero
      match coefficient E dotProduct norm with
      | none => none
      | some coeff =>
        let begin := max myStart layer_begin
        let stop := min myEnd layer_end
        match TAXPY E (stop - begin) coeff right_tensor left_tensor begin with
        | none => none
        | some left_new =>
          combineLayers E right_tensor myStart myEnd dotProducts norms rest (i + 1) layer_end
            left_new

/-- The call `PairwiseReduce_Internal<T, T>(left_tensor, right_tensor, count, layer_sizes,
num_layers)` with `num_layers = layer_sizes.length`.  The source fixes `nt = 1`,
so the parallel region is the single worker `tid = 0` of `numThreads = 1`.
Returns the pair `(left_tensor, right_tensor)` after the call; the two buffers
are distinct objects (`__restrict__`). -/
def PairwiseReduce_Internal {α : Type} (E : ElemType α) (left_tensor right_tensor : List α)
    (count : Nat) (layer_sizes : List Nat) : Option (List α × List α) :=
  let nt := 1
  let num_layers := layer_sizes.length
  let norms := List.replicate num_layers E.zero
  let dotProducts := List.replicate num_layers E.zero
  let tid := 0
  let numThreads := nt
  let myStart := (count * tid) / numThreads
  let myEnd := (count * (tid + 1)) / numThreads
  match accumulateLayers E left_tensor right_tensor myStart myEnd layer_sizes 0 0
      (dotProducts, norms) with
  | none => none
  | some (dotProducts, norms) =>
    match combineLayers E right_tensor myStart myEnd dotProducts norms layer_sizes 0 0
        left_tensor with
    | none => none
    | some left_new => some (left_new, right_tensor)

/-! ## Tree reduction and broadcast -/

/-- The memory of one rank during `MsAllreduce_Internal`. -/
structure RankMem (α : Type) where
  gradient_buffer : List α
  result_buffer : List α

/-- The ranks of the communicator, indexed by true rank: `some m` is a rank that
has reached the current program point with memory `m`, `none` is a rank that
has faulted or is blocked in a call that cannot complete. -/
abbrev Ranks (α : Type) := Nat → Option (RankMem α)

/-- What a rank does at one level of the tree. -/
inductive Role where
  | idle : Role
  | recv (neighbor_true_rank : Nat) : Role
  | send (neighbor_true_rank : Nat) : Role
  deriving DecidableEq, Repr

/-- The virtual rank: `redn_rank = (true_rank + message_tag % size) % size`. -/
def redn_rank (size message_tag true_rank : Nat) : Nat :=
  let root_node_rotation := message_tag % size
  (true_rank + root_node_rotation) % size

/-- The true rank of a virtual rank:
`neighbor_true_rank = (neighbor_redn_rank + size - root_node_rotation) % size`. -/
def neighbor_true_rank (size message_tag neighbor_redn_rank : Nat) : Nat :=
  let root_node_rotation := message_tag % size
  (neighbor_redn_rank + size - root_node_rotation) % size

/-- The body of the reduction loop at `level`, as the call it makes. -/
def reductionRole (size message_tag true_rank level : Nat) : Role :=
  let redn_rank := redn_rank size message_tag true_rank
  let neighbor_redn_rank := redn_rank ^^^ level
  let neighbor_true_rank := neighbor_true_rank size message_tag neighbor_redn_rank
  if redn_rank % level ≠ 0 then Role.idle
  else if neighbor_redn_rank ≥ size then Role.idle
  else if redn_rank &&& level = 0 then Role.recv neighbor_true_rank
  else Role.send neighbor_true_rank

/-- The body of the broadcast loop at `level`, as the call it makes. -/
def broadcastRole (size message_tag true_rank level : Nat) : Role :=
  let redn_rank := redn_rank size message_tag true_rank
  let neighbor_redn_rank := redn_rank ^^^ level
  let neighbor_true_rank := neighbor_true_rank size message_tag neighbor_redn_rank
  if redn_rank % level ≠ 0 then Role.idle
  else if neighbor_redn_rank ≥ size then Role.idle
  else if redn_rank &&& level = 0 then Role.send neighbor_true_rank
  else Role.recv neighbor_true_rank

/-- Modelled from the spec: the point-to-point channel (`PointToPointRecv` is
declared outside the source files at hand).  A blocking `recv(buffer, count,
srcRank, tag)` issued by rank `me` at some level completes when `srcRank`, at
the same level, sends to `me`; it then overwrites the first `count` elements of
`buffer` with the first `count` elements of the sent buffer.  `roles` gives the
call of every rank at the level, `sent` the buffer each rank would send. -/
def PointToPointRecv {α : Type} (roles : Nat → Role) (sent : Nat → Option (List α))
    (me : Nat) (buffer : List α) (count src_rank : Nat) : Option (List α) :=
  match roles src_rank, sent src_rank with
  | Role.send dest_rank, some payload =>
    if dest_rank = me ∧ count ≤ payload.length ∧ count ≤ buffer.length then
      some (payload.take count ++ buffer.drop count)
    else none
  | _, _ => none

/-- Modelled from the spec: the point-to-point channel (`PointToPointSend` is
declared outside the source files at hand).  A blocking `send(buffer, count,
destRank, tag)` issued by rank `me` completes when `destRank`, at the same
level, has not faulted and receives from `me`; the sender reads `count`
elements of `buffer`. -/
def PointToPointSend {α : Type} (roles : Nat → Role) (alive : Nat → Bool)
    (me : Nat) (buffer : List α) (count dest_rank : Nat) : Option Unit :=
  match roles dest_rank, alive dest_rank with
  | Role.recv src_rank, true =>
    if src_rank = me ∧ count ≤ buffer.length then some () else none
  | _, _ => none

/-- One iteration of the reduction loop, executed by every rank. -/
def reductionLevel {α : Type} (E : ElemType α) (size message_tag count : Nat)
    (layer_sizes : List Nat) (level : Nat) (st : Ranks α) : Ranks α := fun true_rank =>
  match st true_rank with
  | none => none
  | some m =>
    match reductionRole size message_tag true_rank level with
    | Role.idle => some m
    | Role.recv neighbor =>
      match PointToPointRecv (fun r => reductionRole size message_tag r level)
          (fun r => (st r).map RankMem.gradient_buffer) true_rank m.result_buffer count
          neighbor with
      | none => none
      | some result_buffer =>
        match PairwiseReduce_Internal E m.gradient_buffer result_buffer count layer_sizes with
        | none => none
        | some (left, right) => some ⟨left, right⟩
    | Role.send neighbor =>
      match PointToPointSend (fun r => reductionRole size message_tag r level)
          (fun r => (st r).isSome) true_rank m.gradient_buffer count neighbor with
      | none => none
      | some _ => some m

/-- One iteration of the broadcast loop, executed by every rank. -/
def broadcastLevel {α : Type} (size message_tag count : Nat) (level : Nat)
    (st : Ranks α) : Ranks α := fun true_rank =>
  match st true_rank with
  | none => none
  | some m =>
    match broadcastRole size message_tag true_rank level with
    | Role.idle => some m
    | Role.send neighbor =>
      match PointToPointSend (fun r => broadcastRole size message_tag r level)
          (fun r => (st r).isSome) true_rank m.gradient_buffer count neighbor with
      | none => none
      | some _ => some m
    | Role.recv neighbor =>
      match PointToPointRecv (fun r => broadcastRole size message_tag r level)
          (fun r => (st r).map RankMem.gradient_buffer) true_rank m.gradient_buffer count
          neighbor with
      | none => none
      | some gradient_buffer => some ⟨gradient_buffer, m.result_buffer⟩

/-- The loop `for (level = 1; level < size; level *= 2)`, from the current `level`;
returns the value of `level` on exit and the ranks.  `none` : out of fuel. -/
def reductionLoop {α : Type} (E : ElemType α) (size message_tag count : Nat)
    (layer_sizes : List Nat) : Nat → Nat → Ranks α → Option (Nat × Ranks α)
  | 0, _, _ => none
  | fuel + 1, level, st =>
    if level < size then
      reductionLoop E size message_tag count layer_sizes fuel (level * 2)
        (reductionLevel E size message_tag count layer_sizes level st)
    else some (level, st)

/-- The loop `for (; level > 0; level /= 2)`, from the current `level`.
`none` : out of fuel. -/
def broadcastLoop {α : Type} (size message_tag count : Nat) :
    Nat → Nat → Ranks α → Option (Ranks α)
  | 0, _, _ => none
  | fuel + 1, level, st =>
    if level > 0 then
      broadcastLoop size message_tag count fuel (level / 2)
        (broadcastLevel size message_tag count level st)
    else some st

/-- The function `MsAllreduce_Internal<T>` run by all ranks of a communicator of `size` ranks,
each with its own `gradient_buffer` and `result_buffer` and the same `count`,
`message_tag` and `layer_sizes`. -/
def MsAllreduce_Internal {α : Type} (E : ElemType α) (size message_tag count : Nat)
    (layer_sizes : List Nat) (st : Ranks α) : Option (Ranks α) :=
  match reductionLoop E size message_tag count layer_sizes (size + 1) 1 st with
  | none => none
  | some (level, st) => broadcastLoop size message_tag count (level + 1) (level / 2) st

/-! ## Invariants of the two phases -/

/-- Every rank of the communicator has reached the program point, and both its
buffers hold `count` elements. -/
def AllReady {α : Type} (size count : Nat) (st : Ranks α) : Prop :=
  ∀ r, r < size → ∃ m, st r = some m ∧ m.gradient_buffer.length = count ∧
    m.result_buffer.length = count

/-- Every rank has reached the program point with a gradient buffer of `count`
elements, and the ranks whose virtual rank is a multiple of `level` hold `final`. -/
def HoldFinal {α : Type} (size message_tag count level : Nat) (final : List α)
    (st : Ranks α) : Prop :=
  ∀ r, r < size → ∃ m, st r = some m ∧ m.gradient_buffer.length = count ∧
    (redn_rank size message_tag r % level = 0 → m.gradient_buffer = final)

/-! ## `Execute` : dispatch on the element type -/

/-- The element type tags of a tensor (`enum DataType`, declared outside the source
files at hand): the tags the sources name, and `HOROVOD_BOOL`. -/
inductive DataType where
  | HOROVOD_UINT8 : DataType
  | HOROVOD_INT8 : DataType
  | HOROVOD_UINT16 : DataType
  | HOROVOD_INT16 : DataType
  | HOROVOD_INT32 : DataType
  | HOROVOD_INT64 : DataType
  | HOROVOD_FLOAT16 : DataType
  | HOROVOD_FLOAT32 : DataType
  | HOROVOD_FLOAT64 : DataType
  | HOROVOD_BOOL : DataType
  deriving DecidableEq, Repr

/-- The result of an operation: `Status::OK()` or `Status::InvalidArgument(reason)`. -/
inductive Status where
  | OK : Status
  | InvalidArgument (reason : String) : Status
  deriving DecidableEq, Repr

/-- The values of an element of the given type in the embedding: rationals (exact
arithmetic) for the floating-point types, integers for the other types. -/
@[reducible] def DataType.carrier : DataType → Type
  | DataType.HOROVOD_FLOAT16 => ℚ
  | DataType.HOROVOD_FLOAT32 => ℚ
  | DataType.HOROVOD_FLOAT64 => ℚ
  | _ => Int

/-- Modelled from the spec: the width in bytes of one element, so that `size()`
(bytes) is the number of elements times the width (`Tensor::size` is defined
outside the source files at hand). -/
def DataType.width : DataType → Nat
  | DataType.HOROVOD_UINT8 => 1
  | DataType.HOROVOD_INT8 => 1
  | DataType.HOROVOD_UINT16 => 2
  | DataType.HOROVOD_INT16 => 2
  | DataType.HOROVOD_INT32 => 4
  | DataType.HOROVOD_INT64 => 8
  | DataType.HOROVOD_FLOAT16 => 2
  | DataType.HOROVOD_FLOAT32 => 4
  | DataType.HOROVOD_FLOAT64 => 8
  | DataType.HOROVOD_BOOL => 1

/-- The two buffers of an entry on one rank: `e.tensor->data()` and
`e.output->data()`, two distinct buffers. -/
structure EntryBuffers (α : Type) where
  tensor : List α
  output : List α

/-- One entry of the batch, as held by every rank of the communicator: the element
type `e.output->dtype()`, the number of elements of the output tensor, and the
buffers of the entry on each true rank (`none` : the rank has faulted). -/
structure TensorTableEntry where
  dtype : DataType
  num_elements : Nat
  buffers : Nat → Option (EntryBuffers dtype.carrier)

/-- Modelled from the spec: `e.output->size()`, the byte length of the output tensor. -/
def TensorTableEntry.size (e : TensorTableEntry) : Nat :=
  e.num_elements * e.dtype.width

/-- The `switch (e.output->dtype())` of `Execute` : the instantiation of
`MsAllreduce_Internal<T>` selected by each case label; `none` is the `default`
label. -/
def Execute.instantiation : (dtype : DataType) → Option (ElemType dtype.carrier)
  | DataType.HOROVOD_INT8 => some (intElem 8 true)
  | DataType.HOROVOD_UINT8 => some (intElem 8 false)
  | DataType.HOROVOD_UINT16 => some (intElem 16 false)
  | DataType.HOROVOD_INT16 => some (intElem 16 true)
  | DataType.HOROVOD_INT32 => some (intElem 32 true)
  | DataType.HOROVOD_INT64 => some (intElem 64 true)
  | DataType.HOROVOD_FLOAT32 => some exactElem
  | DataType.HOROVOD_FLOAT64 => some exactElem
  | DataType.HOROVOD_FLOAT16 => none
  | DataType.HOROVOD_BOOL => none

/-- The loop `for (auto& e : entries)` of `Execute`, from the current `layerid`, run
by all `size` ranks of `Communicator::GLOBAL`.  For each entry
`buffer_data = e.tensor->data()` is passed as `gradient_buffer`,
`recv_buffer = e.output->data()` as `result_buffer`, and
`buffer_len = e.output->size()` as `count` and as the single layer size.
Returns the status and the entries with their buffers after the call. -/
def Execute.loop (size : Nat) : List TensorTableEntry → Nat → Status × List TensorTableEntry
  | [], _ => (Status.OK, [])
  | e :: rest, layerid =>
    let buffer_len := e.size
    match Execute.instantiation e.dtype with
    | none =>
      (Status.InvalidArgument "MS allreduction only supports double, float and float16 types.",
        e :: rest)
    | some E =>
      let st : Ranks e.dtype.carrier := fun r =>
        (e.buffers r).map fun b => ⟨b.tensor, b.output⟩
      let st1 : Ranks e.dtype.carrier :=
        match MsAllreduce_Internal E size layerid buffer_len [buffer_len] st with
        | some st1 => st1
        | none => fun _ => none
      let e1 : TensorTableEntry :=
        ⟨e.dtype, e.num_elements,
          fun r => (st1 r).map fun m => ⟨m.gradient_buffer, m.result_buffer⟩⟩
      let (status, rest1) := Execute.loop size rest (layerid + 1)
      (status, e1 :: rest1)

/-- The function `MsAllreduceOp::Execute(entries, response)`, run by all `size` ranks. -/
def Execute (size : Nat) (entries : List TensorTableEntry) : Status × List TensorTableEntry :=
  Execute.loop size entries 0

end MsAllreduceOp

/-! # GPU hierarchical allreduce (`adasum_cuda_operations.cc`)

The device runtime, the collective library, the controller and the timeline are
external: a call into them is recorded in the `log` of the state, in program
order, and is taken to succeed (`ErrorCheck` does not throw).  A stream or
communicator handle is the number of handles of its kind created before it; a
null handle is `none`.

The entries of a batch are on one device, the device of the calling rank:
`Enabled` reads `entries[0].device`, `InitCUDAStreams` calls
`cudaSetDevice(first_entry.device)` once for the batch, and `response.devices()`
holds one device per rank.  The embedding keeps `entry.device` for every entry,
as the source does, and a property that rests on the batch being on one device
says so in its statement. -/

namespace AdasumCudaAllreduceOp

/-- The topology selector `global_state_->adasum_algorithm` (`enum class
AdasumAlgorithm`, declared outside the source files at hand): the enumerators the
sources name, and `OTHER` for any further value of the enumeration. -/
inductive AdasumAlgorithm where
  | NONE : AdasumAlgorithm
  | GPU_TREE : AdasumAlgorithm
  | GPU_RING : AdasumAlgorithm
  | GPU_NCCL_SUM_RING : AdasumAlgorithm
  | OTHER (code : Nat) : AdasumAlgorithm
  deriving DecidableEq, Repr

/-- The direction of a `cudaMemcpyAsync`. -/
inductive MemcpyKind where
  | cudaMemcpyDeviceToHost : MemcpyKind
  | cudaMemcpyHostToDevice : MemcpyKind
  | cudaMemcpyDeviceToDevice : MemcpyKind
  deriving DecidableEq, Repr

/-- The external calls the modelled functions make.  `i` is the index of the entry
(and of its slot `events.at(i)`), `stream` the stream handle passed to the call. -/
inductive Call where
  | cudaSetDevice (device : Int) : Call
  | cudaDeviceGetStreamPriorityRange : Call
  | cudaStreamCreateWithPriority (stream_set key : Int) : Call
  | ActivityStartAll : Call
  | ncclGetUniqueId : Call
  | Bcast : Call
  | ncclCommInitRank (nccl_size nccl_rank : Int) : Call
  | Barrier : Call
  | ActivityEndAll : Call
  | ncclReduce (i : Nat) (stream : Option Nat) : Call
  | cudaMemcpyAsync (i : Nat) (kind : MemcpyKind) (stream : Option Nat) : Call
  | GetCudaEvent (i : Nat) : Call
  | cudaEventRecord (i : Nat) (stream : Option Nat) : Call
  | cudaEventSynchronize (i : Nat) : Call
  | ReleaseCudaEvent (i : Nat) : Call
  | DispatchSyncAllreduce (i : Nat) : Call
  | ncclBcast (i : Nat) (stream : Option Nat) : Call
  | cudaStreamSynchronize (stream : Option Nat) : Call
  deriving DecidableEq, Repr

/-- The attribute of an entry that the modelled functions read: `entry.device`. -/
structure TensorTableEntry where
  device : Int
  deriving DecidableEq, Repr

/-- The process-wide state: the stream table `cuda_context_->streams`
(stream-set index, then key), the communicator cache `nccl_context_->nccl_comms`
(stream-set index, then device list), the selected communicator `nccl_comm_` (a
pointer to a slot of the cache, given by the keys of the slot), the numbers of
streams and communicators created so far, and the log of external calls. -/
structure GpuState where
  streams : Int → Int → Option Nat
  streams_created : Nat
  nccl_comms : Int → List Int → Option Nat
  comms_created : Nat
  nccl_comm_ : Option (Int × List Int)
  log : List Call

/-- What the modelled functions read from `global_state_`, its controller and the
operation: `current_nccl_stream`, `adasum_algorithm`, `GetLocalRank()`,
`GetLocalSize()`, `GetLocalCommRanks()` and `rank_log_size_`. -/
structure Env where
  current_nccl_stream : Int
  adasum_algorithm : AdasumAlgorithm
  local_rank : Int
  local_size : Int
  local_comm_ranks : List Nat
  rank_log_size_ : Nat

/-- The response: the device of every rank, `response.devices()[rank]`. -/
structure Response where
  devices : Nat → Int

/-- How a call ends: it returns a status, it throws, or its behaviour is undefined
(`entries[0]` on an empty vector). -/
inductive Outcome where
  | returned (status : MsAllreduceOp.Status) : Outcome
  | thrown (what : String) : Outcome
  | undefined : Outcome
  deriving DecidableEq, Repr

/-- The block of `InitCUDAStreams` that follows a lookup
`cudaStream_t& stream = streams[stream_set][key]` : when the stream is null it is
created with `cudaStreamCreateWithPriority` and stored in the table. -/
def createIfNull (stream_set key : Int) (st : GpuState) : GpuState :=
  match st.streams stream_set key with
  | some _ => st
  | none =>
    { st with
      streams := fun s k =>
        if s = stream_set ∧ k = key then some st.streams_created else st.streams s k
      streams_created := st.streams_created + 1
      log := st.log ++ [Call.cudaDeviceGetStreamPriorityRange,
        Call.cudaStreamCreateWithPriority stream_set key] }

/-- The loop `for(int i = 0; i < entries.size(); i++)` of `InitCUDAStreams`, from the
current `i`, with `k` iterations left: the stream looked up is
`streams[current_nccl_stream][i]`. -/
def InitCUDAStreams.loop (current_nccl_stream : Int) : Nat → Nat → GpuState → GpuState
  | 0, _, st => st
  | k + 1, i, st =>
    InitCUDAStreams.loop current_nccl_stream k (i + 1)
      (createIfNull current_nccl_stream (i : Int) st)

/-- The function `InitCUDAStreams(entries)`; `none` when `entries` is empty. -/
def InitCUDAStreams (env : Env) (entries : List TensorTableEntry) (st : GpuState) :
    Option GpuState :=
  match entries[0]? with
  | none => none
  | some first_entry =>
    let st1 : GpuState := { st with log := st.log ++ [Call.cudaSetDevice first_entry.device] }
    let st2 := InitCUDAStreams.loop env.current_nccl_stream entries.length 0 st1
    some (createIfNull env.current_nccl_stream first_entry.device st2)

/-- The function `InitNCCLComm(entries, nccl_device_map)`. -/
def InitNCCLComm (env : Env) (nccl_device_map : List Int) (st : GpuState) : GpuState :=
  match st.nccl_comms env.current_nccl_stream nccl_device_map with
  | some _ => { st with nccl_comm_ := some (env.current_nccl_stream, nccl_device_map) }
  | none =>
    let nccl_rank := env.local_rank
    let nccl_size := env.local_size
    { st with
      nccl_comms := fun s m =>
        if s = env.current_nccl_stream ∧ m = nccl_device_map then some st.comms_created
        else st.nccl_comms s m
      comms_created := st.comms_created + 1
      log := st.log ++ [Call.ActivityStartAll] ++
        (if nccl_rank = 0 then [Call.ncclGetUniqueId] else []) ++
        [Call.Bcast, Call.ncclCommInitRank nccl_size nccl_rank, Call.Barrier,
          Call.ActivityEndAll]
      nccl_comm_ := some (env.current_nccl_stream, nccl_device_map) }

/-- The first loop of `NcclHierarchical` : the reduce to the root of every entry and,
with `do_cross_comm`, its copy to the host and the event recorded after it. -/
def NcclHierarchical.reduceLoop (streams : Int → Option Nat) (do_cross_comm : Bool) :
    List TensorTableEntry → Nat → List Call
  | [], _ => []
  | entry :: rest, i =>
    [Call.ncclReduce i (streams entry.device)] ++
    (if do_cross_comm then
      [Call.cudaMemcpyAsync i MemcpyKind.cudaMemcpyDeviceToHost (streams entry.device),
       Call.GetCudaEvent i, Call.cudaEventRecord i (streams entry.device)]
     else []) ++
    NcclHierarchical.reduceLoop streams do_cross_comm rest (i + 1)

/-- The second loop of `NcclHierarchical`, run with `do_cross_comm` : for every entry
the wait for its event, the release of the event, the inter-node allreduce on
the host copy and the copy back to the device. -/
def NcclHierarchical.crossLoop (streams : Int → Option Nat) :
    List TensorTableEntry → Nat → List Call
  | [], _ => []
  | entry :: rest, i =>
    [Call.cudaEventSynchronize i, Call.ReleaseCudaEvent i, Call.DispatchSyncAllreduce i,
     Call.cudaMemcpyAsync i MemcpyKind.cudaMemcpyHostToDevice (streams entry.device)] ++
    NcclHierarchical.crossLoop streams rest (i + 1)

/-- The third loop of `NcclHierarchical` : the broadcast of every entry and the event
recorded after it. -/
def NcclHierarchical.bcastLoop (streams : Int → Option Nat) :
    List TensorTableEntry → Nat → List Call
  | [], _ => []
  | entry :: rest, i =>
    [Call.ncclBcast i (streams entry.device), Call.GetCudaEvent i,
     Call.cudaEventRecord i (streams entry.device)] ++
    NcclHierarchical.bcastLoop streams rest (i + 1)

/-- The last loop of `NcclHierarchical` : the wait for and the release of the event
of every entry. -/
def NcclHierarchical.syncLoop : List TensorTableEntry → Nat → List Call
  | [], _ => []
  | _ :: rest, i =>
    [Call.cudaEventSynchronize i, Call.ReleaseCudaEvent i] ++
    NcclHierarchical.syncLoop rest (i + 1)

/-- The value of `do_cross_comm` :
`GetLocalRank() == 0 && node_comm != NULL`, where `node_comm` is not null exactly
when `rank_log_size_ != 0`. -/
def NcclHierarchical.do_cross_comm (env : Env) : Bool :=
  decide (env.local_rank = 0) && decide (env.rank_log_size_ ≠ 0)

/-- The external calls of `NcclHierarchical` after `InitNCCLComm`, in order. -/
def NcclHierarchical.calls (env : Env) (entries : List TensorTableEntry) (st : GpuState) :
    List Call :=
  let streams := st.streams env.current_nccl_stream
  let do_cross_comm := NcclHierarchical.do_cross_comm env
  NcclHierarchical.reduceLoop streams do_cross_comm entries 0 ++
  (if do_cross_comm then NcclHierarchical.crossLoop streams entries 0 else []) ++
  NcclHierarchical.bcastLoop streams entries 0 ++
  NcclHierarchical.syncLoop entries 0

/-- The function `NcclHierarchical(entries, response)`. -/
def NcclHierarchical (env : Env) (response : Response) (entries : List TensorTableEntry)
    (st : GpuState) : Outcome × GpuState :=
  let nccl_device_map := env.local_comm_ranks.map fun rank => response.devices rank
  let st1 := InitNCCLComm env nccl_device_map st
  (Outcome.returned MsAllreduceOp.Status.OK,
    { st1 with log := st1.log ++ NcclHierarchical.calls env entries st1 })

/-- The function `MemcpyUtil(entry, dest, src, buffer_len, layerid)`. -/
def MemcpyUtil (env : Env) (entry : TensorTableEntry) (layerid : Nat) (st : GpuState) :
    GpuState :=
  let stream := st.streams env.current_nccl_stream entry.device
  { st with log := st.log ++
      [Call.cudaMemcpyAsync layerid MemcpyKind.cudaMemcpyDeviceToDevice stream,
       Call.cudaStreamSynchronize stream] }

/-- The function `AdasumCudaAllreduceOp::Execute(entries, response)`.
`TreeHierarchical` is defined outside the source files at hand and
`RingHierarchical` drives the external ring engine: both are parameters. -/
def Execute (TreeHierarchical RingHierarchical :
      List TensorTableEntry → GpuState → Outcome × GpuState)
    (env : Env) (response : Response) (entries : List TensorTableEntry) (st : GpuState) :
    Outcome × GpuState :=
  if entries.length < 1 then (Outcome.returned MsAllreduceOp.Status.OK, st)
  else
    match InitCUDAStreams env entries st with
    | none => (Outcome.undefined, st)
    | some st1 =>
      if env.adasum_algorithm = AdasumAlgorithm.GPU_TREE then TreeHierarchical entries st1
      else if env.adasum_algorithm = AdasumAlgorithm.GPU_RING then
        RingHierarchical entries st1
      else if env.adasum_algorithm = AdasumAlgorithm.GPU_NCCL_SUM_RING then
        NcclHierarchical env response entries st1
      else (Outcome.thrown "Unsupported adasum reduction algorithm", st1)

/-- The life of the event in a slot `events.at(i)` between `GetCudaEvent` and
`ReleaseCudaEvent`. -/
inductive EventPhase where
  | acquired : EventPhase
  | recorded : EventPhase
  | synchronized : EventPhase
  deriving DecidableEq, Repr

/-- The event protocol, one call at a time: a slot is acquired only when it holds no
unreleased event, recorded only after it was acquired, synchronised only after
it was recorded, and released only after it was synchronised.  `none` : the call
breaks the protocol. -/
def eventStep (slots : Nat → Option EventPhase) : Call → Option (Nat → Option EventPhase)
  | Call.GetCudaEvent i =>
    if slots i = none then
      some fun j => if j = i then some EventPhase.acquired else slots j
    else none
  | Call.cudaEventRecord i _ =>
    if slots i = some EventPhase.acquired then
      some fun j => if j = i then some EventPhase.recorded else slots j
    else none
  | Call.cudaEventSynchronize i =>
    if slots i = some EventPhase.recorded then
      some fun j => if j = i then some EventPhase.synchronized else slots j
    else none
  | Call.ReleaseCudaEvent i =>
    if slots i = some EventPhase.synchronized then
      some fun j => if j = i then none else slots j
    else none
  | _ => some slots

/-- The event protocol along a sequence of calls. -/
def eventRun : List Call → (Nat → Option EventPhase) → Option (Nat → Option EventPhase)
  | [], slots => some slots
  | c :: cs, slots =>
    match eventStep slots c with
    | none => none
    | some slots1 => eventRun cs slots1

/-- The number of `GetCudaEvent` calls in a sequence of calls. -/
def acquisitions (calls : List Call) : Nat :=
  calls.countP fun c => match c with
    | Call.GetCudaEvent _ => true
    | _ => false

/-- The number of `ReleaseCudaEvent` calls in a sequence of calls. -/
def releases (calls : List Call) : Nat :=
  calls.countP fun c => match c with
    | Call.ReleaseCudaEvent _ => true
    | _ => false

/-- The stream handle a call is given, for the calls that take a stream argument
(`ncclReduce`, `cudaMemcpyAsync`, `cudaEventRecord`, `ncclBcast`,
`cudaStreamSynchronize`); `none` for a call without a stream argument. -/
def Call.stream : Call → Option (Option Nat)
  | Call.ncclReduce _ stream => some stream
  | Call.cudaMemcpyAsync _ _ stream => some stream
  | Call.cudaEventRecord _ stream => some stream
  | Call.ncclBcast _ stream => some stream
  | Call.cudaStreamSynchronize stream => some stream
  | _ => none

end AdasumCudaAllreduceOp

namespace MsAllreduceOp

/-- The values of `level` at which the body of the reduction loop
`for (level = 1; level < size; level *= 2)` runs, from the current `level`, in
order (with the fuel of `reductionLoop`). -/
def reductionLevels (size : Nat) : Nat → Nat → List Nat
  | 0, _ => []
  | fuel + 1, level =>
    if level < size then level :: reductionLevels size fuel (level * 2) else []

/-- Whether the call of a rank at a level is a send. -/
def Role.isSend : Role → Bool
  | Role.send _ => true
  | _ => false

/-! ## The pairwise combine with several workers -/

/-- The first half of the parallel region of `PairwiseReduce_Internal` for the workers
`tid, tid + 1, ...` of `numThreads` (`k` workers left): each worker runs the
first loop over the layers on its range
`[count * tid / numThreads, count * (tid + 1) / numThreads)`.  The additions to
the shared accumulators are serialised by `#pragma omp critical`; the workers are
taken in the order of `tid`. -/
def accumulateWorkers {α : Type} (E : ElemType α) (left_tensor right_tensor : List α)
    (count numThreads : Nat) (layer_sizes : List Nat) :
    Nat → Nat → List α × List α → Option (List α × List α)
  | 0, _, acc => some acc
  | k + 1, tid, acc =>
    let myStart := (count * tid) / numThreads
    let myEnd := (count * (tid + 1)) / numThreads
    match accumulateLayers E left_tensor right_tensor myStart myEnd layer_sizes 0 0 acc with
    | none => none
    | some acc1 =>
      accumulateWorkers E left_tensor right_tensor count numThreads layer_sizes k (tid + 1) acc1

/-- The second half of the parallel region, after `#pragma omp barrier`, for the
workers `tid, tid + 1, ...` (`k` workers left): each worker runs the second loop
over the layers on its range.  The ranges are disjoint; the workers are taken in
the order of `tid`. -/
def combineWorkers {α : Type} (E : ElemType α) (right_tensor : List α)
    (count numThreads : Nat) (dotProducts norms : List α) (layer_sizes : List Nat) :
    Nat → Nat → List α → Option (List α)
  | 0, _, left_tensor => some left_tensor
  | k + 1, tid, left_tensor =>
    let myStart := (count * tid) / numThreads
    let myEnd := (count * (tid + 1)) / numThreads
    match combineLayers E right_tensor myStart myEnd dotProducts norms layer_sizes 0 0
        left_tensor with
    | none => none
    | some left_new =>
      combineWorkers E right_tensor count numThreads dotProducts norms layer_sizes k (tid + 1)
        left_new

/-- The body of `PairwiseReduce_Internal` with `nt` workers in the parallel region
(the source sets `nt = 1`): all workers accumulate, then, after the barrier, all
workers combine. -/
def PairwiseReduce_Workers {α : Type} (E : ElemType α) (nt : Nat)
    (left_tensor right_tensor : List α) (count : Nat) (layer_sizes : List Nat) :
    Option (List α × List α) :=
  let num_layers := layer_sizes.length
  let norms := List.replicate num_layers E.zero
  let dotProducts := List.replicate num_layers E.zero
  match accumulateWorkers E left_tensor right_tensor count nt layer_sizes nt 0
      (dotProducts, norms) with
  | none => none
  | some (dotProducts, norms) =>
    match combineWorkers E right_tensor count nt dotProducts norms layer_sizes nt 0
        left_tensor with
    | none => none
    | some left_new => some (left_new, right_tensor)

/-- The sum of the products `a[j] * b[j]` over the indices `lo ≤ j < hi`. -/
def dotOn (a b : List ℚ) (lo hi : Nat) : ℚ :=
  Finset.sum (Finset.Ico lo hi) fun j => a.getD j 0 * b.getD j 0

/-- The coefficient of the layer `[lo, hi)` from the statistics of the whole layer:
`1` when the squared norm of the right slice is below the threshold `1e-18f`
(`9671407 / 2^83`), otherwise `1 - dot / norm`. -/
def layerCoeff (left right : List ℚ) (lo hi : Nat) : ℚ :=
  if |dotOn right right lo hi| < 9671407 / 2 ^ 83 then 1
  else 1 - dotOn left right lo hi / dotOn right right lo hi

/-- The coefficient as a function of the accumulated dot product and squared norm, in
exact arithmetic: `1` when `|norm|` is below the threshold `1e-18f`
(`9671407 / 2^83`), otherwise `1 - dotProduct / norm`. -/
def coeffOf (dotProduct norm : ℚ) : ℚ :=
  if |norm| < 9671407 / 2 ^ 83 then 1 else 1 - dotProduct / norm

/-! # Properties -/

/-! ## Arithmetic of the tree levels -/

theorem xor_two_pow (k : Nat) : ∀ v : Nat,
    v ^^^ 2 ^ k = if v.testBit k then v - 2 ^ k else v + 2 ^ k := by
  induction k with
  | zero =>
    intro v
    have h1 : (v ^^^ 1) / 2 = v / 2 := by
      rw [Nat.xor_div_two]; simp
    have h2 : (v ^^^ 1) % 2 = (v + 1) % 2 := Nat.xor_mod_two_eq
    have h3 : v.testBit 0 = decide (v % 2 = 1) := by
      rw [Nat.testBit_to_div_mod]; simp
    rw [pow_zero, h3]
    by_cases hv : v % 2 = 1
    · simp only [hv, decide_True, if_true]; omega
    · simp only [hv, decide_False]; simp only [Bool.false_eq_true, if_false]; omega
  | succ k ih =>
    intro v
    have h1 : (v ^^^ 2 ^ (k + 1)) / 2 = v / 2 ^^^ 2 ^ k := by
      rw [Nat.xor_div_two, pow_succ, Nat.mul_div_cancel _ (by decide : 0 < 2)]
    have h2 : (v ^^^ 2 ^ (k + 1)) % 2 = v % 2 := by
      rw [Nat.xor_mod_two_eq, pow_succ]; omega
    have h3 : v.testBit (k + 1) = (v / 2).testBit k := Nat.testBit_add_one v k
    have h4 := ih (v / 2)
    have h5 : (v / 2).testBit k = true → 2 ^ k ≤ v / 2 := by
      intro hb
      by_contra hlt
      rw [Nat.testBit_lt_two_pow (Nat.lt_of_not_le hlt)] at hb
      exact Bool.false_ne_true hb
    have h6 : 2 ^ (k + 1) = 2 * 2 ^ k := by rw [pow_succ, mul_comm]
    rw [h3]
    cases hb : (v / 2).testBit k with
    | true =>
      have := h5 hb
      rw [hb] at h4
      simp only [if_true] at h4 ⊢
      omega
    | false =>
      rw [hb] at h4
      simp only [Bool.false_eq_true, if_false] at h4 ⊢
      omega

theorem and_two_pow_eq_zero_iff (v k : Nat) : v &&& 2 ^ k = 0 ↔ v.testBit k = false := by
  rw [Nat.and_two_pow]
  have hp : 0 < 2 ^ k := Nat.two_pow_pos k
  cases v.testBit k <;> simp [hp.ne']

theorem testBit_eq_false_iff_of_dvd (v k : Nat) (h : v % 2 ^ k = 0) :
    v.testBit k = false ↔ v % (2 ^ k * 2) = 0 := by
  rw [Nat.testBit_to_div_mod]
  have hp : 0 < 2 ^ k := Nat.two_pow_pos k
  have h1 : v % (2 ^ k * 2) = 2 ^ k * (v / 2 ^ k % 2) := by
    rw [Nat.mod_mul, h, Nat.zero_add]
  rw [h1]
  have h2 : v / 2 ^ k % 2 = 0 ∨ v / 2 ^ k % 2 = 1 := Nat.mod_two_eq_zero_or_one _
  rcases h2 with h2 | h2 <;> simp [h2, hp.ne']

theorem level_partner_of_low (k v : Nat) (h : v % 2 ^ k = 0) (hb : v &&& 2 ^ k = 0) :
    v ^^^ 2 ^ k = v + 2 ^ k ∧ v % (2 ^ k * 2) = 0 := by
  have hbit := (and_two_pow_eq_zero_iff v k).1 hb
  refine ⟨?_, (testBit_eq_false_iff_of_dvd v k h).1 hbit⟩
  rw [xor_two_pow, hbit]; simp

theorem level_partner_of_high (k v : Nat) (h : v % 2 ^ k = 0) (hb : v &&& 2 ^ k ≠ 0) :
    2 ^ k ≤ v ∧ v ^^^ 2 ^ k = v - 2 ^ k ∧ (v - 2 ^ k) % (2 ^ k * 2) = 0 := by
  have hbit : v.testBit k = true := by
    cases hc : v.testBit k with
    | true => rfl
    | false => exact absurd ((and_two_pow_eq_zero_iff v k).2 hc) hb
  have hle : 2 ^ k ≤ v := by
    by_contra hlt
    rw [Nat.testBit_lt_two_pow (Nat.lt_of_not_le hlt)] at hbit
    exact Bool.false_ne_true hbit
  refine ⟨hle, ?_, ?_⟩
  · rw [xor_two_pow, hbit]; simp
  · have hbit2 : (v - 2 ^ k).testBit k = false := by
      have h1 := Nat.testBit_two_pow_add_eq (v - 2 ^ k) k
      rw [Nat.add_sub_cancel' hle, hbit] at h1
      cases hc : (v - 2 ^ k).testBit k with
      | false => rfl
      | true => rw [hc] at h1; simp at h1
    have hmod : (v - 2 ^ k) % 2 ^ k = 0 := by
      have hd : 2 ^ k ∣ v := Nat.dvd_of_mod_eq_zero h
      exact Nat.mod_eq_zero_of_dvd (Nat.dvd_sub' hd (dvd_refl _))
    exact (testBit_eq_false_iff_of_dvd _ k hmod).1 hbit2

/-- The partner `v ^^^ level` of a virtual rank that is a multiple of `level = 2^k`
is a multiple of `level`, has `v` as its partner, and has the opposite level bit. -/
theorem level_partner (k v : Nat) (h : v % 2 ^ k = 0) :
    (v ^^^ 2 ^ k) % 2 ^ k = 0 ∧ (v ^^^ 2 ^ k) ^^^ 2 ^ k = v ∧
      ((v ^^^ 2 ^ k) &&& 2 ^ k = 0 ↔ v &&& 2 ^ k ≠ 0) := by
  have hd : 2 ^ k ∣ v := Nat.dvd_of_mod_eq_zero h
  refine ⟨?_, Nat.xor_cancel_right _ _, ?_⟩
  · by_cases hb : v &&& 2 ^ k = 0
    · rw [(level_partner_of_low k v h hb).1]
      exact Nat.mod_eq_zero_of_dvd (Nat.dvd_add hd (dvd_refl _))
    · rw [(level_partner_of_high k v h hb).2.1]
      exact Nat.mod_eq_zero_of_dvd (Nat.dvd_sub' hd (dvd_refl _))
  · rw [and_two_pow_eq_zero_iff, Ne, and_two_pow_eq_zero_iff, xor_two_pow]
    cases hc : v.testBit k with
    | true =>
      have hle : 2 ^ k ≤ v := by
        by_contra hlt
        rw [Nat.testBit_lt_two_pow (Nat.lt_of_not_le hlt)] at hc
        exact Bool.false_ne_true hc
      have h1 := Nat.testBit_two_pow_add_eq (v - 2 ^ k) k
      rw [Nat.add_sub_cancel' hle, hc] at h1
      simp only [if_true]
      cases hc2 : (v - 2 ^ k).testBit k with
      | false => simp
      | true => rw [hc2] at h1; simp at h1
    | false =>
      have h1 := Nat.testBit_two_pow_add_eq v k
      rw [hc, Nat.add_comm] at h1
      simp [h1]

/-! ## The rotation -/

theorem mod_of_lt_two_mul {a s : Nat} (h : a < 2 * s) :
    a % s = if a < s then a else a - s := by
  split
  · next hlt => exact Nat.mod_eq_of_lt hlt
  · next hge =>
    rw [Nat.mod_eq_sub_mod (Nat.le_of_not_lt hge)]
    exact Nat.mod_eq_of_lt (by omega)

theorem redn_rank_lt (size message_tag true_rank : Nat) (hs : 0 < size) :
    redn_rank size message_tag true_rank < size :=
  Nat.mod_lt _ hs

theorem neighbor_true_rank_lt (size message_tag v : Nat) (hs : 0 < size) :
    neighbor_true_rank size message_tag v < size :=
  Nat.mod_lt _ hs

theorem redn_rank_neighbor_true_rank (size message_tag v : Nat) (hv : v < size) :
    redn_rank size message_tag (neighbor_true_rank size message_tag v) = v := by
  have hrot : message_tag % size < size := Nat.mod_lt _ (by omega)
  simp only [redn_rank, neighbor_true_rank]
  generalize message_tag % size = rot at hrot
  rw [mod_of_lt_two_mul (by omega : v + size - rot < 2 * size)]
  split
  · rw [mod_of_lt_two_mul (by omega)]; split <;> omega
  · rw [mod_of_lt_two_mul (by omega)]; split <;> omega

theorem neighbor_true_rank_redn_rank (size message_tag r : Nat) (hr : r < size) :
    neighbor_true_rank size message_tag (redn_rank size message_tag r) = r := by
  have hrot : message_tag % size < size := Nat.mod_lt _ (by omega)
  simp only [redn_rank, neighbor_true_rank]
  generalize message_tag % size = rot at hrot
  rw [mod_of_lt_two_mul (by omega : r + rot < 2 * size)]
  split
  · rw [mod_of_lt_two_mul (by omega)]; split <;> omega
  · rw [mod_of_lt_two_mul (by omega)]; split <;> omega

/-! ## Pairing of the roles at a level -/

theorem reductionRole_recv (size message_tag r k n : Nat) (hr : r < size)
    (h : reductionRole size message_tag r (2 ^ k) = Role.recv n) :
    n < size ∧ n ≠ r ∧ reductionRole size message_tag n (2 ^ k) = Role.send r ∧
      redn_rank size message_tag r % (2 ^ k * 2) = 0 ∧
      redn_rank size message_tag n = redn_rank size message_tag r + 2 ^ k := by
  have hs : 0 < size := by omega
  simp only [reductionRole] at h
  split at h
  · cases h
  · next hmod =>
    split at h
    · cases h
    · next hp =>
      split at h
      · next hb =>
        injection h with h
        simp only [ne_eq, Decidable.not_not] at hmod
        have hp : redn_rank size message_tag r ^^^ 2 ^ k < size := by omega
        obtain ⟨hx, hm2⟩ := level_partner_of_low k _ hmod hb
        obtain ⟨q1, q2, q3⟩ := level_partner k _ hmod
        have hv : redn_rank size message_tag n = redn_rank size message_tag r ^^^ 2 ^ k := by
          rw [← h]; exact redn_rank_neighbor_true_rank _ _ _ hp
        have hpos : 0 < 2 ^ k := Nat.two_pow_pos k
        refine ⟨by rw [← h]; exact neighbor_true_rank_lt _ _ _ hs, ?_, ?_, hm2,
          by rw [hv, hx]⟩
        · intro hnr
          rw [hnr, hx] at hv
          omega
        · simp only [reductionRole, hv, q1, q2]
          have hvr := redn_rank_lt size message_tag r hs
          have hnb : ¬ ((redn_rank size message_tag r ^^^ 2 ^ k) &&& 2 ^ k = 0) := by
            rw [q3]; simp [hb]
          simp [hnb, hvr, neighbor_true_rank_redn_rank size message_tag r hr]
      · cases h

theorem reductionRole_send (size message_tag r k n : Nat) (hr : r < size)
    (h : reductionRole size message_tag r (2 ^ k) = Role.send n) :
    n < size ∧ n ≠ r ∧ reductionRole size message_tag n (2 ^ k) = Role.recv r ∧
      redn_rank size message_tag n % (2 ^ k * 2) = 0 ∧
      redn_rank size message_tag r = redn_rank size message_tag n + 2 ^ k := by
  have hs : 0 < size := by omega
  simp only [reductionRole] at h
  split at h
  · cases h
  · next hmod =>
    split at h
    · cases h
    · next hp =>
      split at h
      · cases h
      · next hb =>
        injection h with h
        simp only [ne_eq, Decidable.not_not] at hmod
        have hp : redn_rank size message_tag r ^^^ 2 ^ k < size := by omega
        obtain ⟨hle, hx, hm2⟩ := level_partner_of_high k _ hmod hb
        obtain ⟨q1, q2, q3⟩ := level_partner k _ hmod
        have hv : redn_rank size message_tag n = redn_rank size message_tag r ^^^ 2 ^ k := by
          rw [← h]; exact redn_rank_neighbor_true_rank _ _ _ hp
        have hpos : 0 < 2 ^ k := Nat.two_pow_pos k
        refine ⟨by rw [← h]; exact neighbor_true_rank_lt _ _ _ hs, ?_, ?_, ?_, ?_⟩
        · intro hnr
          rw [hnr, hx] at hv
          omega
        · simp only [reductionRole, hv, q1, q2]
          have hvr := redn_rank_lt size message_tag r hs
          have hnb : (redn_rank size message_tag r ^^^ 2 ^ k) &&& 2 ^ k = 0 := q3.2 hb
          simp [hnb, hvr, neighbor_true_rank_redn_rank size message_tag r hr]
        · rw [hv, hx]; exact hm2
        · rw [hv, hx]; omega

theorem broadcastRole_eq (size message_tag r level : Nat) :
    broadcastRole size message_tag r level =
      match reductionRole size message_tag r level with
      | Role.idle => Role.idle
      | Role.recv n => Role.send n
      | Role.send n => Role.recv n := by
  simp only [broadcastRole, reductionRole]
  split_ifs <;> rfl

theorem broadcastRole_recv (size message_tag r k n : Nat) (hr : r < size)
    (h : broadcastRole size message_tag r (2 ^ k) = Role.recv n) :
    n < size ∧ n ≠ r ∧ broadcastRole size message_tag n (2 ^ k) = Role.send r ∧
      redn_rank size message_tag n % (2 ^ k * 2) = 0 ∧
      redn_rank size message_tag r = redn_rank size message_tag n + 2 ^ k := by
  rw [broadcastRole_eq] at h
  have h1 : reductionRole size message_tag r (2 ^ k) = Role.send n := by
    revert h
    cases reductionRole size message_tag r (2 ^ k) <;> simp
  obtain ⟨a1, a2, a3, a4, a5⟩ := reductionRole_send size message_tag r k n hr h1
  exact ⟨a1, a2, by rw [broadcastRole_eq, a3], a4, a5⟩

theorem broadcastRole_send (size message_tag r k n : Nat) (hr : r < size)
    (h : broadcastRole size message_tag r (2 ^ k) = Role.send n) :
    n < size ∧ n ≠ r ∧ broadcastRole size message_tag n (2 ^ k) = Role.recv r ∧
      redn_rank size message_tag r % (2 ^ k * 2) = 0 ∧
      redn_rank size message_tag n = redn_rank size message_tag r + 2 ^ k := by
  rw [broadcastRole_eq] at h
  have h1 : reductionRole size message_tag r (2 ^ k) = Role.recv n := by
    revert h
    cases reductionRole size message_tag r (2 ^ k) <;> simp
  obtain ⟨a1, a2, a3, a4, a5⟩ := reductionRole_recv size message_tag r k n hr h1
  exact ⟨a1, a2, by rw [broadcastRole_eq, a3], a4, a5⟩

/-! ## The element kernels in exact arithmetic -/

theorem ComputeDotAndNormSqrd_loop_exact (a b : List ℚ) (base : Nat) :
    ∀ (k i : Nat) (d s : ℚ), base + i + k ≤ a.length → base + i + k ≤ b.length →
      ComputeDotAndNormSqrd.loop exactElem a b base k i (d, s) =
        some (d + (List.zipWith (· * ·) ((a.drop (base + i)).take k)
                    ((b.drop (base + i)).take k)).sum,
              s + (List.zipWith (· * ·) ((b.drop (base + i)).take k)
                    ((b.drop (base + i)).take k)).sum) := by
  intro k
  induction k with
  | zero => intro i d s _ _; simp [ComputeDotAndNormSqrd.loop]
  | succ k ih =>
    intro i d s ha hb
    have hia : base + i < a.length := by omega
    have hib : base + i < b.length := by omega
    rw [ComputeDotAndNormSqrd.loop, List.getElem?_eq_getElem hia, List.getElem?_eq_getElem hib]
    simp only
    rw [ih (i + 1) _ _ (by omega) (by omega)]
    rw [List.drop_eq_getElem_cons hia, List.drop_eq_getElem_cons hib]
    simp only [List.take_succ_cons, List.zipWith_cons_cons, List.sum_cons, exactElem]
    rw [show base + (i + 1) = base + i + 1 from rfl]
    congr 2 <;> ring

theorem ComputeDotAndNormSqrd_exact (a b : List ℚ) (base n : Nat)
    (ha : base + n ≤ a.length) (hb : base + n ≤ b.length) :
    ComputeDotAndNormSqrd exactElem a b base n =
      some ((List.zipWith (· * ·) ((a.drop base).take n) ((b.drop base).take n)).sum,
            (List.zipWith (· * ·) ((b.drop base).take n) ((b.drop base).take n)).sum) := by
  rw [ComputeDotAndNormSqrd,
    ComputeDotAndNormSqrd_loop_exact a b base n 0 _ _ (by omega) (by omega)]
  simp [exactElem]

theorem TAXPY_loop_spec {α : Type} (E : ElemType α) (a : α) (x : List α) (base : Nat) :
    ∀ (k i : Nat) (y : List α), base + i + k ≤ x.length → base + i + k ≤ y.length →
      ∃ y1, TAXPY.loop E a x base k i y = some y1 ∧ y1.length = y.length ∧
        ∀ j, y1[j]? =
          if base + i ≤ j ∧ j < base + i + k then
            (y[j]?).bind fun yj => (x[j]?).map fun xj => E.mulAdd yj a xj
          else y[j]? := by
  intro k
  induction k with
  | zero =>
    intro i y _ _
    refine ⟨y, rfl, rfl, fun j => ?_⟩
    have c : ¬ (base + i ≤ j ∧ j < base + i + 0) := by omega
    rw [if_neg c]
  | succ k ih =>
    intro i y hx hy
    have hix : base + i < x.length := by omega
    have hiy : base + i < y.length := by omega
    rw [TAXPY.loop, List.getElem?_eq_getElem hix, List.getElem?_eq_getElem hiy]
    simp only
    obtain ⟨y1, h1, h2, h3⟩ := ih (i + 1)
      (y.set (base + i) (E.mulAdd y[base + i] a x[base + i]))
      (by omega) (by rw [List.length_set]; omega)
    refine ⟨y1, h1, by rw [h2, List.length_set], ?_⟩
    intro j
    rw [h3 j]
    by_cases hj : j = base + i
    · subst hj
      have c1 : ¬ (base + (i + 1) ≤ base + i ∧ base + i < base + (i + 1) + k) := by omega
      have c2 : base + i ≤ base + i ∧ base + i < base + i + (k + 1) := by omega
      rw [if_neg c1, if_pos c2]
      simp [List.getElem?_set, hiy, List.getElem?_eq_getElem hix, List.getElem?_eq_getElem hiy]
    · have hne : ¬ base + i = j := fun h => hj h.symm
      simp only [List.getElem?_set, hne, if_false]
      by_cases hc : base + (i + 1) ≤ j ∧ j < base + (i + 1) + k
      · have c2 : base + i ≤ j ∧ j < base + i + (k + 1) := by omega
        rw [if_pos hc, if_pos c2]
      · have c2 : ¬ (base + i ≤ j ∧ j < base + i + (k + 1)) := by omega
        rw [if_neg hc, if_neg c2]

/-! ## The pairwise combine in exact arithmetic -/

theorem coefficient_exact (d n : ℚ) :
    coefficient exactElem d n = some (if |n| < 9671407 / 2 ^ 83 then 1 else 1 - d / n) := by
  simp only [coefficient, exactElem, decide_eq_true_eq]
  by_cases h : |n| < 9671407 / 2 ^ 83
  · rw [if_pos h, if_pos h]
  · have hn : n ≠ 0 := by
      intro h0
      apply h
      rw [h0, abs_zero]
      positivity
    rw [if_neg h, if_neg h, if_neg hn]

theorem accumulateLayers_exact_some (left right : List ℚ) (myStart myEnd : Nat)
    (hse : myStart ≤ myEnd) (hl : myEnd ≤ left.length) (hr : myEnd ≤ right.length) :
    ∀ (layers : List Nat) (i layer_begin : Nat) (acc : List ℚ × List ℚ),
      ∃ r, accumulateLayers exactElem left right myStart myEnd layers i layer_begin acc
        = some r := by
  intro layers
  induction layers with
  | nil => intro i lb acc; exact ⟨acc, rfl⟩
  | cons sz rest ih =>
    intro i lb acc
    obtain ⟨dp, nm⟩ := acc
    simp only [accumulateLayers]
    split_ifs with h1 h2
    · exact ⟨_, rfl⟩
    · exact ih _ _ _
    · rw [ComputeDotAndNormSqrd_exact left right _ _ (by omega) (by omega)]
      exact ih _ _ _

theorem combineLayers_exact_some (right : List ℚ) (myStart myEnd : Nat) (dp nm : List ℚ)
    (hse : myStart ≤ myEnd) (hr : myEnd ≤ right.length) :
    ∀ (layers : List Nat) (i layer_begin : Nat) (left : List ℚ), myEnd ≤ left.length →
      ∃ l1, combineLayers exactElem right myStart myEnd dp nm layers i layer_begin left
        = some l1 ∧ l1.length = left.length := by
  intro layers
  induction layers with
  | nil => intro i lb left _; exact ⟨left, rfl, rfl⟩
  | cons sz rest ih =>
    intro i lb left hl
    simp only [combineLayers]
    split_ifs with h1 h2
    · exact ⟨_, rfl, rfl⟩
    · exact ih _ _ _ hl
    · rw [coefficient_exact]
      simp only
      obtain ⟨y1, e1, e2, -⟩ := TAXPY_loop_spec exactElem
        (if |nm.getD i exactElem.zero| < 9671407 / 2 ^ 83 then 1
          else 1 - dp.getD i exactElem.zero / nm.getD i exactElem.zero)
        right (max myStart lb) (min myEnd (lb + sz) - max myStart lb) 0 left
        (by omega) (by omega)
      rw [TAXPY, e1]
      simp only
      obtain ⟨l1, f1, f2⟩ := ih (i + 1) (lb + sz) y1 (by omega)
      exact ⟨l1, f1, by rw [f2, e2]⟩

/-- In exact arithmetic the pairwise combine of two buffers holding at least `count`
elements completes, and the left buffer keeps its length. -/
theorem PairwiseReduce_Internal_exact_some (left right : List ℚ) (count : Nat)
    (layer_sizes : List Nat) (hl : count ≤ left.length) (hr : count ≤ right.length) :
    ∃ l1, PairwiseReduce_Internal exactElem left right count layer_sizes = some (l1, right) ∧
      l1.length = left.length := by
  simp only [PairwiseReduce_Internal, Nat.mul_zero, Nat.zero_div, Nat.zero_add, Nat.mul_one,
    Nat.div_one]
  obtain ⟨⟨dp, nm⟩, h1⟩ := accumulateLayers_exact_some left right 0 count (Nat.zero_le _)
    hl hr layer_sizes 0 0
    (List.replicate layer_sizes.length exactElem.zero,
     List.replicate layer_sizes.length exactElem.zero)
  rw [h1]
  simp only
  obtain ⟨l1, h2, h3⟩ := combineLayers_exact_some right 0 count dp nm (Nat.zero_le _) hr
    layer_sizes 0 0 left hl
  rw [h2]
  exact ⟨l1, rfl, h3⟩

/-- One layer covering the whole buffer: the combine computes the coefficient from
the dot product and the squared norm of the right buffer over all `n` elements
and adds `coeff * right` to the left buffer. -/
theorem PairwiseReduce_Internal_single_layer (a b : List ℚ) (n : Nat)
    (ha : a.length = n) (hb : b.length = n) :
    PairwiseReduce_Internal exactElem a b n [n] =
      some (List.zipWith
        (fun x y => x +
          (if |(List.zipWith (· * ·) b b).sum| < 9671407 / 2 ^ 83 then 1
           else 1 - (List.zipWith (· * ·) a b).sum / (List.zipWith (· * ·) b b).sum) * y) a b,
        b) := by
  simp only [PairwiseReduce_Internal, Nat.mul_zero, Nat.zero_div, Nat.zero_add, Nat.mul_one,
    Nat.div_one, List.length_singleton, List.replicate_one, accumulateLayers, combineLayers]
  by_cases hn : n = 0
  · subst hn
    have ha0 : a = [] := List.length_eq_zero.mp ha
    have hb0 : b = [] := List.length_eq_zero.mp hb
    subst ha0 hb0
    simp
  · have h1 : ¬ n ≤ 0 := by omega
    have h2 : ¬ 0 ≥ n := by omega
    simp only [h1, h2, if_false, ge_iff_le, Nat.zero_le, Nat.max_eq_left, Nat.min_self,
      Nat.sub_zero, max_self, zero_le, max_eq_left, min_self]
    rw [ComputeDotAndNormSqrd_exact a b 0 n (by omega) (by omega)]
    have ta : List.take n a = a := List.take_of_length_le (by omega)
    have tb : List.take n b = b := List.take_of_length_le (by omega)
    simp only [List.drop_zero, ta, tb, List.getD_cons_zero, List.set_cons_zero, exactElem,
      zero_add]
    have hc := coefficient_exact (List.zipWith (· * ·) a b).sum (List.zipWith (· * ·) b b).sum
    simp only [exactElem] at hc
    rw [hc]
    simp only
    obtain ⟨y1, e1, e2, e3⟩ := TAXPY_loop_spec exactElem
      (if |(List.zipWith (· * ·) b b).sum| < 9671407 / 2 ^ 83 then 1
        else 1 - (List.zipWith (· * ·) a b).sum / (List.zipWith (· * ·) b b).sum)
      b 0 n 0 a (by omega) (by omega)
    simp only [exactElem] at e1 e3
    rw [TAXPY]
    rw [e1]
    simp only [Option.some.injEq, Prod.mk.injEq, and_true]
    apply List.ext_getElem?
    intro j
    rw [e3 j, List.getElem?_zipWith']
    by_cases hj : j < n
    · have c : 0 + 0 ≤ j ∧ j < 0 + 0 + n := by omega
      rw [if_pos c, List.getElem?_eq_getElem (by omega : j < a.length),
        List.getElem?_eq_getElem (by omega : j < b.length)]
      simp [mul_comm]
    · have c : ¬ (0 + 0 ≤ j ∧ j < 0 + 0 + n) := by omega
      rw [if_neg c, List.getElem?_eq_none (by omega : a.length ≤ j)]
      simp

/-! ## The reduction phase completes -/

theorem reductionLevel_ready (size message_tag count k : Nat) (layer_sizes : List Nat)
    (st : Ranks ℚ) (h : AllReady size count st) :
    AllReady size count
      (reductionLevel exactElem size message_tag count layer_sizes (2 ^ k) st) := by
  intro r hr
  obtain ⟨m, hm, hg, hres⟩ := h r hr
  simp only [reductionLevel, hm]
  cases hrole : reductionRole size message_tag r (2 ^ k) with
  | idle => exact ⟨m, rfl, hg, hres⟩
  | recv n =>
    obtain ⟨hn, -, hsend, -, -⟩ := reductionRole_recv size message_tag r k n hr hrole
    obtain ⟨mn, hmn, hgn, -⟩ := h n hn
    simp only [PointToPointRecv, hsend, hmn, Option.map_some']
    have hc : True ∧ count ≤ mn.gradient_buffer.length ∧ count ≤ m.result_buffer.length :=
      ⟨trivial, by omega, by omega⟩
    rw [if_pos hc]
    simp only
    have hlen : (List.take count mn.gradient_buffer ++
        List.drop count m.result_buffer).length = count := by
      rw [List.length_append, List.length_take, List.length_drop]; omega
    obtain ⟨l1, e1, e2⟩ := PairwiseReduce_Internal_exact_some m.gradient_buffer
      (List.take count mn.gradient_buffer ++ List.drop count m.result_buffer) count layer_sizes
      (by omega) (by omega)
    rw [e1]
    exact ⟨_, rfl, by simp only; omega, hlen⟩
  | send n =>
    obtain ⟨hn, -, hrecv, -, -⟩ := reductionRole_send size message_tag r k n hr hrole
    obtain ⟨mn, hmn, -, -⟩ := h n hn
    simp only [PointToPointSend, hrecv, hmn, Option.isSome_some]
    have hc : True ∧ count ≤ m.gradient_buffer.length := ⟨trivial, by omega⟩
    rw [if_pos hc]
    exact ⟨m, rfl, hg, hres⟩

theorem reductionLoop_ready (size message_tag count : Nat) (layer_sizes : List Nat) :
    ∀ (fuel k : Nat) (st : Ranks ℚ), AllReady size count st → size ≤ 2 ^ k + fuel →
      ∃ K st1, reductionLoop exactElem size message_tag count layer_sizes (fuel + 1) (2 ^ k) st
          = some (2 ^ K, st1) ∧ AllReady size count st1 ∧ size ≤ 2 ^ K := by
  intro fuel
  induction fuel with
  | zero =>
    intro k st h hsz
    refine ⟨k, st, ?_, h, by omega⟩
    rw [reductionLoop, if_neg (by omega)]
  | succ fuel ih =>
    intro k st h hsz
    rw [reductionLoop]
    by_cases hlt : 2 ^ k < size
    · rw [if_pos hlt, ← pow_succ]
      have hp : 0 < 2 ^ k := Nat.two_pow_pos k
      exact ih (k + 1) _ (reductionLevel_ready size message_tag count k layer_sizes st h)
        (by rw [pow_succ]; omega)
    · rw [if_neg hlt]
      exact ⟨k, st, rfl, h, by omega⟩

/-! ## The broadcast phase -/

theorem broadcastLevel_hold {α : Type} (size message_tag count k : Nat) (final : List α)
    (st : Ranks α) (h : HoldFinal size message_tag count (2 ^ k * 2) final st) :
    HoldFinal size message_tag count (2 ^ k) final
      (broadcastLevel size message_tag count (2 ^ k) st) := by
  intro r hr
  obtain ⟨m, hm, hg, hfin⟩ := h r hr
  simp only [broadcastLevel, hm]
  cases hrole : broadcastRole size message_tag r (2 ^ k) with
  | idle =>
    refine ⟨m, rfl, hg, fun hmod => hfin ?_⟩
    by_cases hb : redn_rank size message_tag r &&& 2 ^ k = 0
    · exact (level_partner_of_low k _ hmod hb).2
    · exfalso
      obtain ⟨hle, hx, -⟩ := level_partner_of_high k _ hmod hb
      have hv := redn_rank_lt size message_tag r (by omega)
      have hp : 0 < 2 ^ k := Nat.two_pow_pos k
      simp only [broadcastRole] at hrole
      rw [if_neg (by simp [hmod]), if_neg (by rw [hx]; omega), if_neg hb] at hrole
      cases hrole
  | send n =>
    obtain ⟨hn, -, hrecv, hmod2, -⟩ := broadcastRole_send size message_tag r k n hr hrole
    obtain ⟨mn, hmn, -, -⟩ := h n hn
    simp only [PointToPointSend, hrecv, hmn, Option.isSome_some]
    have hc : True ∧ count ≤ m.gradient_buffer.length := ⟨trivial, by omega⟩
    rw [if_pos hc]
    exact ⟨m, rfl, hg, fun _ => hfin hmod2⟩
  | recv n =>
    obtain ⟨hn, -, hsend, hmod2, -⟩ := broadcastRole_recv size message_tag r k n hr hrole
    obtain ⟨mn, hmn, hgn, hfn⟩ := h n hn
    simp only [PointToPointRecv, hsend, hmn, Option.map_some']
    have hc : True ∧ count ≤ mn.gradient_buffer.length ∧ count ≤ m.gradient_buffer.length :=
      ⟨trivial, by omega, by omega⟩
    rw [if_pos hc]
    have e1 : List.take count mn.gradient_buffer = final := by
      rw [← hfn hmod2]; exact List.take_of_length_le (by omega)
    have e2 : List.drop count m.gradient_buffer = [] := List.drop_of_length_le (by omega)
    refine ⟨_, rfl, ?_, fun _ => ?_⟩
    · simp only [e1, e2, List.append_nil]; rw [← hfn hmod2]; exact hgn
    · simp only [e1, e2, List.append_nil]

theorem broadcastLoop_hold {α : Type} (size message_tag count : Nat) (final : List α) :
    ∀ (k fuel : Nat) (st : Ranks α), HoldFinal size message_tag count (2 ^ k) final st →
      k < fuel →
      ∃ st1, broadcastLoop size message_tag count fuel (2 ^ k / 2) st = some st1 ∧
        HoldFinal size message_tag count 1 final st1 := by
  intro k
  induction k with
  | zero =>
    intro fuel st h hf
    obtain ⟨f, rfl⟩ : ∃ f, fuel = f + 1 := ⟨fuel - 1, by omega⟩
    refine ⟨st, ?_, by simpa using h⟩
    rw [broadcastLoop, if_neg (by simp)]
  | succ k ih =>
    intro fuel st h hf
    obtain ⟨f, rfl⟩ : ∃ f, fuel = f + 1 := ⟨fuel - 1, by omega⟩
    have hdiv : 2 ^ (k + 1) / 2 = 2 ^ k := by
      rw [pow_succ, Nat.mul_div_cancel _ (by decide : 0 < 2)]
    rw [broadcastLoop, hdiv, if_pos (Nat.two_pow_pos k)]
    rw [pow_succ] at h
    exact ih f _ (broadcastLevel_hold size message_tag count k final st h) (by omega)

/-! ## Convergence of the tree allreduce -/

/-- Convergence for the floating-point instantiations, in exact arithmetic.  For every
group size `size ≥ 1`, every tag and every assignment of buffers of `count`
elements to the true ranks `0..size-1`, running `MsAllreduce_Internal` on all
ranks (reduction phase, then broadcast phase, every send matched with the recv
of its peer at the same level) completes on every rank, and all ranks end with
one and the same gradient buffer. -/
theorem MsAllreduce_Internal_all_ranks_agree (size message_tag count : Nat)
    (layer_sizes : List Nat) (st : Ranks ℚ) (hsize : 1 ≤ size)
    (hbuf : ∀ r, r < size → ∃ m, st r = some m ∧ m.gradient_buffer.length = count ∧
      m.result_buffer.length = count) :
    ∃ st1 final,
      MsAllreduce_Internal exactElem size message_tag count layer_sizes st = some st1 ∧
      ∀ r, r < size → ∃ m, st1 r = some m ∧ m.gradient_buffer = final := by
  obtain ⟨K, st0, h1, h2, h3⟩ :=
    reductionLoop_ready size message_tag count layer_sizes size 0 st hbuf (by omega)
  rw [pow_zero] at h1
  obtain ⟨m0, hm0, hg0, -⟩ := h2 (neighbor_true_rank size message_tag 0)
    (neighbor_true_rank_lt _ _ _ (by omega))
  have hold : HoldFinal size message_tag count (2 ^ K) m0.gradient_buffer st0 := by
    intro r hr
    obtain ⟨m, hm, hg, -⟩ := h2 r hr
    refine ⟨m, hm, hg, fun hmod => ?_⟩
    have hv := redn_rank_lt size message_tag r (by omega)
    have hz : redn_rank size message_tag r = 0 := by
      rw [Nat.mod_eq_of_lt (by omega)] at hmod
      exact hmod
    have hr0 : r = neighbor_true_rank size message_tag 0 := by
      rw [← hz, neighbor_true_rank_redn_rank size message_tag r hr]
    rw [hr0, hm0] at hm
    injection hm with hm
    rw [hm]
  obtain ⟨st1, e1, e2⟩ := broadcastLoop_hold size message_tag count m0.gradient_buffer K
    (2 ^ K + 1) st0 hold (by have := Nat.lt_two_pow K; omega)
  refine ⟨st1, m0.gradient_buffer, ?_, ?_⟩
  · simp only [MsAllreduce_Internal, h1, e1]
  · intro r hr
    obtain ⟨m, hm, -, hfin⟩ := e2 r hr
    exact ⟨m, hm, hfin (Nat.mod_one _)⟩

theorem MsAllreduce_Internal_all_ranks_agree_witness :
    ∃ st1 final,
      MsAllreduce_Internal exactElem 3 5 2 [2]
        (fun r => some ⟨[(r : ℚ), 1], [0, 0]⟩) = some st1 ∧
      ∀ r, r < 3 → ∃ m, st1 r = some m ∧ m.gradient_buffer = final :=
  MsAllreduce_Internal_all_ranks_agree 3 5 2 [2] (fun r => some ⟨[(r : ℚ), 1], [0, 0]⟩)
    (by decide) (fun _ _ => ⟨_, rfl, rfl, rfl⟩)

/-! ## Properties of the pairwise combine -/

theorem zipWith_self_of_fix {α : Type} (f : α → α → α) (h : ∀ x, f x x = x) :
    ∀ a : List α, List.zipWith f a a = a
  | [] => rfl
  | x :: xs => by rw [List.zipWith_cons_cons, h, zipWith_self_of_fix f h xs]

theorem zipWith_replicate_right {α : Type} (f : α → α → α) (z : α) (h : ∀ x, f x z = x) :
    ∀ a : List α, List.zipWith f a (List.replicate a.length z) = a
  | [] => rfl
  | x :: xs => by
    rw [List.length_cons, List.replicate_succ, List.zipWith_cons_cons, h,
      zipWith_replicate_right f z h xs]

theorem sum_mul_replicate_zero : ∀ a : List ℚ,
    (List.zipWith (· * ·) a (List.replicate a.length (0 : ℚ))).sum = 0
  | [] => rfl
  | x :: xs => by
    rw [List.length_cons, List.replicate_succ, List.zipWith_cons_cons, List.sum_cons,
      sum_mul_replicate_zero xs]
    simp

theorem sum_sq_replicate_zero (n : Nat) :
    (List.zipWith (· * ·) (List.replicate n (0 : ℚ)) (List.replicate n (0 : ℚ))).sum = 0 := by
  simp

/-- C3, counterexample. The buffer `a = [10^-10]` has squared norm `10^-20`, below the
threshold: the coefficient is `1` and the combine of `a` with an equal buffer
doubles it. -/
theorem equal_buffers_below_threshold_doubled :
    PairwiseReduce_Internal exactElem [1 / 10 ^ 10] [1 / 10 ^ 10] 1 [1]
        = some ([2 / 10 ^ 10], [1 / 10 ^ 10]) ∧
      PairwiseReduce_Internal exactElem [1 / 10 ^ 10] [1 / 10 ^ 10] 1 [1]
        ≠ some ([1 / 10 ^ 10], [1 / 10 ^ 10]) := by
  have h := PairwiseReduce_Internal_single_layer [1 / 10 ^ 10] [1 / 10 ^ 10] 1 rfl rfl
  have e : PairwiseReduce_Internal exactElem [1 / 10 ^ 10] [1 / 10 ^ 10] 1 [1]
      = some ([2 / 10 ^ 10], [1 / 10 ^ 10]) := by
    rw [h]
    norm_num [abs_of_nonneg]
  refine ⟨e, ?_⟩
  rw [e]
  norm_num

/-- C3, amended. Correlation cancellation: for every buffer `a` (of any length `n`)
whose squared norm is at least the threshold, the value `9671407 / 2^83` of the
`float` literal `1e-18f`, `PairwiseReduce_Internal`
applied to `left = a` and a right buffer elementwise equal to `a` (one layer of
size `n`, exact arithmetic) leaves the left buffer equal to `a`. -/
theorem PairwiseReduce_Internal_equal_buffers (a : List ℚ)
    (hnorm : 9671407 / 2 ^ 83 ≤ (List.zipWith (· * ·) a a).sum) :
    PairwiseReduce_Internal exactElem a a a.length [a.length] = some (a, a) := by
  rw [PairwiseReduce_Internal_single_layer a a a.length rfl rfl]
  have hpos : (0 : ℚ) < 9671407 / 2 ^ 83 := by positivity
  have hS : 0 < (List.zipWith (· * ·) a a).sum := lt_of_lt_of_le hpos hnorm
  have habs : ¬ |(List.zipWith (· * ·) a a).sum| < 9671407 / 2 ^ 83 := by
    rw [abs_of_pos hS]; exact not_lt.mpr hnorm
  rw [if_neg habs, div_self hS.ne', sub_self]
  rw [zipWith_self_of_fix _ (fun x => by ring) a]

theorem PairwiseReduce_Internal_equal_buffers_witness :
    PairwiseReduce_Internal exactElem [1, 2] [1, 2] ([1, 2] : List ℚ).length
      [([1, 2] : List ℚ).length] = some ([1, 2], [1, 2]) :=
  PairwiseReduce_Internal_equal_buffers [1, 2] (by norm_num)

/-- Below the threshold the guard sets the coefficient to `1` : the combine of `a`
with an equal buffer returns `a + a`. -/
theorem PairwiseReduce_Internal_below_threshold_adds (a : List ℚ)
    (hnorm : |(List.zipWith (· * ·) a a).sum| < 9671407 / 2 ^ 83) :
    PairwiseReduce_Internal exactElem a a a.length [a.length]
      = some (List.zipWith (· + ·) a a, a) := by
  rw [PairwiseReduce_Internal_single_layer a a a.length rfl rfl, if_pos hnorm]
  simp only [one_mul]

/-- C4. Orthogonality additivity: for buffers `a`, `b` of equal length with
`Σ a[i]*b[i] = 0` and `Σ b[i]*b[i] > 10^-18`, the statistics computed by
`ComputeDotAndNormSqrd` give the coefficient exactly `1`, and
`PairwiseReduce_Internal` (one layer, exact arithmetic) leaves
`left[i] = a[i] + b[i]` at every index and the right buffer unchanged. -/
theorem PairwiseReduce_Internal_orthogonal (a b : List ℚ) (hlen : a.length = b.length)
    (hdot : (List.zipWith (· * ·) a b).sum = 0)
    (hnorm : 1 / 10 ^ 18 < (List.zipWith (· * ·) b b).sum) :
    ComputeDotAndNormSqrd exactElem a b 0 a.length
        = some ((List.zipWith (· * ·) a b).sum, (List.zipWith (· * ·) b b).sum) ∧
      coefficient exactElem (List.zipWith (· * ·) a b).sum (List.zipWith (· * ·) b b).sum
        = some 1 ∧
      PairwiseReduce_Internal exactElem a b a.length [a.length]
        = some (List.zipWith (· + ·) a b, b) := by
  have hpos : (0 : ℚ) < 1 / 10 ^ 18 := by positivity
  have hS : 0 < (List.zipWith (· * ·) b b).sum := lt_trans hpos hnorm
  have hcoeff : (if |(List.zipWith (· * ·) b b).sum| < 9671407 / 2 ^ 83 then (1 : ℚ)
      else 1 - (List.zipWith (· * ·) a b).sum / (List.zipWith (· * ·) b b).sum) = 1 := by
    rw [hdot, zero_div, sub_zero, ite_self]
  refine ⟨?_, ?_, ?_⟩
  · rw [ComputeDotAndNormSqrd_exact a b 0 a.length (by omega) (by omega)]
    simp only [List.drop_zero]
    rw [List.take_of_length_le (le_refl _), List.take_of_length_le (by omega)]
  · rw [coefficient_exact, hcoeff]
  · rw [PairwiseReduce_Internal_single_layer a b a.length rfl hlen.symm, hcoeff]
    simp only [one_mul]

theorem PairwiseReduce_Internal_orthogonal_witness :
    ComputeDotAndNormSqrd exactElem [1, 0] [0, 2] 0 ([1, 0] : List ℚ).length
        = some ((List.zipWith (· * ·) ([1, 0] : List ℚ) [0, 2]).sum,
                (List.zipWith (· * ·) ([0, 2] : List ℚ) [0, 2]).sum) ∧
      coefficient exactElem (List.zipWith (· * ·) ([1, 0] : List ℚ) [0, 2]).sum
        (List.zipWith (· * ·) ([0, 2] : List ℚ) [0, 2]).sum = some 1 ∧
      PairwiseReduce_Internal exactElem [1, 0] [0, 2] ([1, 0] : List ℚ).length
        [([1, 0] : List ℚ).length] = some (List.zipWith (· + ·) [1, 0] [0, 2], [0, 2]) :=
  PairwiseReduce_Internal_orthogonal [1, 0] [0, 2] rfl (by norm_num) (by norm_num)

/-- Zero-vector identity for the floating-point element types, in exact arithmetic:
with a right buffer of zeros the squared norm is `0`, below the threshold, the
coefficient is `1` and the left buffer is unchanged. -/
theorem PairwiseReduce_Internal_zero_right_exact (a : List ℚ) :
    coefficient exactElem
        (List.zipWith (· * ·) a (List.replicate a.length 0)).sum
        (List.zipWith (· * ·) (List.replicate a.length (0 : ℚ)) (List.replicate a.length 0)).sum
        = some 1 ∧
      PairwiseReduce_Internal exactElem a (List.replicate a.length 0) a.length [a.length]
        = some (a, List.replicate a.length 0) := by
  have hpos : (0 : ℚ) < 9671407 / 2 ^ 83 := by positivity
  have habs : |(List.zipWith (· * ·) (List.replicate a.length (0 : ℚ))
      (List.replicate a.length 0)).sum| < 9671407 / 2 ^ 83 := by
    rw [sum_sq_replicate_zero, abs_zero]; exact hpos
  refine ⟨by rw [coefficient_exact, if_pos habs], ?_⟩
  rw [PairwiseReduce_Internal_single_layer a _ a.length rfl (List.length_replicate _ _),
    if_pos habs]
  rw [zipWith_replicate_right _ 0 (fun x => by ring) a]

theorem narrow_zero (bits : Nat) (signed : Bool) (hbits : 0 < bits) :
    narrow bits signed 0 = 0 := by
  unfold narrow
  cases signed with
  | false => simp
  | true =>
    simp only [if_true, zero_add]
    have h1 : (2 : Int) ^ (bits - 1) < 2 ^ bits :=
      pow_lt_pow_right₀ (by norm_num) (by omega)
    have h0 : (0 : Int) ≤ 2 ^ (bits - 1) := by positivity
    rw [Int.emod_eq_of_lt h0 h1, sub_self]

theorem ComputeDotAndNormSqrd_loop_zero_right (bits : Nat) (signed : Bool) (hbits : 0 < bits)
    (a : List Int) (n base : Nat) :
    ∀ (k i : Nat), base + i + k ≤ a.length → base + i + k ≤ n →
      ComputeDotAndNormSqrd.loop (intElem bits signed) a (List.replicate n 0) base k i (0, 0)
        = some (0, 0) := by
  intro k
  induction k with
  | zero => intro i _ _; rfl
  | succ k ih =>
    intro i ha hn
    have hia : base + i < a.length := by omega
    have hib : base + i < (List.replicate n (0 : Int)).length := by
      rw [List.length_replicate]; omega
    rw [ComputeDotAndNormSqrd.loop, List.getElem?_eq_getElem hia, List.getElem?_eq_getElem hib]
    simp only [List.getElem_replicate, intElem, mul_zero, add_zero, narrow_zero bits signed hbits]
    exact ih (i + 1) (by omega) (by omega)

/-- For every integer instantiation and every non-empty left buffer, the combine with
a right buffer of zeros does not complete: the squared norm is `0`, the threshold
is `0`, and the coefficient is an integer division by zero. -/
theorem PairwiseReduce_Internal_zero_right_integer (bits : Nat) (signed : Bool)
    (hbits : 0 < bits) (a : List Int) (ha : a ≠ []) :
    PairwiseReduce_Internal (intElem bits signed) a (List.replicate a.length 0) a.length
      [a.length] = none := by
  have hn : 0 < a.length := List.length_pos.mpr ha
  have h1 : ¬ a.length ≤ 0 := by omega
  have h2 : ¬ 0 ≥ a.length := by omega
  have hdot := ComputeDotAndNormSqrd_loop_zero_right bits signed hbits a a.length 0 a.length 0
    (by omega) (by omega)
  simp only [PairwiseReduce_Internal, Nat.mul_zero, Nat.zero_div, Nat.zero_add, Nat.mul_one,
    Nat.div_one, List.length_singleton, List.replicate_one, accumulateLayers, combineLayers,
    h1, h2, if_false, ge_iff_le, Nat.zero_le, Nat.max_eq_left, Nat.min_self, Nat.sub_zero,
    max_self, zero_le, max_eq_left, min_self, ComputeDotAndNormSqrd]
  have hz : (intElem bits signed).zero = 0 := rfl
  rw [hz, hdot]
  simp [intElem, narrow_zero bits signed hbits, coefficient]

/-- C5, the integer element types at `a = [1]`, `b = [0]` : the threshold `1e-18f`
converts to `0`, the guard `std::abs(norm) < thresh` is false for `norm = 0`, and
the coefficient `1.f - dotProduct / norm` is an integer division by zero: the
combine does not complete, for each of the six integer types that `Execute`
dispatches. -/
theorem PairwiseReduce_Internal_zero_right_integer_faults :
    (intElem 32 true).thresh = 0 ∧
      ComputeDotAndNormSqrd (intElem 32 true) [1] [0] 0 1 = some (0, 0) ∧
      coefficient (intElem 32 true) 0 0 = none ∧
      PairwiseReduce_Internal (intElem 8 true) [1] [0] 1 [1] = none ∧
      PairwiseReduce_Internal (intElem 8 false) [1] [0] 1 [1] = none ∧
      PairwiseReduce_Internal (intElem 16 false) [1] [0] 1 [1] = none ∧
      PairwiseReduce_Internal (intElem 16 true) [1] [0] 1 [1] = none ∧
      PairwiseReduce_Internal (intElem 32 true) [1] [0] 1 [1] = none ∧
      PairwiseReduce_Internal (intElem 64 true) [1] [0] 1 [1] = none := by
  decide

/-! ## Rotation of the tree root -/

/-- C6. Rotation coverage, for every group size `size ≥ 1`.  The tree root for a
tag is the true rank whose virtual rank `redn_rank` is `0`.  Each tag has exactly
one root among the ranks `0..size-1`, and every rank is the root for exactly one
tag in `0..size-1` : as the tag ranges over `0..size-1` the root takes every value
in `0..size-1` exactly once.  For each fixed tag the map
`true_rank -> redn_rank` is a permutation of `0..size-1` : it maps into
`0..size-1` and every virtual rank has exactly one true rank. -/
theorem rotation_coverage (size : Nat) (hsize : 1 ≤ size) :
    (∀ tag, ∃! r, r < size ∧ redn_rank size tag r = 0) ∧
    (∀ r, r < size → ∃! tag, tag < size ∧ redn_rank size tag r = 0) ∧
    (∀ tag r, redn_rank size tag r < size) ∧
    (∀ tag v, v < size → ∃! r, r < size ∧ redn_rank size tag r = v) := by
  have hperm : ∀ tag v, v < size → ∃! r, r < size ∧ redn_rank size tag r = v := by
    intro tag v hv
    refine ⟨neighbor_true_rank size tag v,
      ⟨neighbor_true_rank_lt _ _ _ (by omega), redn_rank_neighbor_true_rank _ _ _ hv⟩, ?_⟩
    rintro r ⟨hr, hrv⟩
    rw [← hrv, neighbor_true_rank_redn_rank size tag r hr]
  refine ⟨fun tag => hperm tag 0 (by omega), ?_,
    fun tag r => redn_rank_lt _ _ _ (by omega), hperm⟩
  intro r hr
  refine ⟨(size - r) % size, ⟨Nat.mod_lt _ (by omega), ?_⟩, ?_⟩
  · simp only [redn_rank, Nat.mod_mod]
    rw [mod_of_lt_two_mul (by omega : size - r < 2 * size)]
    split
    · rw [mod_of_lt_two_mul (by omega)]; split <;> omega
    · rw [mod_of_lt_two_mul (by omega)]; split <;> omega
  · rintro tag ⟨ht, hz⟩
    simp only [redn_rank] at hz
    rw [Nat.mod_eq_of_lt ht, mod_of_lt_two_mul (by omega)] at hz
    rw [mod_of_lt_two_mul (by omega : size - r < 2 * size)]
    split at hz <;> split <;> omega

theorem rotation_coverage_witness :
    (∀ tag, ∃! r, r < 5 ∧ redn_rank 5 tag r = 0) ∧
    (∀ r, r < 5 → ∃! tag, tag < 5 ∧ redn_rank 5 tag r = 0) ∧
    (∀ tag r, redn_rank 5 tag r < 5) ∧
    (∀ tag v, v < 5 → ∃! r, r < 5 ∧ redn_rank 5 tag r = v) :=
  rotation_coverage 5 (by decide)

/-! ## Roles at a tree level -/

/-- C7. Tree role invariant, for every group size, tag and level `2^k`.  A rank `r`
whose virtual rank `v` is not idle at the level (`v % level = 0` and the partner
`p = v ^^^ level` is below `size`) has exactly one role: it receives and combines
when the level bit of `v` is `0` and sends when it is `1`, in both cases with the
rank of virtual rank `p` as its peer.  That peer is a rank of the group, is not
idle at the level either, is paired back with `r` and has the opposite role.  A
rank that sends at a level is idle at every later level. -/
theorem tree_role_invariant (size message_tag k r : Nat) (hr : r < size)
    (hactive : redn_rank size message_tag r % 2 ^ k = 0 ∧
      redn_rank size message_tag r ^^^ 2 ^ k < size) :
    (redn_rank size message_tag r &&& 2 ^ k = 0 →
      reductionRole size message_tag r (2 ^ k) = Role.recv
        (neighbor_true_rank size message_tag (redn_rank size message_tag r ^^^ 2 ^ k))) ∧
    (redn_rank size message_tag r &&& 2 ^ k ≠ 0 →
      reductionRole size message_tag r (2 ^ k) = Role.send
        (neighbor_true_rank size message_tag (redn_rank size message_tag r ^^^ 2 ^ k))) ∧
    (∀ q, q = neighbor_true_rank size message_tag (redn_rank size message_tag r ^^^ 2 ^ k) →
      q < size ∧ q ≠ r ∧
      redn_rank size message_tag q = redn_rank size message_tag r ^^^ 2 ^ k ∧
      redn_rank size message_tag q % 2 ^ k = 0 ∧
      redn_rank size message_tag q ^^^ 2 ^ k = redn_rank size message_tag r ∧
      (redn_rank size message_tag r &&& 2 ^ k = 0 →
        reductionRole size message_tag q (2 ^ k) = Role.send r) ∧
      (redn_rank size message_tag r &&& 2 ^ k ≠ 0 →
        reductionRole size message_tag q (2 ^ k) = Role.recv r)) ∧
    (∀ n j, reductionRole size message_tag r (2 ^ k) = Role.send n → k < j →
      reductionRole size message_tag r (2 ^ j) = Role.idle) := by
  obtain ⟨hmod, hp⟩ := hactive
  have hrecv : redn_rank size message_tag r &&& 2 ^ k = 0 →
      reductionRole size message_tag r (2 ^ k) = Role.recv
        (neighbor_true_rank size message_tag (redn_rank size message_tag r ^^^ 2 ^ k)) := by
    intro hb
    simp only [reductionRole]
    rw [if_neg (by simp [hmod]), if_neg (by omega), if_pos hb]
  have hsend : redn_rank size message_tag r &&& 2 ^ k ≠ 0 →
      reductionRole size message_tag r (2 ^ k) = Role.send
        (neighbor_true_rank size message_tag (redn_rank size message_tag r ^^^ 2 ^ k)) := by
    intro hb
    simp only [reductionRole]
    rw [if_neg (by simp [hmod]), if_neg (by omega), if_neg hb]
  refine ⟨hrecv, hsend, ?_, ?_⟩
  · rintro q rfl
    obtain ⟨q1, q2, -⟩ := level_partner k _ hmod
    have hv := redn_rank_neighbor_true_rank size message_tag _ hp
    by_cases hb : redn_rank size message_tag r &&& 2 ^ k = 0
    · obtain ⟨a1, a2, a3, -, -⟩ := reductionRole_recv size message_tag r k _ hr (hrecv hb)
      exact ⟨a1, a2, hv, by rw [hv]; exact q1, by rw [hv]; exact q2, fun _ => a3,
        fun hne => absurd hb hne⟩
    · obtain ⟨a1, a2, a3, -, -⟩ := reductionRole_send size message_tag r k _ hr (hsend hb)
      exact ⟨a1, a2, hv, by rw [hv]; exact q1, by rw [hv]; exact q2, fun h0 => absurd h0 hb,
        fun _ => a3⟩
  · intro n j hs hkj
    have hbit : redn_rank size message_tag r &&& 2 ^ k ≠ 0 := by
      intro hb
      rw [hrecv hb] at hs
      cases hs
    have hnot : redn_rank size message_tag r % 2 ^ j ≠ 0 := by
      intro hj
      have hdvd : 2 ^ k * 2 ∣ 2 ^ j := by
        rw [← pow_succ]; exact pow_dvd_pow 2 (by omega)
      have h2 : redn_rank size message_tag r % (2 ^ k * 2) = 0 :=
        Nat.mod_eq_zero_of_dvd (dvd_trans hdvd (Nat.dvd_of_mod_eq_zero hj))
      exact hbit ((and_two_pow_eq_zero_iff _ k).2
        ((testBit_eq_false_iff_of_dvd _ k hmod).2 h2))
    simp only [reductionRole]
    rw [if_pos hnot]

theorem tree_role_invariant_witness :
    (redn_rank 5 3 2 &&& 2 ^ 0 = 0 →
      reductionRole 5 3 2 (2 ^ 0) = Role.recv
        (neighbor_true_rank 5 3 (redn_rank 5 3 2 ^^^ 2 ^ 0))) ∧
    (redn_rank 5 3 2 &&& 2 ^ 0 ≠ 0 →
      reductionRole 5 3 2 (2 ^ 0) = Role.send
        (neighbor_true_rank 5 3 (redn_rank 5 3 2 ^^^ 2 ^ 0))) ∧
    (∀ q, q = neighbor_true_rank 5 3 (redn_rank 5 3 2 ^^^ 2 ^ 0) →
      q < 5 ∧ q ≠ 2 ∧
      redn_rank 5 3 q = redn_rank 5 3 2 ^^^ 2 ^ 0 ∧
      redn_rank 5 3 q % 2 ^ 0 = 0 ∧
      redn_rank 5 3 q ^^^ 2 ^ 0 = redn_rank 5 3 2 ∧
      (redn_rank 5 3 2 &&& 2 ^ 0 = 0 → reductionRole 5 3 q (2 ^ 0) = Role.send 2) ∧
      (redn_rank 5 3 2 &&& 2 ^ 0 ≠ 0 → reductionRole 5 3 q (2 ^ 0) = Role.recv 2)) ∧
    (∀ n j, reductionRole 5 3 2 (2 ^ 0) = Role.send n → 0 < j →
      reductionRole 5 3 2 (2 ^ j) = Role.idle) :=
  tree_role_invariant 5 3 0 2 (by decide) (by decide)

/-! ## Evaluation of one level at one rank -/

theorem reductionLevel_idle {α : Type} (E : ElemType α) (size message_tag count level : Nat)
    (layer_sizes : List Nat) (st : Ranks α) (r : Nat) (m : RankMem α) (hm : st r = some m)
    (hrole : reductionRole size message_tag r level = Role.idle) :
    reductionLevel E size message_tag count layer_sizes level st r = some m := by
  simp only [reductionLevel, hm, hrole]

theorem reductionLevel_send {α : Type} (E : ElemType α) (size message_tag count level : Nat)
    (layer_sizes : List Nat) (st : Ranks α) (r n : Nat) (m mn : RankMem α)
    (hm : st r = some m) (hmn : st n = some mn)
    (hrole : reductionRole size message_tag r level = Role.send n)
    (hpeer : reductionRole size message_tag n level = Role.recv r)
    (hlen : count ≤ m.gradient_buffer.length) :
    reductionLevel E size message_tag count layer_sizes level st r = some m := by
  simp only [reductionLevel, hm, hrole, PointToPointSend, hpeer, hmn, Option.isSome_some]
  rw [if_pos ⟨trivial, hlen⟩]

theorem reductionLevel_recv {α : Type} (E : ElemType α) (size message_tag count level : Nat)
    (layer_sizes : List Nat) (st : Ranks α) (r n : Nat) (m mn : RankMem α) (left right : List α)
    (hm : st r = some m) (hmn : st n = some mn)
    (hrole : reductionRole size message_tag r level = Role.recv n)
    (hpeer : reductionRole size message_tag n level = Role.send r)
    (hlen : count ≤ mn.gradient_buffer.length) (hlen2 : count ≤ m.result_buffer.length)
    (hred : PairwiseReduce_Internal E m.gradient_buffer
      (mn.gradient_buffer.take count ++ m.result_buffer.drop count) count layer_sizes
        = some (left, right)) :
    reductionLevel E size message_tag count layer_sizes level st r = some ⟨left, right⟩ := by
  simp only [reductionLevel, hm, hrole, PointToPointRecv, hpeer, hmn, Option.map_some']
  rw [if_pos ⟨trivial, hlen, hlen2⟩]
  simp only [hred]

theorem broadcastLevel_idle {α : Type} (size message_tag count level : Nat)
    (st : Ranks α) (r : Nat) (m : RankMem α) (hm : st r = some m)
    (hrole : broadcastRole size message_tag r level = Role.idle) :
    broadcastLevel size message_tag count level st r = some m := by
  simp only [broadcastLevel, hm, hrole]

theorem broadcastLevel_send {α : Type} (size message_tag count level : Nat)
    (st : Ranks α) (r n : Nat) (m mn : RankMem α)
    (hm : st r = some m) (hmn : st n = some mn)
    (hrole : broadcastRole size message_tag r level = Role.send n)
    (hpeer : broadcastRole size message_tag n level = Role.recv r)
    (hlen : count ≤ m.gradient_buffer.length) :
    broadcastLevel size message_tag count level st r = some m := by
  simp only [broadcastLevel, hm, hrole, PointToPointSend, hpeer, hmn, Option.isSome_some]
  rw [if_pos ⟨trivial, hlen⟩]

theorem broadcastLevel_recv {α : Type} (size message_tag count level : Nat)
    (st : Ranks α) (r n : Nat) (m mn : RankMem α)
    (hm : st r = some m) (hmn : st n = some mn)
    (hrole : broadcastRole size message_tag r level = Role.recv n)
    (hpeer : broadcastRole size message_tag n level = Role.send r)
    (hlen : count ≤ mn.gradient_buffer.length) (hlen2 : count ≤ m.gradient_buffer.length) :
    broadcastLevel size message_tag count level st r =
      some ⟨mn.gradient_buffer.take count ++ m.gradient_buffer.drop count,
        m.result_buffer⟩ := by
  simp only [broadcastLevel, hm, hrole, PointToPointRecv, hpeer, hmn, Option.map_some']
  rw [if_pos ⟨trivial, hlen, hlen2⟩]

/-! ## End-to-end scenario -/

theorem scenario_reduce_0_1 :
    PairwiseReduce_Internal exactElem [0, 0, 0] [1, 1, 1] 3 [3] = some ([1, 1, 1], [1, 1, 1]) := by
  rw [PairwiseReduce_Internal_single_layer [0, 0, 0] [1, 1, 1] 3 rfl rfl]
  norm_num [abs_of_nonneg]

theorem scenario_reduce_2_3 :
    PairwiseReduce_Internal exactElem [2, 2, 2] [3, 3, 3] 3 [3] = some ([3, 3, 3], [3, 3, 3]) := by
  rw [PairwiseReduce_Internal_single_layer [2, 2, 2] [3, 3, 3] 3 rfl rfl]
  norm_num [abs_of_nonneg]

theorem scenario_reduce_01_23 :
    PairwiseReduce_Internal exactElem [1, 1, 1] [3, 3, 3] 3 [3] = some ([3, 3, 3], [3, 3, 3]) := by
  rw [PairwiseReduce_Internal_single_layer [1, 1, 1] [3, 3, 3] 3 rfl rfl]
  norm_num [abs_of_nonneg]

/-- C8. End-to-end scenario: 4 ranks, rank `r` holding the gradient buffer
`[r, r, r]` (and any receive buffer of 3 elements), tag `0`, one layer of 3
elements, exact arithmetic.  The tree reduction followed by the broadcast
completes and leaves the same buffer `[3, 3, 3]` on all 4 ranks; it differs from
the element-wise sum `[6, 6, 6]`. -/
theorem end_to_end_four_ranks (scratch : Nat → List ℚ)
    (hscratch : ∀ r, r < 4 → (scratch r).length = 3) :
    ∃ st1, MsAllreduce_Internal exactElem 4 0 3 [3]
        (fun r => some ⟨[(r : ℚ), (r : ℚ), (r : ℚ)], scratch r⟩) = some st1 ∧
      (∀ r, r < 4 → ∃ m, st1 r = some m ∧ m.gradient_buffer = [3, 3, 3]) ∧
      ([3, 3, 3] : List ℚ) ≠ [6, 6, 6] := by
  have d0 : List.drop 3 (scratch 0) = [] := List.drop_of_length_le (by rw [hscratch 0 (by decide)])
  have d2 : List.drop 3 (scratch 2) = [] := List.drop_of_length_le (by rw [hscratch 2 (by decide)])
  obtain ⟨st0, hst0⟩ : ∃ st0 : Ranks ℚ,
      st0 = fun r => some ⟨[(r : ℚ), (r : ℚ), (r : ℚ)], scratch r⟩ := ⟨_, rfl⟩
  rw [← hst0]
  have i0 : st0 0 = some ⟨[0, 0, 0], scratch 0⟩ := by rw [hst0]; simp
  have i1 : st0 1 = some ⟨[1, 1, 1], scratch 1⟩ := by rw [hst0]; simp
  have i2 : st0 2 = some ⟨[2, 2, 2], scratch 2⟩ := by rw [hst0]; simp
  have i3 : st0 3 = some ⟨[3, 3, 3], scratch 3⟩ := by rw [hst0]; simp
  -- reduction, level 1 : ranks 0 and 2 receive and combine, ranks 1 and 3 send
  have a0 := reductionLevel_recv exactElem 4 0 3 1 [3] st0 0 1 _ _ [1, 1, 1] [1, 1, 1] i0 i1
    (by decide) (by decide) (Nat.le_refl 3) (le_of_eq (hscratch 0 (by decide)).symm)
    (by simp only [d0]; exact scenario_reduce_0_1)
  have a1 := reductionLevel_send exactElem 4 0 3 1 [3] st0 1 0 _ _ i1 i0
    (by decide) (by decide) (Nat.le_refl 3)
  have a2 := reductionLevel_recv exactElem 4 0 3 1 [3] st0 2 3 _ _ [3, 3, 3] [3, 3, 3] i2 i3
    (by decide) (by decide) (Nat.le_refl 3) (le_of_eq (hscratch 2 (by decide)).symm)
    (by simp only [d2]; exact scenario_reduce_2_3)
  have a3 := reductionLevel_send exactElem 4 0 3 1 [3] st0 3 2 _ _ i3 i2
    (by decide) (by decide) (Nat.le_refl 3)
  -- reduction, level 2 : rank 0 receives from rank 2 and combines
  have b0 := reductionLevel_recv exactElem 4 0 3 2 [3] _ 0 2 _ _ [3, 3, 3] [3, 3, 3] a0 a2
    (by decide) (by decide) (Nat.le_refl 3) (Nat.le_refl 3) scenario_reduce_01_23
  have b1 := reductionLevel_idle exactElem 4 0 3 2 [3] _ 1 _ a1 (by decide)
  have b2 := reductionLevel_send exactElem 4 0 3 2 [3] _ 2 0 _ _ a2 a0
    (by decide) (by decide) (Nat.le_refl 3)
  have b3 := reductionLevel_idle exactElem 4 0 3 2 [3] _ 3 _ a3 (by decide)
  -- broadcast, level 2 : rank 0 sends to rank 2
  have c0 := broadcastLevel_send 4 0 3 2 _ 0 2 _ _ b0 b2 (by decide) (by decide) (Nat.le_refl 3)
  have c1 := broadcastLevel_idle 4 0 3 2 _ 1 _ b1 (by decide)
  have c2 := broadcastLevel_recv 4 0 3 2 _ 2 0 _ _ b2 b0 (by decide) (by decide) (Nat.le_refl 3)
    (Nat.le_refl 3)
  have c3 := broadcastLevel_idle 4 0 3 2 _ 3 _ b3 (by decide)
  -- broadcast, level 1 : rank 0 sends to rank 1, rank 2 sends to rank 3
  have e0 := broadcastLevel_send 4 0 3 1 _ 0 1 _ _ c0 c1 (by decide) (by decide) (Nat.le_refl 3)
  have e1 := broadcastLevel_recv 4 0 3 1 _ 1 0 _ _ c1 c0 (by decide) (by decide) (Nat.le_refl 3)
    (Nat.le_refl 3)
  have e2 := broadcastLevel_send 4 0 3 1 _ 2 3 _ _ c2 c3 (by decide) (by decide) (Nat.le_refl 3)
  have e3 := broadcastLevel_recv 4 0 3 1 _ 3 2 _ _ c3 c2 (by decide) (by decide) (Nat.le_refl 3)
    (Nat.le_refl 3)
  refine ⟨_, by simp [MsAllreduce_Internal, reductionLoop, broadcastLoop]; rfl, ?_, by decide⟩
  intro r hr
  interval_cases r
  · exact ⟨_, e0, rfl⟩
  · exact ⟨_, e1, rfl⟩
  · exact ⟨_, e2, rfl⟩
  · exact ⟨_, e3, rfl⟩

theorem end_to_end_four_ranks_witness :
    ∃ st1, MsAllreduce_Internal exactElem 4 0 3 [3]
        (fun r => some ⟨[(r : ℚ), (r : ℚ), (r : ℚ)], (fun _ => [0, 0, 0]) r⟩) = some st1 ∧
      (∀ r, r < 4 → ∃ m, st1 r = some m ∧ m.gradient_buffer = [3, 3, 3]) ∧
      ([3, 3, 3] : List ℚ) ≠ [6, 6, 6] :=
  end_to_end_four_ranks (fun _ => [0, 0, 0]) (fun _ _ => rfl)

/-! ## `Execute` -/

theorem Execute_single (size : Nat) (e : TensorTableEntry) (E : ElemType e.dtype.carrier)
    (st1 : Ranks e.dtype.carrier) (hE : Execute.instantiation e.dtype = some E)
    (hrun : MsAllreduce_Internal E size 0 e.size [e.size]
      (fun r => (e.buffers r).map fun b => ⟨b.tensor, b.output⟩) = some st1) :
    Execute size [e] = (Status.OK, [⟨e.dtype, e.num_elements,
      fun r => (st1 r).map fun m => ⟨m.gradient_buffer, m.result_buffer⟩⟩]) := by
  simp only [Execute, Execute.loop, hE, hrun]

/-- C2, evaluation of `Execute` on entries with distinct input and output buffers.
With one rank and a `float` entry (`tensor = [1]`, `output = [0]`) `Execute`
returns OK and the output buffer is still `[0]`, the result `[1]` being in the
input buffer.  With two ranks and a `uint8` entry (`tensor = [1]` on rank 0,
`[2]` on rank 1, `output = [7]` on both) `Execute` returns OK, both input
buffers hold the combined result `[3]`, and the output buffers hold `[2]` (the
buffer received from rank 1) on rank 0 and the untouched `[7]` on rank 1. -/
theorem Execute_output_buffer_not_result :
    (∃ bufs : Nat → Option (EntryBuffers ℚ),
      Execute 1 [⟨DataType.HOROVOD_FLOAT32, 1, fun _ => some ⟨[1], [0]⟩⟩]
        = (Status.OK, [⟨DataType.HOROVOD_FLOAT32, 1, bufs⟩]) ∧
      bufs 0 = some ⟨[1], [0]⟩) ∧
    (∃ bufs : Nat → Option (EntryBuffers Int),
      Execute 2 [⟨DataType.HOROVOD_UINT8, 1, fun r => some ⟨[(r : Int) + 1], [7]⟩⟩]
        = (Status.OK, [⟨DataType.HOROVOD_UINT8, 1, bufs⟩]) ∧
      bufs 0 = some ⟨[3], [2]⟩ ∧ bufs 1 = some ⟨[3], [7]⟩) :=
  ⟨⟨_, Execute_single 1 ⟨DataType.HOROVOD_FLOAT32, 1, fun _ => some ⟨[1], [0]⟩⟩ exactElem
      _ rfl rfl, rfl⟩,
   ⟨_, Execute_single 2 ⟨DataType.HOROVOD_UINT8, 1, fun r => some ⟨[(r : Int) + 1], [7]⟩⟩
      (intElem 8 false) _ rfl rfl, rfl, rfl⟩⟩

theorem Execute_loop_status (size : Nat) :
    ∀ (entries : List TensorTableEntry) (layerid : Nat),
      (Execute.loop size entries layerid).1 =
        if ∀ e ∈ entries, (Execute.instantiation e.dtype).isSome then Status.OK
        else Status.InvalidArgument
          "MS allreduction only supports double, float and float16 types." := by
  intro entries
  induction entries with
  | nil => intro layerid; simp [Execute.loop]
  | cons e rest ih =>
    intro layerid
    simp only [Execute.loop]
    cases hE : Execute.instantiation e.dtype with
    | none => simp [hE]
    | some E =>
      simp only [ih (layerid + 1), List.mem_cons, forall_eq_or_imp, hE, Option.isSome_some,
        true_and]

/-- The status of `Execute` : OK exactly when the element type of every entry is one
of the eight types with a `case` label, that is, is neither `HOROVOD_FLOAT16` nor
`HOROVOD_BOOL`. -/
theorem Execute_status (size : Nat) (entries : List TensorTableEntry) :
    (Execute size entries).1 =
      if ∀ e ∈ entries, e.dtype ≠ DataType.HOROVOD_FLOAT16 ∧ e.dtype ≠ DataType.HOROVOD_BOOL
      then Status.OK
      else Status.InvalidArgument
        "MS allreduction only supports double, float and float16 types." := by
  have h : ∀ d : DataType, (Execute.instantiation d).isSome = true ↔
      (d ≠ DataType.HOROVOD_FLOAT16 ∧ d ≠ DataType.HOROVOD_BOOL) := by
    intro d; cases d <;> simp [Execute.instantiation]
  rw [Execute, Execute_loop_status]
  simp only [h]

/-- C9, evaluation of `Execute`.  A batch with one `HOROVOD_FLOAT16` entry is refused
with the InvalidArgument status whose message names float16 among the supported
types; a batch with one `HOROVOD_INT32` entry, a type the message does not name,
is reduced and `Execute` returns OK. -/
theorem Execute_float16_refused_int32_accepted :
    (∀ (size n : Nat) (bufs : Nat → Option (EntryBuffers ℚ)),
      (Execute size [⟨DataType.HOROVOD_FLOAT16, n, bufs⟩]).1 =
        Status.InvalidArgument
          "MS allreduction only supports double, float and float16 types.") ∧
    (∀ (size n : Nat) (bufs : Nat → Option (EntryBuffers Int)),
      (Execute size [⟨DataType.HOROVOD_INT32, n, bufs⟩]).1 = Status.OK) := by
  constructor
  · intro size n bufs
    rw [Execute_status]; simp
  · intro size n bufs
    rw [Execute_status]; simp

/-- C10, evaluation of `ComputeDotAndNormSqrd` as instantiated for `uint8_t` buffers
(`TACC = T = uint8_t`) at `a = [16]`, `b = [16]` : the accumulators wrap modulo
`2^8` and the call returns `(0, 0)`, while the dot product and the squared norm
are `256`. -/
theorem ComputeDotAndNormSqrd_uint8_wraps :
    Execute.instantiation DataType.HOROVOD_UINT8 = some (intElem 8 false) ∧
      ComputeDotAndNormSqrd (intElem 8 false) [16] [16] 0 1 = some (0, 0) ∧
      (List.zipWith (· * ·) [16] [16] : List Int).sum = 256 :=
  ⟨rfl, by decide, by decide⟩

/-! ## The tree allreduce on integer buffers -/

/-- C1, evaluation of `MsAllreduce_Internal<int32_t>` on two ranks holding `[1]` (rank
0) and `[0]` (rank 1), with tag `0` and one layer of one element.  At level `1`
rank 0 receives `[0]` from rank 1 and combines: the squared norm of the received
buffer is `0`, the threshold `1e-18f` converted to `int32_t` is `0`, the guard
`std::abs(norm) < thresh` is false and the coefficient is the integer division
`0 / 0`.  The reduction loop ends with rank 0 faulted and rank 1 holding `[0]`;
in the broadcast rank 1 waits for a buffer that rank 0 never sends.  No rank ends
with a final buffer.  The same run is reached through `Execute` with an `int8`
entry of one element. -/
theorem MsAllreduce_Internal_integer_no_final_buffer :
    (∃ st1 : Ranks Int,
      MsAllreduce_Internal (intElem 32 true) 2 0 1 [1]
        (fun r => some ⟨[if r = 0 then 1 else 0], [0]⟩) = some st1 ∧
      st1 0 = none ∧ st1 1 = none) ∧
    (∃ st1 : Ranks Int,
      reductionLoop (intElem 32 true) 2 0 1 [1] 3 1
        (fun r => some ⟨[if r = 0 then 1 else 0], [0]⟩) = some (2, st1) ∧
      st1 0 = none ∧ st1 1 = some ⟨[0], [0]⟩) ∧
    reductionRole 2 0 0 1 = Role.recv 1 ∧
    PairwiseReduce_Internal (intElem 32 true) [1] [0] 1 [1] = none ∧
    (∃ bufs : Nat → Option (EntryBuffers Int),
      Execute 2 [⟨DataType.HOROVOD_INT8, 1, fun r => some ⟨[if r = 0 then 1 else 0], [0]⟩⟩]
        = (Status.OK, [⟨DataType.HOROVOD_INT8, 1, bufs⟩]) ∧
      bufs 0 = none ∧ bufs 1 = none) :=
  ⟨⟨_, rfl, rfl, rfl⟩, ⟨_, rfl, rfl, rfl⟩, rfl, rfl,
    ⟨_, Execute_single 2
      ⟨DataType.HOROVOD_INT8, 1, fun r => some ⟨[if r = 0 then 1 else 0], [0]⟩⟩
      (intElem 8 true) _ rfl rfl, rfl, rfl⟩⟩

/-! ## The element count passed by `Execute` -/

theorem TensorTableEntry_size_ne_num_elements (e : TensorTableEntry)
    (hn : 0 < e.num_elements) (hw : 1 < e.dtype.width) : e.size ≠ e.num_elements := by
  unfold TensorTableEntry.size
  intro h
  have h2 : e.num_elements * 2 ≤ e.num_elements * e.dtype.width :=
    Nat.mul_le_mul_left e.num_elements hw
  omega

/-- C17, evaluation of `Execute` on two ranks with one `float` entry of one element
(`tensor = [1]` on rank 0 and `[2]` on rank 1).  The count and the single layer
size passed to `MsAllreduce_Internal` are `e.output->size() = 4`, the byte
length, not the number of elements `1` : `ComputeDotAndNormSqrd` reads the
indices `0..3` of buffers of one element and the combine on rank 0 faults. -/
theorem Execute_passes_byte_size :
    (⟨DataType.HOROVOD_FLOAT32, 1, fun r => some ⟨[(r : ℚ) + 1], [0]⟩⟩ :
        TensorTableEntry).size = 4 ∧
      (⟨DataType.HOROVOD_FLOAT32, 1, fun r => some ⟨[(r : ℚ) + 1], [0]⟩⟩ :
        TensorTableEntry).num_elements = 1 ∧
      ComputeDotAndNormSqrd exactElem [1] [2] 0 4 = none ∧
      PairwiseReduce_Internal exactElem [1] [2] 4 [4] = none ∧
      (∃ bufs : Nat → Option (EntryBuffers ℚ),
        Execute 2 [⟨DataType.HOROVOD_FLOAT32, 1, fun r => some ⟨[(r : ℚ) + 1], [0]⟩⟩]
          = (Status.OK, [⟨DataType.HOROVOD_FLOAT32, 1, bufs⟩]) ∧
        bufs 0 = none) :=
  ⟨rfl, rfl, rfl, rfl,
    ⟨_, Execute_single 2 ⟨DataType.HOROVOD_FLOAT32, 1, fun r => some ⟨[(r : ℚ) + 1], [0]⟩⟩
      exactElem _ rfl rfl, rfl⟩⟩

/-! ## The peer of a point-to-point call -/

theorem xor_ne_self (v level : Nat) (hl : 0 < level) : v ^^^ level ≠ v := by
  intro h
  have h1 : v ^^^ (v ^^^ level) = level := Nat.xor_cancel_left v level
  rw [h, Nat.xor_self] at h1
  omega

theorem role_peer (size message_tag r level n : Nat)
    (h : reductionRole size message_tag r level = Role.recv n ∨
      reductionRole size message_tag r level = Role.send n) :
    n = neighbor_true_rank size message_tag (redn_rank size message_tag r ^^^ level) ∧
      redn_rank size message_tag r ^^^ level < size := by
  simp only [reductionRole] at h
  split at h
  · rcases h with h | h <;> cases h
  · split at h
    · rcases h with h | h <;> cases h
    · next hp =>
      split at h
      · rcases h with h | h
        · injection h with h; exact ⟨h.symm, by omega⟩
        · cases h
      · rcases h with h | h
        · cases h
        · injection h with h; exact ⟨h.symm, by omega⟩

/-- C19. Whenever `MsAllreduce_Internal` issues a send or a recv, in the reduction
phase or in the broadcast phase, at a level `level ≥ 1`, on any rank `r` of a
communicator of any `size` and for any tag, the peer
`neighbor_true_rank` lies in `0..size-1`, differs from `r`, and is the
inverse-rotated partner: `(neighbor_true_rank + tag % size) % size` is
`neighbor_redn_rank = redn_rank ^^^ level`. -/
theorem peer_is_rotated_partner (size message_tag r level n : Nat) (hl : 0 < level)
    (h : reductionRole size message_tag r level = Role.recv n ∨
      reductionRole size message_tag r level = Role.send n ∨
      broadcastRole size message_tag r level = Role.recv n ∨
      broadcastRole size message_tag r level = Role.send n) :
    n < size ∧ n ≠ r ∧
      (n + message_tag % size) % size = redn_rank size message_tag r ^^^ level ∧
      n = neighbor_true_rank size message_tag (redn_rank size message_tag r ^^^ level) := by
  have h1 : reductionRole size message_tag r level = Role.recv n ∨
      reductionRole size message_tag r level = Role.send n := by
    rw [broadcastRole_eq] at h
    rcases h with h | h | h | h
    · exact Or.inl h
    · exact Or.inr h
    · right
      revert h
      cases reductionRole size message_tag r level <;> simp
    · left
      revert h
      cases reductionRole size message_tag r level <;> simp
  obtain ⟨hn, hp⟩ := role_peer size message_tag r level n h1
  have hv : redn_rank size message_tag n = redn_rank size message_tag r ^^^ level := by
    rw [hn]; exact redn_rank_neighbor_true_rank _ _ _ hp
  refine ⟨by rw [hn]; exact neighbor_true_rank_lt _ _ _ (by omega), ?_, hv, hn⟩
  intro hnr
  rw [hnr] at hv
  exact xor_ne_self _ _ hl hv.symm

theorem peer_is_rotated_partner_witness :
    3 < 5 ∧ 3 ≠ 2 ∧ (3 + 3 % 5) % 5 = redn_rank 5 3 2 ^^^ 1 ∧
      3 = neighbor_true_rank 5 3 (redn_rank 5 3 2 ^^^ 1) :=
  peer_is_rotated_partner 5 3 2 1 3 (by decide) (Or.inl (by decide))

/-! ## The messages of the reduction phase -/

theorem reductionLoop_levels {α : Type} (E : ElemType α) (size message_tag count : Nat)
    (layer_sizes : List Nat) :
    ∀ (fuel level : Nat) (st : Ranks α) (res : Nat × Ranks α),
      reductionLoop E size message_tag count layer_sizes fuel level st = some res →
      res.2 = (reductionLevels size fuel level).foldl
        (fun s l => reductionLevel E size message_tag count layer_sizes l s) st := by
  intro fuel
  induction fuel with
  | zero => intro level st res h; cases h
  | succ fuel ih =>
    intro level st res h
    rw [reductionLoop] at h
    rw [reductionLevels]
    split at h
    · next hlt =>
      rw [if_pos hlt, List.foldl_cons]
      exact ih _ _ _ h
    · next hlt =>
      rw [if_neg hlt]
      injection h with h
      rw [← h]
      rfl

theorem reductionLevels_eq (size : Nat) :
    ∀ (d k fuel : Nat), (∀ j, j < d → 2 ^ (k + j) < size) → size ≤ 2 ^ (k + d) → d < fuel →
      reductionLevels size fuel (2 ^ k) = (List.range' k d).map (2 ^ ·) := by
  intro d
  induction d with
  | zero =>
    intro k fuel _ hle hf
    obtain ⟨f, rfl⟩ : ∃ f, fuel = f + 1 := ⟨fuel - 1, by omega⟩
    rw [reductionLevels, if_neg (by simpa using hle)]
    rfl
  | succ d ih =>
    intro k fuel hlt hle hf
    obtain ⟨f, rfl⟩ : ∃ f, fuel = f + 1 := ⟨fuel - 1, by omega⟩
    have h0 : 2 ^ k < size := by simpa using hlt 0 (by omega)
    rw [reductionLevels, if_pos h0, ← pow_succ,
      ih (k + 1) f (fun j hj => by
        have := hlt (j + 1) (by omega)
        rwa [show k + 1 + j = k + (j + 1) by omega])
        (by rwa [show k + 1 + d = k + (d + 1) by omega]) (by omega)]
    rfl

/-- The reduction loop visits the levels `2^0, 2^1, ..., 2^(K-1)`, where `K` is the
least exponent with `size ≤ 2^K`. -/
theorem reductionLevels_clog (size : Nat) :
    reductionLevels size (size + 1) 1 = (List.range (Nat.clog 2 size)).map (2 ^ ·) := by
  have h := reductionLevels_eq size (Nat.clog 2 size) 0 (size + 1)
    (fun j hj => by
      rw [Nat.zero_add]
      exact (Nat.pow_lt_iff_lt_clog (by decide)).2 hj)
    (by rw [Nat.zero_add]; exact Nat.le_pow_clog (by decide) size)
    (by
      have h1 : Nat.clog 2 size ≤ size :=
        (Nat.le_pow_iff_clog_le (by decide)).1 (Nat.lt_two_pow size).le
      omega)
  rw [pow_zero] at h
  rw [h, List.range_eq_range']

theorem isSend_iff (size message_tag r k : Nat) (hr : r < size) :
    (reductionRole size message_tag r (2 ^ k)).isSend = true ↔
      redn_rank size message_tag r % (2 ^ k * 2) = 2 ^ k := by
  have hp : 0 < 2 ^ k := Nat.two_pow_pos k
  have hv := redn_rank_lt size message_tag r (by omega)
  constructor
  · intro h
    cases hrole : reductionRole size message_tag r (2 ^ k) with
    | idle => rw [hrole] at h; cases h
    | recv n => rw [hrole] at h; cases h
    | send n =>
      obtain ⟨-, -, -, h4, h5⟩ := reductionRole_send size message_tag r k n hr hrole
      rw [h5, Nat.add_mod, h4, Nat.zero_add, Nat.mod_mod]
      exact Nat.mod_eq_of_lt (by omega)
  · intro h
    have hmod : redn_rank size message_tag r % 2 ^ k = 0 := by
      have h1 : redn_rank size message_tag r % (2 ^ k * 2) % 2 ^ k
          = redn_rank size message_tag r % 2 ^ k :=
        Nat.mod_mul_right_mod _ _ _
      rw [h] at h1
      rw [← h1, Nat.mod_self]
    have hb : redn_rank size message_tag r &&& 2 ^ k ≠ 0 := by
      intro hb
      have h2 := (level_partner_of_low k _ hmod hb).2
      omega
    obtain ⟨hle, hx, -⟩ := level_partner_of_high k _ hmod hb
    simp only [reductionRole]
    rw [if_neg (by simp [hmod]), if_neg (by rw [hx]; omega), if_neg hb]
    rfl

theorem lowest_set_bit (v : Nat) (hv : v ≠ 0) : ∃ k, v % (2 ^ k * 2) = 2 ^ k := by
  obtain ⟨k, m, hm, rfl⟩ := Nat.exists_eq_two_pow_mul_odd hv
  refine ⟨k, ?_⟩
  obtain ⟨t, rfl⟩ := hm
  have hp : 0 < 2 ^ k := Nat.two_pow_pos k
  have e : 2 ^ k * (2 * t + 1) = 2 ^ k + 2 ^ k * 2 * t := by ring
  rw [e, Nat.add_mul_mod_self_left]
  exact Nat.mod_eq_of_lt (by omega)

theorem lowest_set_bit_unique (v j k : Nat) (hj : v % (2 ^ j * 2) = 2 ^ j)
    (hk : v % (2 ^ k * 2) = 2 ^ k) : j = k := by
  have aux : ∀ a b : Nat, a < b → v % (2 ^ a * 2) = 2 ^ a → v % (2 ^ b * 2) = 2 ^ b → False := by
    intro a b hab ha hb
    have hpa : 0 < 2 ^ a := Nat.two_pow_pos a
    have hdvd : 2 ^ a * 2 ∣ 2 ^ b := by
      rw [← pow_succ]; exact pow_dvd_pow 2 (by omega)
    have h1 : 2 ^ b ∣ v := by
      have h2 : v % (2 ^ b * 2) % 2 ^ b = v % 2 ^ b := Nat.mod_mul_right_mod _ _ _
      rw [hb, Nat.mod_self] at h2
      exact Nat.dvd_of_mod_eq_zero h2.symm
    have h3 : v % (2 ^ a * 2) = 0 := Nat.mod_eq_zero_of_dvd (dvd_trans hdvd h1)
    omega
  rcases Nat.lt_trichotomy j k with h | h | h
  · exact (aux j k h hj hk).elim
  · exact h
  · exact (aux k j h hk hj).elim

theorem send_level_of_nonzero (size message_tag r : Nat) (hr : r < size)
    (hv : redn_rank size message_tag r ≠ 0) :
    ∃ k, k < Nat.clog 2 size ∧
      redn_rank size message_tag r % 2 ^ k = 0 ∧
      (redn_rank size message_tag r).testBit k = true ∧
      reductionRole size message_tag r (2 ^ k) = Role.send
        (neighbor_true_rank size message_tag (redn_rank size message_tag r - 2 ^ k)) ∧
      redn_rank size message_tag
        (neighbor_true_rank size message_tag (redn_rank size message_tag r - 2 ^ k))
        = redn_rank size message_tag r - 2 ^ k ∧
      ∀ j, (reductionRole size message_tag r (2 ^ j)).isSend = true → j = k := by
  obtain ⟨k, hk⟩ := lowest_set_bit _ hv
  have hs := (isSend_iff size message_tag r k hr).2 hk
  have hlt := redn_rank_lt size message_tag r (by omega)
  have hp : 0 < 2 ^ k := Nat.two_pow_pos k
  have hmod : redn_rank size message_tag r % 2 ^ k = 0 := by
    have h1 : redn_rank size message_tag r % (2 ^ k * 2) % 2 ^ k
        = redn_rank size message_tag r % 2 ^ k :=
      Nat.mod_mul_right_mod _ _ _
    rw [hk] at h1
    rw [← h1, Nat.mod_self]
  have hbit : (redn_rank size message_tag r).testBit k = true := by
    cases hc : (redn_rank size message_tag r).testBit k with
    | true => rfl
    | false =>
      have := (testBit_eq_false_iff_of_dvd _ k hmod).1 hc
      omega
  have hle : 2 ^ k ≤ redn_rank size message_tag r := by
    have := Nat.mod_le (redn_rank size message_tag r) (2 ^ k * 2)
    omega
  refine ⟨k, (Nat.pow_lt_iff_lt_clog (by decide)).1 (by omega), hmod, hbit, ?_, ?_,
    fun j hj => lowest_set_bit_unique _ j k ((isSend_iff size message_tag r j hr).1 hj) hk⟩
  · cases hrole : reductionRole size message_tag r (2 ^ k) with
    | idle => rw [hrole] at hs; cases hs
    | recv n => rw [hrole] at hs; cases hs
    | send n =>
      obtain ⟨h1, -, -, -, h5⟩ := reductionRole_send size message_tag r k n hr hrole
      have h6 : redn_rank size message_tag r - 2 ^ k = redn_rank size message_tag n := by
        omega
      rw [h6, neighbor_true_rank_redn_rank size message_tag n h1]
  · exact redn_rank_neighbor_true_rank _ _ _ (by omega)

theorem never_sends_of_zero (size message_tag r : Nat) (hr : r < size)
    (hv : redn_rank size message_tag r = 0) (j : Nat) :
    (reductionRole size message_tag r (2 ^ j)).isSend = false := by
  cases hc : (reductionRole size message_tag r (2 ^ j)).isSend with
  | false => rfl
  | true =>
    have h := (isSend_iff size message_tag r j hr).1 hc
    rw [hv, Nat.zero_mod] at h
    have hp : 0 < 2 ^ j := Nat.two_pow_pos j
    omega

theorem sends_card (size message_tag r : Nat) (hr : r < size) :
    ((Finset.range (Nat.clog 2 size)).filter
      (fun k => (reductionRole size message_tag r (2 ^ k)).isSend = true)).card
      = if r = neighbor_true_rank size message_tag 0 then 0 else 1 := by
  by_cases hv : redn_rank size message_tag r = 0
  · have hr0 : r = neighbor_true_rank size message_tag 0 := by
      rw [← hv, neighbor_true_rank_redn_rank size message_tag r hr]
    rw [if_pos hr0, Finset.card_eq_zero, Finset.filter_eq_empty_iff]
    intro k _
    rw [never_sends_of_zero size message_tag r hr hv k]
    simp
  · have hr0 : r ≠ neighbor_true_rank size message_tag 0 := by
      intro h
      apply hv
      rw [h]
      exact redn_rank_neighbor_true_rank _ _ _ (by omega)
    obtain ⟨k, hk, -, -, hs, -, huniq⟩ := send_level_of_nonzero size message_tag r hr hv
    rw [if_neg hr0, Finset.card_eq_one]
    refine ⟨k, ?_⟩
    ext j
    simp only [Finset.mem_filter, Finset.mem_range, Finset.mem_singleton]
    constructor
    · rintro ⟨-, hj⟩
      exact huniq j hj
    · rintro rfl
      exact ⟨hk, by rw [hs]; rfl⟩

/-- C18. The reduction phase of `MsAllreduce_Internal`, for every `size ≥ 1` and tag.
The loop visits the levels `2^0 .. 2^(K-1)`, where `K` is the least exponent with
`size ≤ 2^K`.  Each rank with non-zero virtual rank `v` sends exactly once, at
the level of the lowest set bit of `v` (a visited level), to the rank whose
virtual rank is `v` with that bit cleared; the rank with virtual rank `0` never
sends.  Over all ranks and visited levels exactly `size - 1` messages are
sent. -/
theorem reduction_phase_messages (size message_tag : Nat) (hsize : 1 ≤ size) :
    (reductionLevels size (size + 1) 1 = (List.range (Nat.clog 2 size)).map (2 ^ ·) ∧
      (reductionLevels size (size + 1) 1).length = Nat.clog 2 size ∧
      size ≤ 2 ^ Nat.clog 2 size ∧ ∀ k, size ≤ 2 ^ k → Nat.clog 2 size ≤ k) ∧
    (∀ r, r < size → redn_rank size message_tag r ≠ 0 →
      ∃ k, k < Nat.clog 2 size ∧
        redn_rank size message_tag r % 2 ^ k = 0 ∧
        (redn_rank size message_tag r).testBit k = true ∧
        reductionRole size message_tag r (2 ^ k) = Role.send
          (neighbor_true_rank size message_tag (redn_rank size message_tag r - 2 ^ k)) ∧
        redn_rank size message_tag
          (neighbor_true_rank size message_tag (redn_rank size message_tag r - 2 ^ k))
          = redn_rank size message_tag r - 2 ^ k ∧
        ∀ j, (reductionRole size message_tag r (2 ^ j)).isSend = true → j = k) ∧
    (∀ r, r < size → redn_rank size message_tag r = 0 →
      ∀ j, (reductionRole size message_tag r (2 ^ j)).isSend = false) ∧
    Finset.sum (Finset.range size) (fun r =>
      ((Finset.range (Nat.clog 2 size)).filter
        (fun k => (reductionRole size message_tag r (2 ^ k)).isSend = true)).card)
      = size - 1 := by
  refine ⟨⟨reductionLevels_clog size, ?_, Nat.le_pow_clog (by decide) size,
      fun k hk => (Nat.le_pow_iff_clog_le (by decide)).1 hk⟩,
    fun r hr hv => send_level_of_nonzero size message_tag r hr hv,
    fun r hr hv j => never_sends_of_zero size message_tag r hr hv j, ?_⟩
  · rw [reductionLevels_clog, List.length_map, List.length_range]
  · have hr0 : neighbor_true_rank size message_tag 0 < size :=
      neighbor_true_rank_lt _ _ _ (by omega)
    rw [Finset.sum_congr rfl (fun r hr =>
      sends_card size message_tag r (Finset.mem_range.mp hr))]
    rw [Finset.sum_ite, Finset.sum_const_zero, Finset.sum_const, smul_eq_mul, mul_one,
      zero_add, Finset.filter_ne' (Finset.range size) (neighbor_true_rank size message_tag 0),
      Finset.card_erase_of_mem (Finset.mem_range.mpr hr0), Finset.card_range]

theorem reduction_phase_messages_witness :
    reductionLevels 5 (5 + 1) 1 = (List.range (Nat.clog 2 5)).map (2 ^ ·) ∧
      Finset.sum (Finset.range 5) (fun r =>
        ((Finset.range (Nat.clog 2 5)).filter
          (fun k => (reductionRole 5 3 r (2 ^ k)).isSend = true)).card) = 5 - 1 :=
  ⟨(reduction_phase_messages 5 3 (by decide)).1.1, (reduction_phase_messages 5 3 (by decide)).2.2.2⟩

/-! ## Partition independence of the pairwise combine -/

theorem PairwiseReduce_Workers_one {α : Type} (E : ElemType α) (left right : List α)
    (count : Nat) (layer_sizes : List Nat) :
    PairwiseReduce_Workers E 1 left right count layer_sizes
      = PairwiseReduce_Internal E left right count layer_sizes := by
  simp only [PairwiseReduce_Workers, PairwiseReduce_Internal, accumulateWorkers, combineWorkers]
  cases accumulateLayers E left right (count * 0 / 1) (count * (0 + 1) / 1) layer_sizes 0 0
      (List.replicate layer_sizes.length E.zero, List.replicate layer_sizes.length E.zero) with
  | none => rfl
  | some acc =>
    obtain ⟨dp, nm⟩ := acc
    simp only
    cases combineLayers E right (count * 0 / 1) (count * (0 + 1) / 1) dp nm layer_sizes 0 0
      left <;> rfl

theorem dotOn_empty (a b : List ℚ) (lo hi : Nat) (h : hi ≤ lo) : dotOn a b lo hi = 0 := by
  unfold dotOn
  rw [Finset.Ico_eq_empty_of_le h, Finset.sum_empty]

theorem dotOn_succ_bot (a b : List ℚ) (lo hi : Nat) (h : lo < hi) :
    dotOn a b lo hi = a.getD lo 0 * b.getD lo 0 + dotOn a b (lo + 1) hi := by
  unfold dotOn
  exact Finset.sum_eq_sum_Ico_succ_bot h _

theorem dotOn_consecutive (a b : List ℚ) (lo mid hi : Nat) (h1 : lo ≤ mid) (h2 : mid ≤ hi) :
    dotOn a b lo mid + dotOn a b mid hi = dotOn a b lo hi := by
  unfold dotOn
  exact Finset.sum_Ico_consecutive _ h1 h2

/-- The contributions of two adjacent worker ranges `[s0, s1)` and `[s1, s2)` to a
layer `[lb, le)` add up to the contribution of the range `[s0, s2)`. -/
theorem dotOn_split (a b : List ℚ) (s0 s1 s2 lb le : Nat) (h01 : s0 ≤ s1) (h12 : s1 ≤ s2) :
    dotOn a b (max s0 lb) (min s1 le) + dotOn a b (max s1 lb) (min s2 le)
      = dotOn a b (max s0 lb) (min s2 le) := by
  by_cases c1 : s1 ≤ lb
  · rw [dotOn_empty a b (max s0 lb) (min s1 le) (by omega), zero_add]
    have e : max s1 lb = max s0 lb := by omega
    rw [e]
  · by_cases c2 : le ≤ s1
    · rw [dotOn_empty a b (max s1 lb) (min s2 le) (by omega), add_zero]
      have e : min s1 le = min s2 le := by omega
      rw [e]
    · have e1 : min s1 le = s1 := by omega
      have e2 : max s1 lb = s1 := by omega
      rw [e1, e2]
      exact dotOn_consecutive a b _ _ _ (by omega) (by omega)

theorem ComputeDotAndNormSqrd_loop_dotOn (a b : List ℚ) (base : Nat) :
    ∀ (k i : Nat) (d s : ℚ), base + i + k ≤ a.length → base + i + k ≤ b.length →
      ComputeDotAndNormSqrd.loop exactElem a b base k i (d, s) =
        some (d + dotOn a b (base + i) (base + i + k),
              s + dotOn b b (base + i) (base + i + k)) := by
  intro k
  induction k with
  | zero =>
    intro i d s _ _
    rw [dotOn_empty a b (base + i) (base + i + 0) (le_refl _),
      dotOn_empty b b (base + i) (base + i + 0) (le_refl _)]
    simp [ComputeDotAndNormSqrd.loop]
  | succ k ih =>
    intro i d s ha hb
    have hia : base + i < a.length := by omega
    have hib : base + i < b.length := by omega
    rw [ComputeDotAndNormSqrd.loop, List.getElem?_eq_getElem hia, List.getElem?_eq_getElem hib]
    simp only
    rw [ih (i + 1) _ _ (by omega) (by omega)]
    rw [dotOn_succ_bot a b (base + i) (base + i + (k + 1)) (by omega),
      dotOn_succ_bot b b (base + i) (base + i + (k + 1)) (by omega)]
    have ga : a.getD (base + i) 0 = a[base + i] := by
      rw [List.getD_eq_getElem?_getD, List.getElem?_eq_getElem hia]; rfl
    have gb : b.getD (base + i) 0 = b[base + i] := by
      rw [List.getD_eq_getElem?_getD, List.getElem?_eq_getElem hib]; rfl
    rw [ga, gb]
    have e : base + (i + 1) + k = base + i + (k + 1) := by omega
    have e2 : base + (i + 1) = base + i + 1 := by omega
    rw [e, e2]
    simp only [exactElem, Option.some.injEq, Prod.mk.injEq]
    constructor <;> ring

theorem ComputeDotAndNormSqrd_dotOn (a b : List ℚ) (lo hi : Nat) (h : lo ≤ hi)
    (ha : hi ≤ a.length) (hb : hi ≤ b.length) :
    ComputeDotAndNormSqrd exactElem a b lo (hi - lo)
      = some (dotOn a b lo hi, dotOn b b lo hi) := by
  rw [ComputeDotAndNormSqrd,
    ComputeDotAndNormSqrd_loop_dotOn a b lo (hi - lo) 0 _ _ (by omega) (by omega)]
  have e : lo + 0 + (hi - lo) = hi := by omega
  rw [e, Nat.add_zero]
  simp [exactElem]

theorem getD_set_self (l : List ℚ) (i : Nat) (v : ℚ) (h : i < l.length) :
    (l.set i v).getD i 0 = v := by
  rw [List.getD_eq_getElem?_getD, List.getElem?_set]
  simp [h]

theorem getD_set_ne (l : List ℚ) (i j : Nat) (v : ℚ) (h : i ≠ j) :
    (l.set i v).getD j 0 = l.getD j 0 := by
  rw [List.getD_eq_getElem?_getD, List.getD_eq_getElem?_getD, List.getElem?_set]
  simp [h]

theorem accumulateLayers_dotOn (left right : List ℚ) (s e : Nat) (hse : s ≤ e)
    (hl : e ≤ left.length) (hr : e ≤ right.length) :
    ∀ (layers : List Nat) (i0 lb0 : Nat) (dp nm : List ℚ),
      i0 + layers.length ≤ dp.length → i0 + layers.length ≤ nm.length →
      ∃ dp1 nm1,
        accumulateLayers exactElem left right s e layers i0 lb0 (dp, nm) = some (dp1, nm1) ∧
        dp1.length = dp.length ∧ nm1.length = nm.length ∧
        (∀ m, m < i0 → dp1.getD m 0 = dp.getD m 0 ∧ nm1.getD m 0 = nm.getD m 0) ∧
        (∀ k, k < layers.length →
          dp1.getD (i0 + k) 0 = dp.getD (i0 + k) 0 +
            dotOn left right (max s (lb0 + (layers.take k).sum))
              (min e (lb0 + (layers.take k).sum + layers.getD k 0)) ∧
          nm1.getD (i0 + k) 0 = nm.getD (i0 + k) 0 +
            dotOn right right (max s (lb0 + (layers.take k).sum))
              (min e (lb0 + (layers.take k).sum + layers.getD k 0))) := by
  intro layers
  induction layers with
  | nil =>
    intro i0 lb0 dp nm _ _
    exact ⟨dp, nm, rfl, rfl, rfl, fun m _ => ⟨rfl, rfl⟩, fun k hk => absurd hk (by simp)⟩
  | cons x rest ih =>
    intro i0 lb0 dp nm hdp hnm
    simp only [List.length_cons] at hdp hnm
    simp only [accumulateLayers]
    by_cases h1 : e ≤ lb0
    · rw [if_pos h1]
      refine ⟨dp, nm, rfl, rfl, rfl, fun m _ => ⟨rfl, rfl⟩, fun k _ => ?_⟩
      rw [dotOn_empty left right _ _ (by omega), dotOn_empty right right _ _ (by omega)]
      simp
    · rw [if_neg h1]
      by_cases h2 : s ≥ lb0 + x
      · rw [if_pos h2]
        obtain ⟨dp1, nm1, e1, e2, e3, e4, e5⟩ := ih (i0 + 1) (lb0 + x) dp nm
          (by omega) (by omega)
        refine ⟨dp1, nm1, e1, e2, e3, fun m hm => e4 m (by omega), fun k hk => ?_⟩
        cases k with
        | zero =>
          simp only [List.take_zero, List.sum_nil, Nat.add_zero, List.getD_cons_zero]
          rw [dotOn_empty left right _ _ (by omega), dotOn_empty right right _ _ (by omega)]
          simp only [add_zero]
          exact e4 i0 (by omega)
        | succ k =>
          have hk2 : k < rest.length := by simpa using hk
          have := e5 k hk2
          simp only [List.take_succ_cons, List.sum_cons, List.getD_cons_succ]
          rw [show i0 + (k + 1) = i0 + 1 + k by omega,
            show lb0 + (x + (List.take k rest).sum) = lb0 + x + (List.take k rest).sum by omega]
          exact this
      · rw [if_neg h2]
        rw [ComputeDotAndNormSqrd_dotOn left right (max s lb0) (min e (lb0 + x)) (by omega)
          (by omega) (by omega)]
        simp only [exactElem]
        obtain ⟨dp1, nm1, e1, e2, e3, e4, e5⟩ := ih (i0 + 1) (lb0 + x)
          (dp.set i0 (dp.getD i0 0 + dotOn left right (max s lb0) (min e (lb0 + x))))
          (nm.set i0 (nm.getD i0 0 + dotOn right right (max s lb0) (min e (lb0 + x))))
          (by rw [List.length_set]; omega) (by rw [List.length_set]; omega)
        refine ⟨dp1, nm1, e1, by rw [e2, List.length_set], by rw [e3, List.length_set],
          fun m hm => ?_, fun k hk => ?_⟩
        · obtain ⟨a1, a2⟩ := e4 m (by omega)
          rw [a1, a2, getD_set_ne _ _ _ _ (by omega), getD_set_ne _ _ _ _ (by omega)]
          exact ⟨rfl, rfl⟩
        · cases k with
          | zero =>
            simp only [List.take_zero, List.sum_nil, Nat.add_zero, List.getD_cons_zero]
            obtain ⟨a1, a2⟩ := e4 i0 (by omega)
            rw [a1, a2, getD_set_self _ _ _ (by omega), getD_set_self _ _ _ (by omega)]
            exact ⟨rfl, rfl⟩
          | succ k =>
            have hk2 : k < rest.length := by simpa using hk
            obtain ⟨a1, a2⟩ := e5 k hk2
            simp only [List.take_succ_cons, List.sum_cons, List.getD_cons_succ]
            rw [show i0 + (k + 1) = i0 + 1 + k by omega,
              show lb0 + (x + (List.take k rest).sum) = lb0 + x + (List.take k rest).sum
                by omega]
            rw [a1, a2, getD_set_ne _ _ _ _ (by omega), getD_set_ne _ _ _ _ (by omega)]
            exact ⟨rfl, rfl⟩

theorem worker_bounds (count nt tid : Nat) (hnt : 0 < nt) (htid : tid + 1 ≤ nt) :
    count * tid / nt ≤ count * (tid + 1) / nt ∧ count * (tid + 1) / nt ≤ count := by
  constructor
  · exact Nat.div_le_div_right (Nat.mul_le_mul_left _ (by omega))
  · calc count * (tid + 1) / nt ≤ count * nt / nt :=
        Nat.div_le_div_right (Nat.mul_le_mul_left _ htid)
      _ = count := Nat.mul_div_cancel _ hnt

theorem worker_mono (count nt a b : Nat) (hab : a ≤ b) : count * a / nt ≤ count * b / nt :=
  Nat.div_le_div_right (Nat.mul_le_mul_left _ hab)

theorem accumulateWorkers_dotOn (left right : List ℚ) (count nt : Nat) (hnt : 0 < nt)
    (hl : count ≤ left.length) (hr : count ≤ right.length) (layers : List Nat) :
    ∀ (k tid : Nat) (dp nm : List ℚ), tid + k ≤ nt →
      layers.length ≤ dp.length → layers.length ≤ nm.length →
      ∃ dp1 nm1,
        accumulateWorkers exactElem left right count nt layers k tid (dp, nm)
          = some (dp1, nm1) ∧
        dp1.length = dp.length ∧ nm1.length = nm.length ∧
        (∀ i, i < layers.length →
          dp1.getD i 0 = dp.getD i 0 +
            dotOn left right (max (count * tid / nt) (layers.take i).sum)
              (min (count * (tid + k) / nt) ((layers.take i).sum + layers.getD i 0)) ∧
          nm1.getD i 0 = nm.getD i 0 +
            dotOn right right (max (count * tid / nt) (layers.take i).sum)
              (min (count * (tid + k) / nt) ((layers.take i).sum + layers.getD i 0))) := by
  intro k
  induction k with
  | zero =>
    intro tid dp nm _ _ _
    refine ⟨dp, nm, rfl, rfl, rfl, fun i _ => ?_⟩
    rw [dotOn_empty left right _ _ (by rw [Nat.add_zero]; omega),
      dotOn_empty right right _ _ (by rw [Nat.add_zero]; omega)]
    simp
  | succ k ih =>
    intro tid dp nm htid hdp hnm
    obtain ⟨b1, b2⟩ := worker_bounds count nt tid hnt (by omega)
    have b3 : count * (tid + 1) / nt ≤ count * (tid + 1 + k) / nt :=
      worker_mono count nt _ _ (by omega)
    obtain ⟨dp0, nm0, e1, e2, e3, -, e5⟩ := accumulateLayers_dotOn left right
      (count * tid / nt) (count * (tid + 1) / nt) b1 (by omega) (by omega)
      layers 0 0 dp nm (by omega) (by omega)
    obtain ⟨dp1, nm1, f1, f2, f3, f4⟩ := ih (tid + 1) dp0 nm0 (by omega)
      (by omega) (by omega)
    refine ⟨dp1, nm1, ?_, by rw [f2, e2], by rw [f3, e3], fun i hi => ?_⟩
    · rw [accumulateWorkers]
      simp only [e1]
      exact f1
    · obtain ⟨g1, g2⟩ := f4 i hi
      obtain ⟨h1, h2⟩ := e5 i hi
      simp only [Nat.zero_add] at h1 h2
      have s1 := dotOn_split left right (count * tid / nt) (count * (tid + 1) / nt)
        (count * (tid + 1 + k) / nt) (layers.take i).sum
        ((layers.take i).sum + layers.getD i 0) b1 b3
      have s2 := dotOn_split right right (count * tid / nt) (count * (tid + 1) / nt)
        (count * (tid + 1 + k) / nt) (layers.take i).sum
        ((layers.take i).sum + layers.getD i 0) b1 b3
      rw [show tid + (k + 1) = tid + 1 + k by omega]
      constructor
      · rw [g1, h1, ← s1, add_assoc]
      · rw [g2, h2, ← s2, add_assoc]

theorem TAXPY_getD (a : ℚ) (x y : List ℚ) (base n : Nat) (hx : base + n ≤ x.length)
    (hy : base + n ≤ y.length) :
    ∃ y1, TAXPY exactElem n a x y base = some y1 ∧ y1.length = y.length ∧
      ∀ j, y1.getD j 0 =
        if base ≤ j ∧ j < base + n then y.getD j 0 + a * x.getD j 0 else y.getD j 0 := by
  obtain ⟨y1, e1, e2, e3⟩ := TAXPY_loop_spec exactElem a x base n 0 y (by omega) (by omega)
  refine ⟨y1, e1, e2, fun j => ?_⟩
  rw [List.getD_eq_getElem?_getD, e3 j]
  simp only [Nat.add_zero]
  by_cases hj : base ≤ j ∧ j < base + n
  · rw [if_pos hj, if_pos hj, List.getD_eq_getElem?_getD, List.getD_eq_getElem?_getD,
      List.getElem?_eq_getElem (by omega : j < y.length),
      List.getElem?_eq_getElem (by omega : j < x.length)]
    simp [exactElem]
  · rw [if_neg hj, if_neg hj, List.getD_eq_getElem?_getD]

theorem coefficient_coeffOf (d n : ℚ) : coefficient exactElem d n = some (coeffOf d n) :=
  coefficient_exact d n

theorem combineLayers_pointwise (right : List ℚ) (s e : Nat) (hse : s ≤ e)
    (hr : e ≤ right.length) (dp nm : List ℚ) :
    ∀ (layers : List Nat) (i0 lb0 : Nat) (left : List ℚ), e ≤ left.length →
      ∃ l1, combineLayers exactElem right s e dp nm layers i0 lb0 left = some l1 ∧
        l1.length = left.length ∧
        (∀ j, (j < s ∨ e ≤ j ∨ j < lb0 ∨ lb0 + layers.sum ≤ j) →
          l1.getD j 0 = left.getD j 0) ∧
        (∀ k, k < layers.length → ∀ j, lb0 + (layers.take k).sum ≤ j →
          j < lb0 + (layers.take k).sum + layers.getD k 0 → s ≤ j → j < e →
          l1.getD j 0 = left.getD j 0 +
            coeffOf (dp.getD (i0 + k) 0) (nm.getD (i0 + k) 0) * right.getD j 0) := by
  intro layers
  induction layers with
  | nil =>
    intro i0 lb0 left _
    exact ⟨left, rfl, rfl, fun j _ => rfl, fun k hk => absurd hk (by simp)⟩
  | cons x rest ih =>
    intro i0 lb0 left hleft
    simp only [combineLayers]
    by_cases h1 : e ≤ lb0
    · rw [if_pos h1]
      refine ⟨left, rfl, rfl, fun j _ => rfl, fun k _ j hj1 _ _ hj4 => ?_⟩
      omega
    · rw [if_neg h1]
      by_cases h2 : s ≥ lb0 + x
      · rw [if_pos h2]
        obtain ⟨l1, e1, e2, e3, e4⟩ := ih (i0 + 1) (lb0 + x) left hleft
        refine ⟨l1, e1, e2, fun j hj => e3 j ?_, fun k hk j hj1 hj2 hj3 hj4 => ?_⟩
        · simp only [List.sum_cons] at hj
          omega
        · cases k with
          | zero =>
            simp only [List.take_zero, List.sum_nil, Nat.add_zero, List.getD_cons_zero] at hj2
            omega
          | succ k =>
            have hk2 : k < rest.length := by simpa using hk
            simp only [List.take_succ_cons, List.sum_cons, List.getD_cons_succ] at hj1 hj2
            rw [show i0 + (k + 1) = i0 + 1 + k by omega]
            exact e4 k hk2 j (by omega) (by omega) hj3 hj4
      · have hz : exactElem.zero = 0 := rfl
        rw [if_neg h2, coefficient_coeffOf]
        simp only [hz]
        obtain ⟨y1, t1, t2, t3⟩ := TAXPY_getD (coeffOf (dp.getD i0 0) (nm.getD i0 0)) right left
          (max s lb0) (min e (lb0 + x) - max s lb0) (by omega) (by omega)
        rw [t1]
        simp only
        obtain ⟨l1, e1, e2, e3, e4⟩ := ih (i0 + 1) (lb0 + x) y1 (by omega)
        refine ⟨l1, e1, by rw [e2, t2], fun j hj => ?_, fun k hk j hj1 hj2 hj3 hj4 => ?_⟩
        · simp only [List.sum_cons] at hj
          rw [e3 j (by omega), t3 j, if_neg (by omega)]
        · cases k with
          | zero =>
            simp only [List.take_zero, List.sum_nil, Nat.add_zero, List.getD_cons_zero]
              at hj1 hj2 ⊢
            rw [e3 j (by omega), t3 j, if_pos (by omega)]
          | succ k =>
            have hk2 : k < rest.length := by simpa using hk
            simp only [List.take_succ_cons, List.sum_cons, List.getD_cons_succ] at hj1 hj2
            rw [show i0 + (k + 1) = i0 + 1 + k by omega,
              e4 k hk2 j (by omega) (by omega) hj3 hj4, t3 j, if_neg (by omega)]

theorem combineWorkers_pointwise (right : List ℚ) (count nt : Nat) (hnt : 0 < nt)
    (hr : count ≤ right.length) (dp nm : List ℚ) (layers : List Nat) :
    ∀ (k tid : Nat) (left : List ℚ), tid + k ≤ nt → count ≤ left.length →
      ∃ l1, combineWorkers exactElem right count nt dp nm layers k tid left = some l1 ∧
        l1.length = left.length ∧
        (∀ j, (j < count * tid / nt ∨ count * (tid + k) / nt ≤ j ∨ layers.sum ≤ j) →
          l1.getD j 0 = left.getD j 0) ∧
        (∀ i, i < layers.length → ∀ j, (layers.take i).sum ≤ j →
          j < (layers.take i).sum + layers.getD i 0 →
          count * tid / nt ≤ j → j < count * (tid + k) / nt →
          l1.getD j 0 = left.getD j 0 +
            coeffOf (dp.getD i 0) (nm.getD i 0) * right.getD j 0) := by
  intro k
  induction k with
  | zero =>
    intro tid left _ _
    refine ⟨left, rfl, rfl, fun j _ => rfl, fun i _ j _ _ h3 h4 => ?_⟩
    rw [Nat.add_zero] at h4
    omega
  | succ k ih =>
    intro tid left htid hleft
    obtain ⟨b1, b2⟩ := worker_bounds count nt tid hnt (by omega)
    have b3 : count * (tid + 1) / nt ≤ count * (tid + 1 + k) / nt :=
      worker_mono count nt _ _ (by omega)
    obtain ⟨l0, e1, e2, e3, e4⟩ := combineLayers_pointwise right
      (count * tid / nt) (count * (tid + 1) / nt) b1 (by omega) dp nm layers 0 0 left
      (by omega)
    obtain ⟨l1, f1, f2, f3, f4⟩ := ih (tid + 1) l0 (by omega) (by omega)
    simp only [Nat.zero_add] at e3 e4
    refine ⟨l1, ?_, by rw [f2, e2], fun j hj => ?_, fun i hi j hj1 hj2 hj3 hj4 => ?_⟩
    · rw [combineWorkers]
      simp only [e1]
      exact f1
    · rw [show tid + (k + 1) = tid + 1 + k by omega] at hj
      rw [f3 j (by omega), e3 j (by omega)]
    · rw [show tid + (k + 1) = tid + 1 + k by omega] at hj4
      by_cases hc : j < count * (tid + 1) / nt
      · rw [f3 j (Or.inl hc), e4 i hi j hj1 hj2 hj3 hc]
      · rw [f4 i hi j hj1 hj2 (by omega) hj4, e3 j (by omega)]

theorem take_sum_add_getD_le : ∀ (layers : List Nat) (i : Nat), i < layers.length →
    (layers.take i).sum + layers.getD i 0 ≤ layers.sum
  | [], i, h => absurd h (by simp)
  | x :: rest, 0, _ => by simp
  | x :: rest, i + 1, h => by
    have := take_sum_add_getD_le rest i (by simpa using h)
    simp only [List.take_succ_cons, List.sum_cons, List.getD_cons_succ]
    omega

theorem exists_layer : ∀ (layers : List Nat) (j : Nat), j < layers.sum →
    ∃ i, i < layers.length ∧ (layers.take i).sum ≤ j ∧
      j < (layers.take i).sum + layers.getD i 0
  | [], j, h => absurd h (by simp)
  | x :: rest, j, h => by
    by_cases hj : j < x
    · exact ⟨0, by simp, by simp, by simpa using hj⟩
    · obtain ⟨i, h1, h2, h3⟩ := exists_layer rest (j - x)
        (by simp only [List.sum_cons] at h; omega)
      refine ⟨i + 1, by simpa using h1, ?_, ?_⟩
      · simp only [List.take_succ_cons, List.sum_cons]; omega
      · simp only [List.take_succ_cons, List.sum_cons, List.getD_cons_succ]; omega

theorem ext_getD (l1 l2 : List ℚ) (hlen : l1.length = l2.length)
    (h : ∀ j, j < l1.length → l1.getD j 0 = l2.getD j 0) : l1 = l2 := by
  apply List.ext_getElem hlen
  intro j h1 h2
  have := h j h1
  rw [List.getD_eq_getElem?_getD, List.getD_eq_getElem?_getD,
    List.getElem?_eq_getElem h1, List.getElem?_eq_getElem h2] at this
  exact this

theorem getD_replicate_zero (n i : Nat) : (List.replicate n (0 : ℚ)).getD i 0 = 0 := by
  rw [List.getD_eq_getElem?_getD, List.getElem?_replicate]
  split <;> rfl

/-- The pairwise combine with `nt` workers, in exact arithmetic, on buffers of
`layers.sum` elements: every element of a layer gets the coefficient of its
layer, computed from the statistics of the whole layer. -/
theorem PairwiseReduce_Workers_layers (nt : Nat) (hnt : 1 ≤ nt) (left right : List ℚ)
    (layers : List Nat) (hl : left.length = layers.sum) (hr : right.length = layers.sum) :
    ∃ l1, PairwiseReduce_Workers exactElem nt left right layers.sum layers
        = some (l1, right) ∧
      l1.length = left.length ∧
      ∀ i, i < layers.length → ∀ j, (layers.take i).sum ≤ j →
        j < (layers.take i).sum + layers.getD i 0 →
        l1.getD j 0 = left.getD j 0 +
          layerCoeff left right (layers.take i).sum ((layers.take i).sum + layers.getD i 0)
            * right.getD j 0 := by
  have hz : exactElem.zero = 0 := rfl
  obtain ⟨dp1, nm1, e1, e2, e3, e4⟩ := accumulateWorkers_dotOn left right layers.sum nt
    (by omega) (by omega) (by omega) layers nt 0
    (List.replicate layers.length 0) (List.replicate layers.length 0) (by omega)
    (by rw [List.length_replicate]) (by rw [List.length_replicate])
  obtain ⟨l1, f1, f2, f3, f4⟩ := combineWorkers_pointwise right layers.sum nt (by omega)
    (by omega) dp1 nm1 layers nt 0 left (by omega) (by omega)
  have hfull : layers.sum * (0 + nt) / nt = layers.sum := by
    rw [Nat.zero_add]; exact Nat.mul_div_cancel _ (by omega)
  refine ⟨l1, ?_, f2, fun i hi j hj1 hj2 => ?_⟩
  · simp only [PairwiseReduce_Workers, hz, e1, f1]
  · have hle := take_sum_add_getD_le layers i hi
    obtain ⟨g1, g2⟩ := e4 i hi
    rw [hfull, Nat.mul_zero, Nat.zero_div, getD_replicate_zero, zero_add] at g1 g2
    have m1 : max 0 (layers.take i).sum = (layers.take i).sum := by omega
    have m2 : min layers.sum ((layers.take i).sum + layers.getD i 0)
        = (layers.take i).sum + layers.getD i 0 := by omega
    rw [m1, m2] at g1 g2
    rw [f4 i hi j hj1 hj2 (by rw [Nat.mul_zero, Nat.zero_div]; omega) (by rw [hfull]; omega),
      g1, g2]
    rfl

/-- C14. Partition independence of the two-phase pairwise reduce.  For every worker
count `nt ≥ 1`, every list of layer sizes and buffers of `count = Σ layer sizes`
elements, `PairwiseReduce_Internal` run with `nt` workers, worker `tid` being
restricted to the index range `[count*tid/nt, count*(tid+1)/nt)`, produces in
exact arithmetic the same left buffer as the single worker of the source.  In
that buffer every element `j` of a layer is `left[j] + coeff * right[j]`, where
`coeff` is the coefficient of the layer, computed from the dot product and the
squared norm summed over the whole layer: the result on a layer depends only on
the slices of the two buffers on that layer. -/
theorem partition_independence (nt : Nat) (hnt : 1 ≤ nt) (left right : List ℚ)
    (layers : List Nat) (hl : left.length = layers.sum) (hr : right.length = layers.sum) :
    ∃ l1, PairwiseReduce_Workers exactElem nt left right layers.sum layers
        = some (l1, right) ∧
      PairwiseReduce_Internal exactElem left right layers.sum layers = some (l1, right) ∧
      l1.length = left.length ∧
      ∀ i, i < layers.length → ∀ j, (layers.take i).sum ≤ j →
        j < (layers.take i).sum + layers.getD i 0 →
        l1.getD j 0 = left.getD j 0 +
          layerCoeff left right (layers.take i).sum ((layers.take i).sum + layers.getD i 0)
            * right.getD j 0 := by
  obtain ⟨l1, a1, a2, a3⟩ := PairwiseReduce_Workers_layers nt hnt left right layers hl hr
  obtain ⟨l2, b1, b2, b3⟩ := PairwiseReduce_Workers_layers 1 (le_refl _) left right layers hl hr
  rw [PairwiseReduce_Workers_one] at b1
  have heq : l2 = l1 := by
    apply ext_getD l2 l1 (by rw [a2, b2])
    intro j hj
    obtain ⟨i, h1, h2, h3⟩ := exists_layer layers j (by omega)
    rw [a3 i h1 j h2 h3, b3 i h1 j h2 h3]
  rw [heq] at b1
  exact ⟨l1, a1, b1, a2, a3⟩

theorem partition_independence_witness :
    ∃ l1, PairwiseReduce_Workers exactElem 3 [1, 2, 3, 4] [1, 0, 0, 1]
          ([2, 2] : List Nat).sum [2, 2] = some (l1, [1, 0, 0, 1]) ∧
      PairwiseReduce_Internal exactElem [1, 2, 3, 4] [1, 0, 0, 1] ([2, 2] : List Nat).sum [2, 2]
        = some (l1, [1, 0, 0, 1]) ∧
      l1.length = ([1, 2, 3, 4] : List ℚ).length ∧
      ∀ i, i < ([2, 2] : List Nat).length → ∀ j, (([2, 2] : List Nat).take i).sum ≤ j →
        j < (([2, 2] : List Nat).take i).sum + ([2, 2] : List Nat).getD i 0 →
        l1.getD j 0 = ([1, 2, 3, 4] : List ℚ).getD j 0 +
          layerCoeff [1, 2, 3, 4] [1, 0, 0, 1] (([2, 2] : List Nat).take i).sum
            ((([2, 2] : List Nat).take i).sum + ([2, 2] : List Nat).getD i 0)
            * ([1, 0, 0, 1] : List ℚ).getD j 0 :=
  partition_independence 3 (by decide) [1, 2, 3, 4] [1, 0, 0, 1] [2, 2] rfl rfl

end MsAllreduceOp

/-! # Properties of the GPU hierarchical allreduce -/

namespace AdasumCudaAllreduceOp

open MsAllreduceOp (Status)

/-! ## `Execute` : the empty batch and the selector -/

/-- C11. `AdasumCudaAllreduceOp::Execute` called with an empty entries list returns OK
and leaves the whole state as it was: the stream table, the communicator cache,
the creation counters and the log of external calls are unchanged (no stream
created, no communicator initialised, no reduction run), nothing is thrown, and
neither orchestrator parameter is consulted, for every value of the selector,
supported or not. -/
theorem Execute_empty_is_noop
    (TreeHierarchical RingHierarchical : List TensorTableEntry → GpuState → Outcome × GpuState)
    (env : Env) (response : Response) (st : GpuState) :
    Execute TreeHierarchical RingHierarchical env response [] st
      = (Outcome.returned Status.OK, st) := by
  simp [Execute]

theorem InitCUDAStreams_isSome (env : Env) (entries : List TensorTableEntry) (st : GpuState)
    (hne : entries ≠ []) : ∃ st1, InitCUDAStreams env entries st = some st1 := by
  cases entries with
  | nil => exact absurd rfl hne
  | cons e es => simp [InitCUDAStreams]

/-- C12. `AdasumCudaAllreduceOp::Execute` called with a non-empty entries list first
runs `InitCUDAStreams`; on the resulting state it runs `TreeHierarchical` when the
selector is `GPU_TREE`, `RingHierarchical` when it is `GPU_RING` and
`NcclHierarchical` when it is `GPU_NCCL_SUM_RING`; for every other selector it
throws the logic error "Unsupported adasum reduction algorithm" with none of the
three run (the result does not depend on them).  When the orchestrators
themselves return, `Execute` throws this error if and only if the selector is
none of the three. -/
theorem Execute_selects_orchestrator
    (TreeHierarchical RingHierarchical : List TensorTableEntry → GpuState → Outcome × GpuState)
    (env : Env) (response : Response) (entries : List TensorTableEntry) (st : GpuState)
    (hne : entries ≠ []) :
    ∃ st1, InitCUDAStreams env entries st = some st1 ∧
      (env.adasum_algorithm = AdasumAlgorithm.GPU_TREE →
        Execute TreeHierarchical RingHierarchical env response entries st
          = TreeHierarchical entries st1) ∧
      (env.adasum_algorithm = AdasumAlgorithm.GPU_RING →
        Execute TreeHierarchical RingHierarchical env response entries st
          = RingHierarchical entries st1) ∧
      (env.adasum_algorithm = AdasumAlgorithm.GPU_NCCL_SUM_RING →
        Execute TreeHierarchical RingHierarchical env response entries st
          = NcclHierarchical env response entries st1) ∧
      ((env.adasum_algorithm ≠ AdasumAlgorithm.GPU_TREE ∧
          env.adasum_algorithm ≠ AdasumAlgorithm.GPU_RING ∧
          env.adasum_algorithm ≠ AdasumAlgorithm.GPU_NCCL_SUM_RING) →
        Execute TreeHierarchical RingHierarchical env response entries st
          = (Outcome.thrown "Unsupported adasum reduction algorithm", st1)) ∧
      ((∀ es s, ∃ status, (TreeHierarchical es s).1 = Outcome.returned status) →
        (∀ es s, ∃ status, (RingHierarchical es s).1 = Outcome.returned status) →
        ((Execute TreeHierarchical RingHierarchical env response entries st).1
            = Outcome.thrown "Unsupported adasum reduction algorithm" ↔
          (env.adasum_algorithm ≠ AdasumAlgorithm.GPU_TREE ∧
            env.adasum_algorithm ≠ AdasumAlgorithm.GPU_RING ∧
            env.adasum_algorithm ≠ AdasumAlgorithm.GPU_NCCL_SUM_RING))) := by
  obtain ⟨st1, h1⟩ := InitCUDAStreams_isSome env entries st hne
  have hlen : ¬ entries.length < 1 := by
    have := List.length_pos.mpr hne
    omega
  refine ⟨st1, h1, ?_, ?_, ?_, ?_, ?_⟩
  · intro h
    simp only [Execute, hlen, if_false, h1, h, if_true]
  · intro h
    simp only [Execute, hlen, if_false, h1, h, if_true]
    simp
  · intro h
    simp only [Execute, hlen, if_false, h1, h, if_true]
    simp
  · rintro ⟨ha, hb, hc⟩
    simp only [Execute, hlen, if_false, h1, ha, hb, hc]
  · intro htree hring
    constructor
    · intro hthrown
      refine ⟨?_, ?_, ?_⟩
      · intro h
        obtain ⟨status, hs⟩ := htree entries st1
        simp only [Execute, hlen, if_false, h1, h, if_true, hs] at hthrown
        cases hthrown
      · intro h
        obtain ⟨status, hs⟩ := hring entries st1
        simp only [Execute, hlen, if_false, h1, h, if_true] at hthrown
        simp [hs] at hthrown
      · intro h
        simp only [Execute, hlen, if_false, h1, h, if_true] at hthrown
        simp [NcclHierarchical] at hthrown
    · rintro ⟨ha, hb, hc⟩
      simp only [Execute, hlen, if_false, h1, ha, hb, hc]

theorem Execute_selects_orchestrator_witness :
    ∃ st1, InitCUDAStreams ⟨0, AdasumAlgorithm.NONE, 0, 1, [0], 0⟩ [⟨0⟩]
        ⟨fun _ _ => none, 0, fun _ _ => none, 0, none, []⟩ = some st1 ∧
      Execute (fun _ s => (Outcome.returned Status.OK, s))
          (fun _ s => (Outcome.returned Status.OK, s))
          ⟨0, AdasumAlgorithm.NONE, 0, 1, [0], 0⟩ ⟨fun _ => 0⟩ [⟨0⟩]
          ⟨fun _ _ => none, 0, fun _ _ => none, 0, none, []⟩
        = (Outcome.thrown "Unsupported adasum reduction algorithm", st1) := by
  obtain ⟨st1, h1, -, -, -, h5, -⟩ := Execute_selects_orchestrator
    (fun _ s => (Outcome.returned Status.OK, s)) (fun _ s => (Outcome.returned Status.OK, s))
    ⟨0, AdasumAlgorithm.NONE, 0, 1, [0], 0⟩ ⟨fun _ => 0⟩ [⟨0⟩]
    ⟨fun _ _ => none, 0, fun _ _ => none, 0, none, []⟩ (by decide)
  exact ⟨st1, h1, h5 ⟨by decide, by decide, by decide⟩⟩

/-! ## The stream table -/

theorem createIfNull_of_some (stream_set key : Int) (st : GpuState) (h : Nat)
    (hs : st.streams stream_set key = some h) : createIfNull stream_set key st = st := by
  simp only [createIfNull, hs]

theorem createIfNull_isSome (stream_set key : Int) (st : GpuState) :
    ((createIfNull stream_set key st).streams stream_set key).isSome = true := by
  unfold createIfNull
  cases hs : st.streams stream_set key with
  | some h => simp [hs]
  | none => simp

theorem createIfNull_keeps (stream_set key s k : Int) (st : GpuState)
    (hs : (st.streams s k).isSome = true) :
    (createIfNull stream_set key st).streams s k = st.streams s k := by
  unfold createIfNull
  cases hk : st.streams stream_set key with
  | some h => rfl
  | none =>
    simp only
    split
    · next hc =>
      obtain ⟨rfl, rfl⟩ := hc
      rw [hk] at hs
      cases hs
    · rfl

theorem createIfNull_rest (stream_set key : Int) (st : GpuState) :
    (createIfNull stream_set key st).nccl_comms = st.nccl_comms ∧
      (createIfNull stream_set key st).comms_created = st.comms_created ∧
      (createIfNull stream_set key st).nccl_comm_ = st.nccl_comm_ := by
  unfold createIfNull
  cases st.streams stream_set key <;> simp

theorem InitCUDAStreams_loop_keeps (cur : Int) :
    ∀ (k i : Nat) (st : GpuState) (s key : Int), (st.streams s key).isSome = true →
      (InitCUDAStreams.loop cur k i st).streams s key = st.streams s key := by
  intro k
  induction k with
  | zero => intro i st s key _; rfl
  | succ k ih =>
    intro i st s key hs
    rw [InitCUDAStreams.loop, ih (i + 1) _ s key (by rw [createIfNull_keeps _ _ _ _ _ hs]; exact hs),
      createIfNull_keeps _ _ _ _ _ hs]

theorem InitCUDAStreams_loop_isSome (cur : Int) :
    ∀ (k i : Nat) (st : GpuState) (j : Nat), i ≤ j → j < i + k →
      ((InitCUDAStreams.loop cur k i st).streams cur (j : Int)).isSome = true := by
  intro k
  induction k with
  | zero => intro i st j h1 h2; omega
  | succ k ih =>
    intro i st j h1 h2
    rw [InitCUDAStreams.loop]
    by_cases hj : j = i
    · subst hj
      have h := createIfNull_isSome cur (j : Int) st
      rw [InitCUDAStreams_loop_keeps cur k (j + 1) _ cur (j : Int) h]
      exact h
    · exact ih (i + 1) _ j (by omega) (by omega)

theorem InitCUDAStreams_loop_fixed (cur : Int) :
    ∀ (k i : Nat) (st : GpuState),
      (∀ j : Nat, i ≤ j → j < i + k → (st.streams cur (j : Int)).isSome = true) →
      InitCUDAStreams.loop cur k i st = st := by
  intro k
  induction k with
  | zero => intro i st _; rfl
  | succ k ih =>
    intro i st h
    have hi := h i (le_refl _) (by omega)
    obtain ⟨x, hx⟩ := Option.isSome_iff_exists.mp hi
    rw [InitCUDAStreams.loop, createIfNull_of_some cur (i : Int) st x hx]
    exact ih (i + 1) st (fun j h1 h2 => h j (by omega) (by omega))

theorem InitCUDAStreams_loop_rest (cur : Int) :
    ∀ (k i : Nat) (st : GpuState),
      (InitCUDAStreams.loop cur k i st).nccl_comms = st.nccl_comms ∧
      (InitCUDAStreams.loop cur k i st).comms_created = st.comms_created ∧
      (InitCUDAStreams.loop cur k i st).nccl_comm_ = st.nccl_comm_ := by
  intro k
  induction k with
  | zero => intro i st; exact ⟨rfl, rfl, rfl⟩
  | succ k ih =>
    intro i st
    rw [InitCUDAStreams.loop]
    obtain ⟨a1, a2, a3⟩ := ih (i + 1) (createIfNull cur (i : Int) st)
    obtain ⟨b1, b2, b3⟩ := createIfNull_rest cur (i : Int) st
    exact ⟨a1.trans b1, a2.trans b2, a3.trans b3⟩

/-- After `InitCUDAStreams(entries)` the stream table of the current stream set holds a
stream for every key `i` below the number of entries and for the device of the
first entry. -/
theorem InitCUDAStreams_streams (env : Env) (first : TensorTableEntry)
    (rest : List TensorTableEntry) (st st1 : GpuState)
    (h : InitCUDAStreams env (first :: rest) st = some st1) :
    (∀ i : Nat, i < (first :: rest).length →
      (st1.streams env.current_nccl_stream (i : Int)).isSome = true) ∧
    (st1.streams env.current_nccl_stream first.device).isSome = true := by
  simp only [InitCUDAStreams, List.getElem?_cons_zero, Option.some.injEq] at h
  subst h
  refine ⟨fun i hi => ?_, createIfNull_isSome _ _ _⟩
  have h1 := InitCUDAStreams_loop_isSome env.current_nccl_stream (first :: rest).length 0
    { st with log := st.log ++ [Call.cudaSetDevice first.device] } i (Nat.zero_le _) (by omega)
  rw [createIfNull_keeps _ _ _ _ _ h1]
  exact h1

theorem InitCUDAStreams_again (env : Env) (first : TensorTableEntry)
    (rest : List TensorTableEntry) (st st1 : GpuState)
    (h : InitCUDAStreams env (first :: rest) st = some st1) :
    InitCUDAStreams env (first :: rest) st1
      = some { st1 with log := st1.log ++ [Call.cudaSetDevice first.device] } := by
  obtain ⟨h1, h2⟩ := InitCUDAStreams_streams env first rest st st1 h
  simp only [InitCUDAStreams, List.getElem?_cons_zero, Option.some.injEq]
  rw [InitCUDAStreams_loop_fixed env.current_nccl_stream (first :: rest).length 0
    { st1 with log := st1.log ++ [Call.cudaSetDevice first.device] }
    (fun j _ hj => h1 j (by omega))]
  obtain ⟨x, hx⟩ := Option.isSome_iff_exists.mp h2
  exact createIfNull_of_some _ _ _ x hx

theorem InitNCCLComm_again (env : Env) (nccl_device_map : List Int) (st : GpuState) :
    InitNCCLComm env nccl_device_map (InitNCCLComm env nccl_device_map st)
      = InitNCCLComm env nccl_device_map st := by
  cases hc : st.nccl_comms env.current_nccl_stream nccl_device_map with
  | some c =>
    have e1 : InitNCCLComm env nccl_device_map st
        = { st with nccl_comm_ := some (env.current_nccl_stream, nccl_device_map) } := by
      simp only [InitNCCLComm, hc]
    rw [e1]
    simp only [InitNCCLComm, hc]
  | none =>
    simp only [InitNCCLComm, hc, and_self, if_true]

/-- C13. Resource reuse on the explicit state.  A second call of `InitCUDAStreams` with
the same entries and stream-set index completes, creates zero streams (the
creation counter and the stream table are unchanged) and makes no external call
but `cudaSetDevice`.  A second call of `InitNCCLComm` with the same device list
and stream-set index leaves the whole state, log included, as the first call
left it: no unique-id generation, no broadcast, no communicator initialisation,
no barrier; the selected communicator is the slot of that device list, which
holds a communicator, the one the first call created when the slot was empty. -/
theorem resource_reuse (env : Env) (first : TensorTableEntry) (rest : List TensorTableEntry)
    (nccl_device_map : List Int) (st s : GpuState) :
    (∃ st1 st2, InitCUDAStreams env (first :: rest) st = some st1 ∧
      InitCUDAStreams env (first :: rest) st1 = some st2 ∧
      st2.streams = st1.streams ∧ st2.streams_created = st1.streams_created ∧
      st2.log = st1.log ++ [Call.cudaSetDevice first.device]) ∧
    (InitNCCLComm env nccl_device_map (InitNCCLComm env nccl_device_map s)
        = InitNCCLComm env nccl_device_map s ∧
      (InitNCCLComm env nccl_device_map s).nccl_comm_
        = some (env.current_nccl_stream, nccl_device_map) ∧
      ((InitNCCLComm env nccl_device_map s).nccl_comms env.current_nccl_stream
        nccl_device_map).isSome = true ∧
      (s.nccl_comms env.current_nccl_stream nccl_device_map = none →
        (InitNCCLComm env nccl_device_map s).nccl_comms env.current_nccl_stream
          nccl_device_map = some s.comms_created ∧
        (InitNCCLComm env nccl_device_map s).comms_created = s.comms_created + 1)) := by
  constructor
  · obtain ⟨st1, h1⟩ := InitCUDAStreams_isSome env (first :: rest) st (by simp)
    exact ⟨st1, _, h1, InitCUDAStreams_again env first rest st st1 h1, rfl, rfl, rfl⟩
  · refine ⟨InitNCCLComm_again env nccl_device_map s, ?_, ?_, ?_⟩
    · cases hc : s.nccl_comms env.current_nccl_stream nccl_device_map <;>
        simp only [InitNCCLComm, hc]
    · cases hc : s.nccl_comms env.current_nccl_stream nccl_device_map with
      | some c => simp only [InitNCCLComm, hc, Option.isSome_some]
      | none => simp only [InitNCCLComm, hc, and_self, if_true, Option.isSome_some]
    · intro hc
      simp only [InitNCCLComm, hc, and_self, if_true]

/-- The loop of `InitCUDAStreams` looks up the keys `0..n-1` (the keys
`RingHierarchical` uses with `layerid`), and only the device of the first entry
is looked up by device: on a list of two entries on the devices `0` and `5`,
which is not a batch of one device, the table holds streams for the keys `0` and
`1` and none for the key `5`. -/
theorem InitCUDAStreams_misses_device :
    ∃ st1, InitCUDAStreams ⟨0, AdasumAlgorithm.GPU_NCCL_SUM_RING, 0, 1, [0], 0⟩ [⟨0⟩, ⟨5⟩]
        ⟨fun _ _ => none, 0, fun _ _ => none, 0, none, []⟩ = some st1 ∧
      st1.streams 0 0 = some 0 ∧ st1.streams 0 1 = some 1 ∧ st1.streams 0 5 = none ∧
      st1.streams_created = 2 :=
  ⟨_, rfl, rfl, rfl, rfl, rfl⟩

/-! ## The event protocol of `NcclHierarchical` -/

theorem eventRun_append (a b : List Call) :
    ∀ slots, eventRun (a ++ b) slots = (eventRun a slots).bind (eventRun b) := by
  induction a with
  | nil => intro slots; rfl
  | cons c cs ih =>
    intro slots
    simp only [List.cons_append, eventRun]
    cases eventStep slots c with
    | none => rfl
    | some s1 => exact ih s1

theorem eventRun_reduceLoop_cross (streams : Int → Option Nat) :
    ∀ (es : List TensorTableEntry) (i0 : Nat) (slots : Nat → Option EventPhase),
      (∀ j, i0 ≤ j → j < i0 + es.length → slots j = none) →
      ∃ s1, eventRun (NcclHierarchical.reduceLoop streams true es i0) slots = some s1 ∧
        ∀ j, s1 j = if i0 ≤ j ∧ j < i0 + es.length then some EventPhase.recorded
          else slots j := by
  intro es
  induction es with
  | nil =>
    intro i0 slots _
    refine ⟨slots, rfl, fun j => ?_⟩
    rw [if_neg (by simp)]
  | cons e rest ih =>
    intro i0 slots h
    have h0 : slots i0 = none := h i0 (le_refl _) (by simp)
    obtain ⟨s1, e1, e2⟩ := ih (i0 + 1)
      (fun j => if j = i0 then some EventPhase.recorded else
        if j = i0 then some EventPhase.acquired else slots j)
      (fun j h1 h2 => by
        have hne : j ≠ i0 := by omega
        simp only [hne, if_false]
        exact h j (by omega) (by simp only [List.length_cons]; omega))
    refine ⟨s1, ?_, fun j => ?_⟩
    · simp only [NcclHierarchical.reduceLoop, if_true, List.cons_append, List.nil_append,
        List.append_assoc, eventRun, eventStep, h0, if_true]
      exact e1
    · rw [e2 j]
      simp only [List.length_cons]
      by_cases hj : j = i0
      · subst hj
        rw [if_neg (by omega), if_pos (by omega)]
        simp
      · by_cases hr : i0 + 1 ≤ j ∧ j < i0 + 1 + rest.length
        · rw [if_pos hr, if_pos (by omega)]
        · have hR : ¬ (i0 ≤ j ∧ j < i0 + (rest.length + 1)) := by omega
          rw [if_neg hr, if_neg hR]
          simp [hj]

theorem eventRun_reduceLoop_local (streams : Int → Option Nat) :
    ∀ (es : List TensorTableEntry) (i0 : Nat) (slots : Nat → Option EventPhase),
      eventRun (NcclHierarchical.reduceLoop streams false es i0) slots = some slots := by
  intro es
  induction es with
  | nil => intro i0 slots; rfl
  | cons e rest ih =>
    intro i0 slots
    simp only [NcclHierarchical.reduceLoop, Bool.false_eq_true, if_false, List.append_nil,
      List.cons_append, List.nil_append, eventRun, eventStep]
    exact ih (i0 + 1) slots

theorem eventRun_crossLoop (streams : Int → Option Nat) :
    ∀ (es : List TensorTableEntry) (i0 : Nat) (slots : Nat → Option EventPhase),
      (∀ j, i0 ≤ j → j < i0 + es.length → slots j = some EventPhase.recorded) →
      ∃ s1, eventRun (NcclHierarchical.crossLoop streams es i0) slots = some s1 ∧
        ∀ j, s1 j = if i0 ≤ j ∧ j < i0 + es.length then none else slots j := by
  intro es
  induction es with
  | nil =>
    intro i0 slots _
    refine ⟨slots, rfl, fun j => ?_⟩
    rw [if_neg (by simp)]
  | cons e rest ih =>
    intro i0 slots h
    have h0 : slots i0 = some EventPhase.recorded := h i0 (le_refl _) (by simp)
    obtain ⟨s1, e1, e2⟩ := ih (i0 + 1)
      (fun j => if j = i0 then none else
        if j = i0 then some EventPhase.synchronized else slots j)
      (fun j h1 h2 => by
        have hne : j ≠ i0 := by omega
        simp only [hne, if_false]
        exact h j (by omega) (by simp only [List.length_cons]; omega))
    refine ⟨s1, ?_, fun j => ?_⟩
    · simp only [NcclHierarchical.crossLoop, List.cons_append, List.nil_append, eventRun,
        eventStep, h0, if_true]
      exact e1
    · rw [e2 j]
      simp only [List.length_cons]
      by_cases hj : j = i0
      · subst hj
        rw [if_neg (by omega), if_pos (by omega)]
        simp
      · by_cases hr : i0 + 1 ≤ j ∧ j < i0 + 1 + rest.length
        · rw [if_pos hr, if_pos (by omega)]
        · have hR : ¬ (i0 ≤ j ∧ j < i0 + (rest.length + 1)) := by omega
          rw [if_neg hr, if_neg hR]
          simp [hj]

theorem eventRun_bcastLoop (streams : Int → Option Nat) :
    ∀ (es : List TensorTableEntry) (i0 : Nat) (slots : Nat → Option EventPhase),
      (∀ j, i0 ≤ j → j < i0 + es.length → slots j = none) →
      ∃ s1, eventRun (NcclHierarchical.bcastLoop streams es i0) slots = some s1 ∧
        ∀ j, s1 j = if i0 ≤ j ∧ j < i0 + es.length then some EventPhase.recorded
          else slots j := by
  intro es
  induction es with
  | nil =>
    intro i0 slots _
    refine ⟨slots, rfl, fun j => ?_⟩
    rw [if_neg (by simp)]
  | cons e rest ih =>
    intro i0 slots h
    have h0 : slots i0 = none := h i0 (le_refl _) (by simp)
    obtain ⟨s1, e1, e2⟩ := ih (i0 + 1)
      (fun j => if j = i0 then some EventPhase.recorded else
        if j = i0 then some EventPhase.acquired else slots j)
      (fun j h1 h2 => by
        have hne : j ≠ i0 := by omega
        simp only [hne, if_false]
        exact h j (by omega) (by simp only [List.length_cons]; omega))
    refine ⟨s1, ?_, fun j => ?_⟩
    · simp only [NcclHierarchical.bcastLoop, List.cons_append, List.nil_append, eventRun,
        eventStep, h0, if_true]
      exact e1
    · rw [e2 j]
      simp only [List.length_cons]
      by_cases hj : j = i0
      · subst hj
        rw [if_neg (by omega), if_pos (by omega)]
        simp
      · by_cases hr : i0 + 1 ≤ j ∧ j < i0 + 1 + rest.length
        · rw [if_pos hr, if_pos (by omega)]
        · have hR : ¬ (i0 ≤ j ∧ j < i0 + (rest.length + 1)) := by omega
          rw [if_neg hr, if_neg hR]
          simp [hj]

theorem eventRun_syncLoop :
    ∀ (es : List TensorTableEntry) (i0 : Nat) (slots : Nat → Option EventPhase),
      (∀ j, i0 ≤ j → j < i0 + es.length → slots j = some EventPhase.recorded) →
      ∃ s1, eventRun (NcclHierarchical.syncLoop es i0) slots = some s1 ∧
        ∀ j, s1 j = if i0 ≤ j ∧ j < i0 + es.length then none else slots j := by
  intro es
  induction es with
  | nil =>
    intro i0 slots _
    refine ⟨slots, rfl, fun j => ?_⟩
    rw [if_neg (by simp)]
  | cons e rest ih =>
    intro i0 slots h
    have h0 : slots i0 = some EventPhase.recorded := h i0 (le_refl _) (by simp)
    obtain ⟨s1, e1, e2⟩ := ih (i0 + 1)
      (fun j => if j = i0 then none else
        if j = i0 then some EventPhase.synchronized else slots j)
      (fun j h1 h2 => by
        have hne : j ≠ i0 := by omega
        simp only [hne, if_false]
        exact h j (by omega) (by simp only [List.length_cons]; omega))
    refine ⟨s1, ?_, fun j => ?_⟩
    · simp only [NcclHierarchical.syncLoop, List.cons_append, List.nil_append, eventRun,
        eventStep, h0, if_true]
      exact e1
    · rw [e2 j]
      simp only [List.length_cons]
      by_cases hj : j = i0
      · subst hj
        rw [if_neg (by omega), if_pos (by omega)]
        simp
      · by_cases hr : i0 + 1 ≤ j ∧ j < i0 + 1 + rest.length
        · rw [if_pos hr, if_pos (by omega)]
        · have hR : ¬ (i0 ≤ j ∧ j < i0 + (rest.length + 1)) := by omega
          rw [if_neg hr, if_neg hR]
          simp [hj]

theorem count_reduceLoop (streams : Int → Option Nat) (do_cross_comm : Bool) :
    ∀ (es : List TensorTableEntry) (i0 : Nat),
      acquisitions (NcclHierarchical.reduceLoop streams do_cross_comm es i0)
          = (if do_cross_comm then es.length else 0) ∧
        releases (NcclHierarchical.reduceLoop streams do_cross_comm es i0) = 0 := by
  intro es
  induction es with
  | nil => intro i0; cases do_cross_comm <;> exact ⟨rfl, rfl⟩
  | cons e rest ih =>
    intro i0
    obtain ⟨h1, h2⟩ := ih (i0 + 1)
    simp only [acquisitions, releases] at h1 h2 ⊢
    cases do_cross_comm with
    | false =>
      simp only [Bool.false_eq_true, if_false] at h1 ⊢
      simp [NcclHierarchical.reduceLoop, List.countP_cons, h1, h2]
    | true =>
      simp only [if_true] at h1 ⊢
      simp [NcclHierarchical.reduceLoop, List.countP_cons, h1, h2]

theorem count_crossLoop (streams : Int → Option Nat) :
    ∀ (es : List TensorTableEntry) (i0 : Nat),
      acquisitions (NcclHierarchical.crossLoop streams es i0) = 0 ∧
        releases (NcclHierarchical.crossLoop streams es i0) = es.length := by
  intro es
  induction es with
  | nil => intro i0; exact ⟨rfl, rfl⟩
  | cons e rest ih =>
    intro i0
    obtain ⟨h1, h2⟩ := ih (i0 + 1)
    simp only [acquisitions, releases] at h1 h2 ⊢
    simp [NcclHierarchical.crossLoop, List.countP_cons, h1, h2]

theorem count_bcastLoop (streams : Int → Option Nat) :
    ∀ (es : List TensorTableEntry) (i0 : Nat),
      acquisitions (NcclHierarchical.bcastLoop streams es i0) = es.length ∧
        releases (NcclHierarchical.bcastLoop streams es i0) = 0 := by
  intro es
  induction es with
  | nil => intro i0; exact ⟨rfl, rfl⟩
  | cons e rest ih =>
    intro i0
    obtain ⟨h1, h2⟩ := ih (i0 + 1)
    simp only [acquisitions, releases] at h1 h2 ⊢
    simp [NcclHierarchical.bcastLoop, List.countP_cons, h1, h2]

theorem count_syncLoop :
    ∀ (es : List TensorTableEntry) (i0 : Nat),
      acquisitions (NcclHierarchical.syncLoop es i0) = 0 ∧
        releases (NcclHierarchical.syncLoop es i0) = es.length := by
  intro es
  induction es with
  | nil => intro i0; exact ⟨rfl, rfl⟩
  | cons e rest ih =>
    intro i0
    obtain ⟨h1, h2⟩ := ih (i0 + 1)
    simp only [acquisitions, releases] at h1 h2 ⊢
    simp [NcclHierarchical.syncLoop, List.countP_cons, h1, h2]

theorem acquisitions_append (a b : List Call) :
    acquisitions (a ++ b) = acquisitions a + acquisitions b := by
  unfold acquisitions; exact List.countP_append _ _ _

theorem releases_append (a b : List Call) :
    releases (a ++ b) = releases a + releases b := by
  unfold releases; exact List.countP_append _ _ _

/-- C15. Event pool balance in `NcclHierarchical`, for every batch (of any number `n`
of entries) and both values of `do_cross_comm`, all device calls succeeding.  The
function returns OK, and the calls it makes after `InitNCCLComm` follow the event
protocol to the end: every slot is acquired only while it holds no unreleased
event, and each acquired event is recorded, then synchronised, then released; at
the return no slot holds an event.  The number of `GetCudaEvent` calls and the
number of `ReleaseCudaEvent` calls are both `n` without `do_cross_comm` and `2n`
with it. -/
theorem NcclHierarchical_event_balance (env : Env) (response : Response)
    (entries : List TensorTableEntry) (st : GpuState) :
    (NcclHierarchical env response entries st).1 = Outcome.returned MsAllreduceOp.Status.OK ∧
    (NcclHierarchical env response entries st).2.log
      = (InitNCCLComm env (env.local_comm_ranks.map fun rank => response.devices rank) st).log
        ++ NcclHierarchical.calls env entries
          (InitNCCLComm env (env.local_comm_ranks.map fun rank => response.devices rank) st) ∧
    ∀ s : GpuState,
      (∃ slots, eventRun (NcclHierarchical.calls env entries s) (fun _ => none) = some slots ∧
        ∀ i, slots i = none) ∧
      acquisitions (NcclHierarchical.calls env entries s)
        = (if NcclHierarchical.do_cross_comm env then 2 * entries.length else entries.length) ∧
      releases (NcclHierarchical.calls env entries s)
        = (if NcclHierarchical.do_cross_comm env then 2 * entries.length
            else entries.length) := by
  refine ⟨rfl, rfl, fun s => ?_⟩
  obtain ⟨c1, c2⟩ := count_reduceLoop (s.streams env.current_nccl_stream)
    (NcclHierarchical.do_cross_comm env) entries 0
  obtain ⟨c3, c4⟩ := count_crossLoop (s.streams env.current_nccl_stream) entries 0
  obtain ⟨c5, c6⟩ := count_bcastLoop (s.streams env.current_nccl_stream) entries 0
  obtain ⟨c7, c8⟩ := count_syncLoop entries 0
  refine ⟨?_, ?_, ?_⟩
  · simp only [NcclHierarchical.calls, eventRun_append]
    cases hc : NcclHierarchical.do_cross_comm env with
    | true =>
      obtain ⟨s1, e1, p1⟩ := eventRun_reduceLoop_cross (s.streams env.current_nccl_stream)
        entries 0 (fun _ => none) (fun _ _ _ => rfl)
      obtain ⟨s2, e2, p2⟩ := eventRun_crossLoop (s.streams env.current_nccl_stream)
        entries 0 s1 (fun j h1 h2 => by rw [p1 j, if_pos ⟨h1, h2⟩])
      obtain ⟨s3, e3, p3⟩ := eventRun_bcastLoop (s.streams env.current_nccl_stream)
        entries 0 s2 (fun j h1 h2 => by rw [p2 j, if_pos ⟨h1, h2⟩])
      obtain ⟨s4, e4, p4⟩ := eventRun_syncLoop entries 0 s3
        (fun j h1 h2 => by rw [p3 j, if_pos ⟨h1, h2⟩])
      refine ⟨s4, ?_, fun i => ?_⟩
      · simp only [if_true, e1, e2, e3, e4, Option.some_bind, Option.bind_eq_bind]
      · rw [p4 i]
        split
        · rfl
        · rw [p3 i]
          split
          · next h1 h2 => exact absurd h2 h1
          · rw [p2 i]
            split
            · rfl
            · rw [p1 i]
              split
              · next h1 h2 h3 h4 => exact absurd h4 h3
              · rfl
    | false =>
      obtain ⟨s3, e3, p3⟩ := eventRun_bcastLoop (s.streams env.current_nccl_stream)
        entries 0 (fun _ => none) (fun _ _ _ => rfl)
      obtain ⟨s4, e4, p4⟩ := eventRun_syncLoop entries 0 s3
        (fun j h1 h2 => by rw [p3 j, if_pos ⟨h1, h2⟩])
      refine ⟨s4, ?_, fun i => ?_⟩
      · simp only [Bool.false_eq_true, if_false, eventRun_reduceLoop_local, eventRun, e3, e4,
          Option.some_bind, Option.bind_eq_bind]
      · rw [p4 i]
        split
        · rfl
        · rw [p3 i]
          split
          · next h1 h2 => exact absurd h2 h1
          · rfl
  · simp only [NcclHierarchical.calls, acquisitions_append, c1, c5, c7]
    cases NcclHierarchical.do_cross_comm env with
    | true => simp only [if_true, c3]; omega
    | false => simp only [Bool.false_eq_true, if_false]; simp [acquisitions]
  · simp only [NcclHierarchical.calls, releases_append, c2, c6, c8]
    cases NcclHierarchical.do_cross_comm env with
    | true => simp only [if_true, c4]; omega
    | false => simp only [Bool.false_eq_true, if_false]; simp [releases]

/-! ## The streams of the entries of a batch -/

theorem createIfNull_origin (stream_set key s k : Int) (st : GpuState) (h : Nat)
    (hh : (createIfNull stream_set key st).streams s k = some h) :
    st.streams_created ≤ (createIfNull stream_set key st).streams_created ∧
    (st.streams s k = some h ∨
      (st.streams s k = none ∧ st.streams_created ≤ h ∧
        h < (createIfNull stream_set key st).streams_created)) := by
  unfold createIfNull at hh ⊢
  cases hk : st.streams stream_set key with
  | some x =>
    simp only [hk] at hh ⊢
    exact ⟨le_refl _, Or.inl hh⟩
  | none =>
    simp only [hk] at hh ⊢
    refine ⟨by omega, ?_⟩
    by_cases hc : s = stream_set ∧ k = key
    · rw [if_pos hc] at hh
      obtain ⟨rfl, rfl⟩ := hc
      injection hh with hh
      exact Or.inr ⟨hk, by omega, by omega⟩
    · rw [if_neg hc] at hh
      exact Or.inl hh

theorem createIfNull_counter (stream_set key : Int) (st : GpuState) :
    st.streams_created ≤ (createIfNull stream_set key st).streams_created := by
  unfold createIfNull
  cases hk : st.streams stream_set key with
  | some x => exact le_refl _
  | none => simp only; omega

theorem InitCUDAStreams_loop_origin (cur : Int) :
    ∀ (n i : Nat) (st : GpuState) (s k : Int) (h : Nat),
      st.streams_created ≤ (InitCUDAStreams.loop cur n i st).streams_created ∧
      ((InitCUDAStreams.loop cur n i st).streams s k = some h →
        (st.streams s k = some h ∨
          (st.streams s k = none ∧ st.streams_created ≤ h ∧
            h < (InitCUDAStreams.loop cur n i st).streams_created))) := by
  intro n
  induction n with
  | zero =>
    intro i st s k h
    exact ⟨le_refl _, fun hh => Or.inl hh⟩
  | succ n ih =>
    intro i st s k h
    rw [InitCUDAStreams.loop]
    obtain ⟨c1, o1⟩ := ih (i + 1) (createIfNull cur (i : Int) st) s k h
    have c0 := createIfNull_counter cur (i : Int) st
    refine ⟨le_trans c0 c1, fun hh => ?_⟩
    rcases o1 hh with h1 | ⟨h1, h2, h3⟩
    · rcases (createIfNull_origin cur (i : Int) s k st h h1).2 with h4 | ⟨h4, h5, h6⟩
      · exact Or.inl h4
      · exact Or.inr ⟨h4, h5, lt_of_lt_of_le h6 c1⟩
    · refine Or.inr ⟨?_, le_trans c0 h2, h3⟩
      cases hst : st.streams s k with
      | none => rfl
      | some x =>
        have hx : ((createIfNull cur (i : Int) st).streams s k) = some x := by
          rw [createIfNull_keeps cur (i : Int) s k st (by rw [hst]; rfl)]
          exact hst
        rw [hx] at h1
        cases h1

/-- The stream that `InitCUDAStreams` leaves under a key is the one the table held
before the call, or the table held none and the stream is one of those created
by this call. -/
theorem InitCUDAStreams_origin (env : Env) (first : TensorTableEntry)
    (rest : List TensorTableEntry) (st st1 : GpuState)
    (h : InitCUDAStreams env (first :: rest) st = some st1) (s k : Int) (x : Nat)
    (hx : st1.streams s k = some x) :
    st.streams s k = some x ∨
      (st.streams s k = none ∧ st.streams_created ≤ x ∧ x < st1.streams_created) := by
  simp only [InitCUDAStreams, List.getElem?_cons_zero, Option.some.injEq] at h
  subst h
  have hl := InitCUDAStreams_loop_origin env.current_nccl_stream (first :: rest).length 0
    { st with log := st.log ++ [Call.cudaSetDevice first.device] } s k x
  obtain ⟨c1, o1⟩ := hl
  have c0 := createIfNull_counter env.current_nccl_stream first.device
    (InitCUDAStreams.loop env.current_nccl_stream (first :: rest).length 0
      { st with log := st.log ++ [Call.cudaSetDevice first.device] })
  rcases (createIfNull_origin _ _ s k _ x hx).2 with h1 | ⟨h1, h2, h3⟩
  · rcases o1 h1 with h4 | ⟨h4, h5, h6⟩
    · exact Or.inl h4
    · exact Or.inr ⟨h4, h5, lt_of_lt_of_le h6 c0⟩
  · refine Or.inr ⟨?_, le_trans c1 h2, h3⟩
    cases hst : st.streams s k with
    | none => rfl
    | some y =>
      have hy : (InitCUDAStreams.loop env.current_nccl_stream (first :: rest).length 0
          { st with log := st.log ++ [Call.cudaSetDevice first.device] }).streams s k
            = some y := by
        rw [InitCUDAStreams_loop_keeps env.current_nccl_stream _ 0 _ s k (by simp only; rw [hst]; rfl)]
        exact hst
      rw [hy] at h1
      cases h1

theorem InitNCCLComm_streams (env : Env) (nccl_device_map : List Int) (st : GpuState) :
    (InitNCCLComm env nccl_device_map st).streams = st.streams := by
  unfold InitNCCLComm
  cases st.nccl_comms env.current_nccl_stream nccl_device_map <;> rfl

theorem stream_reduceLoop (streams : Int → Option Nat) (b : Bool) :
    ∀ (entries : List TensorTableEntry) (i : Nat) (c : Call) (s : Option Nat),
      c ∈ NcclHierarchical.reduceLoop streams b entries i → c.stream = some s →
      ∃ entry ∈ entries, s = streams entry.device := by
  intro entries
  induction entries with
  | nil => intro i c s hc; simp [NcclHierarchical.reduceLoop] at hc
  | cons e rest ih =>
    intro i c s hc hs
    simp only [NcclHierarchical.reduceLoop, List.mem_append, List.mem_singleton] at hc
    rcases hc with (hc | hc) | hc
    · subst hc
      simp only [Call.stream, Option.some.injEq] at hs
      exact ⟨e, List.mem_cons_self _ _, hs.symm⟩
    · cases b with
      | false => simp at hc
      | true =>
        simp only [if_true, List.mem_cons, List.mem_singleton, List.not_mem_nil, or_false] at hc
        rcases hc with hc | hc | hc
        · subst hc
          simp only [Call.stream, Option.some.injEq] at hs
          exact ⟨e, List.mem_cons_self _ _, hs.symm⟩
        · subst hc
          simp [Call.stream] at hs
        · subst hc
          simp only [Call.stream, Option.some.injEq] at hs
          exact ⟨e, List.mem_cons_self _ _, hs.symm⟩
    · obtain ⟨e1, he1, hs1⟩ := ih (i + 1) c s hc hs
      exact ⟨e1, List.mem_cons_of_mem _ he1, hs1⟩

theorem stream_crossLoop (streams : Int → Option Nat) :
    ∀ (entries : List TensorTableEntry) (i : Nat) (c : Call) (s : Option Nat),
      c ∈ NcclHierarchical.crossLoop streams entries i → c.stream = some s →
      ∃ entry ∈ entries, s = streams entry.device := by
  intro entries
  induction entries with
  | nil => intro i c s hc; simp [NcclHierarchical.crossLoop] at hc
  | cons e rest ih =>
    intro i c s hc hs
    simp only [NcclHierarchical.crossLoop, List.mem_append, List.mem_cons, List.mem_singleton,
      List.not_mem_nil, or_false] at hc
    rcases hc with (hc | hc | hc | hc) | hc
    · subst hc; simp [Call.stream] at hs
    · subst hc; simp [Call.stream] at hs
    · subst hc; simp [Call.stream] at hs
    · subst hc
      simp only [Call.stream, Option.some.injEq] at hs
      exact ⟨e, List.mem_cons_self _ _, hs.symm⟩
    · obtain ⟨e1, he1, hs1⟩ := ih (i + 1) c s hc hs
      exact ⟨e1, List.mem_cons_of_mem _ he1, hs1⟩

theorem stream_bcastLoop (streams : Int → Option Nat) :
    ∀ (entries : List TensorTableEntry) (i : Nat) (c : Call) (s : Option Nat),
      c ∈ NcclHierarchical.bcastLoop streams entries i → c.stream = some s →
      ∃ entry ∈ entries, s = streams entry.device := by
  intro entries
  induction entries with
  | nil => intro i c s hc; simp [NcclHierarchical.bcastLoop] at hc
  | cons e rest ih =>
    intro i c s hc hs
    simp only [NcclHierarchical.bcastLoop, List.mem_append, List.mem_cons, List.mem_singleton,
      List.not_mem_nil, or_false] at hc
    rcases hc with (hc | hc | hc) | hc
    · subst hc
      simp only [Call.stream, Option.some.injEq] at hs
      exact ⟨e, List.mem_cons_self _ _, hs.symm⟩
    · subst hc; simp [Call.stream] at hs
    · subst hc
      simp only [Call.stream, Option.some.injEq] at hs
      exact ⟨e, List.mem_cons_self _ _, hs.symm⟩
    · obtain ⟨e1, he1, hs1⟩ := ih (i + 1) c s hc hs
      exact ⟨e1, List.mem_cons_of_mem _ he1, hs1⟩

theorem stream_syncLoop :
    ∀ (entries : List TensorTableEntry) (i : Nat) (c : Call),
      c ∈ NcclHierarchical.syncLoop entries i → c.stream = none := by
  intro entries
  induction entries with
  | nil => intro i c hc; simp [NcclHierarchical.syncLoop] at hc
  | cons e rest ih =>
    intro i c hc
    simp only [NcclHierarchical.syncLoop, List.mem_append, List.mem_cons, List.mem_singleton,
      List.not_mem_nil, or_false] at hc
    rcases hc with (hc | hc) | hc
    · subst hc; rfl
    · subst hc; rfl
    · exact ih (i + 1) c hc

/-- Every stream that `NcclHierarchical` passes to a call is the stream the table of
the current stream set holds for the device of one of the entries. -/
theorem stream_calls (env : Env) (entries : List TensorTableEntry) (st : GpuState)
    (c : Call) (s : Option Nat) (hc : c ∈ NcclHierarchical.calls env entries st)
    (hs : c.stream = some s) :
    ∃ entry ∈ entries, s = st.streams env.current_nccl_stream entry.device := by
  simp only [NcclHierarchical.calls, List.mem_append] at hc
  rcases hc with ((hc | hc) | hc) | hc
  · exact stream_reduceLoop _ _ entries 0 c s hc hs
  · by_cases hd : NcclHierarchical.do_cross_comm env = true
    · rw [if_pos hd] at hc
      exact stream_crossLoop _ entries 0 c s hc hs
    · rw [if_neg hd] at hc
      simp at hc
  · exact stream_bcastLoop _ entries 0 c s hc hs
  · rw [stream_syncLoop entries 0 c hc] at hs
    cases hs

/-- C16. After `InitCUDAStreams(entries)` on a non-empty batch, all of whose entries
are on one device (the batch the dispatch layer delivers: one device per rank in
`response.devices()`, one `cudaSetDevice(first_entry.device)` for the batch), the
stream table for the current stream-set index holds a non-null stream for the
device id of every entry.  That stream is the one the table held before the call
or, when it held none, one created by this call.  Every stream that
`NcclHierarchical` then passes to `ncclReduce`, `cudaMemcpyAsync`,
`cudaEventRecord` and `ncclBcast`, and that `MemcpyUtil` passes to
`cudaMemcpyAsync` and `cudaStreamSynchronize`, looked up by `entry.device`, is
this stream. -/
theorem InitCUDAStreams_covers_batch (env : Env) (first : TensorTableEntry)
    (rest : List TensorTableEntry) (st : GpuState)
    (hdev : ∀ entry ∈ first :: rest, entry.device = first.device) :
    ∃ st1 stream, InitCUDAStreams env (first :: rest) st = some st1 ∧
      (∀ entry ∈ first :: rest,
        st1.streams env.current_nccl_stream entry.device = some stream) ∧
      (st.streams env.current_nccl_stream first.device = some stream ∨
        (st.streams env.current_nccl_stream first.device = none ∧
          st.streams_created ≤ stream ∧ stream < st1.streams_created)) ∧
      (∀ (nccl_device_map : List Int) (c : Call) (s : Option Nat),
        c ∈ NcclHierarchical.calls env (first :: rest)
          (InitNCCLComm env nccl_device_map st1) →
        c.stream = some s → s = some stream) ∧
      (∀ entry ∈ first :: rest, ∀ layerid,
        (MemcpyUtil env entry layerid st1).log = st1.log ++
          [Call.cudaMemcpyAsync layerid MemcpyKind.cudaMemcpyDeviceToDevice (some stream),
           Call.cudaStreamSynchronize (some stream)]) := by
  obtain ⟨st1, h1⟩ := InitCUDAStreams_isSome env (first :: rest) st (by simp)
  obtain ⟨-, h3⟩ := InitCUDAStreams_streams env first rest st st1 h1
  obtain ⟨stream, hstream⟩ := Option.isSome_iff_exists.mp h3
  have hall : ∀ entry ∈ first :: rest,
      st1.streams env.current_nccl_stream entry.device = some stream := by
    intro entry he
    rw [hdev entry he]
    exact hstream
  refine ⟨st1, stream, h1, hall, ?_, ?_, ?_⟩
  · exact InitCUDAStreams_origin env first rest st st1 h1 _ _ stream hstream
  · intro nccl_device_map c s hc hs
    obtain ⟨entry, he, hse⟩ := stream_calls env (first :: rest) _ c s hc hs
    rw [hse, InitNCCLComm_streams, hall entry he]
  · intro entry he layerid
    simp only [MemcpyUtil, hall entry he]

theorem InitCUDAStreams_covers_batch_witness :
    ∃ st1 stream, InitCUDAStreams ⟨0, AdasumAlgorithm.GPU_NCCL_SUM_RING, 0, 1, [0], 0⟩
        [⟨3⟩, ⟨3⟩] ⟨fun _ _ => none, 0, fun _ _ => none, 0, none, []⟩ = some st1 ∧
      st1.streams 0 3 = some stream ∧ stream = 2 := by
  obtain ⟨st1, stream, h1, h2, h3, -, -⟩ := InitCUDAStreams_covers_batch
    ⟨0, AdasumAlgorithm.GPU_NCCL_SUM_RING, 0, 1, [0], 0⟩ ⟨3⟩ [⟨3⟩]
    ⟨fun _ _ => none, 0, fun _ _ => none, 0, none, []⟩
    (by intro entry he; simp only [List.mem_cons, List.mem_singleton, List.not_mem_nil,
          or_false, or_self] at he; rw [he])
  refine ⟨st1, stream, h1, h2 ⟨3⟩ (by simp), ?_⟩
  have e : InitCUDAStreams ⟨0, AdasumAlgorithm.GPU_NCCL_SUM_RING, 0, 1, [0], 0⟩
      [⟨3⟩, ⟨3⟩] ⟨fun _ _ => none, 0, fun _ _ => none, 0, none, []⟩ = some st1 := h1
  have e2 := h2 ⟨3⟩ (by simp)
  simp only [InitCUDAStreams, List.getElem?_cons_zero, Option.some.injEq] at e
  subst e
  have e3 : (some 2 : Option Nat) = some stream := e2
  injection e3 with e3
  exact e3.symm

end AdasumCudaAllreduceOp
